import Mathlib

/-!
# Knight's tour search (`knight.cpp`): embedding and verification

The program keeps its whole state in global arrays.  The embedding keeps the
same globals in one record, addresses `gLegalMovesMatrix` by flat `char`
offsets (a `char*` into the matrix is the offset from `&gLegalMovesMatrix[0][0]`),
and makes every array access explicit: an access outside the declared bounds of
an array, or a failed `assert`, yields `none` / `Outcome.fault`.
-/

namespace Knight

/-! ## Constants and globals -/

/-- The macro `MAX_GRID`. -/
def MAX_GRID : Nat := 11

/-- Number of `char` cells of `gLegalMovesMatrix[MAX_GRID*MAX_GRID*2][8+1]`. -/
def matrixSize : Nat := MAX_GRID * MAX_GRID * 2 * (8 + 1)

/-- Number of entries of `gTally` and of `gPositionStack`. -/
def tallySize : Nat := MAX_GRID * MAX_GRID

/-- The value a signed 8-bit `char` holds after an `int` is stored in it. -/
def toChar (v : Int) : Int := (v + 128) % 256 - 128

/-- The global variables of the program. -/
structure Globals where
  gLegalMovesMatrix : Nat → Int
  gLegalMoveToIndexOff : Nat
  gTally : Nat → Int
  gPositionStack : Nat → Nat
  gHit : Nat
  gGrid : Nat

/-- The function `rank`: `i/gGrid + 1` with C integer division. -/
def rank (gGrid : Nat) (i : Int) : Int := Int.tdiv i gGrid + 1

/-- The function `file`: `i%gGrid + 1` with C integer remainder. -/
def file (gGrid : Nat) (i : Int) : Int := Int.tmod i gGrid + 1

/-- The record `struct intPair`; the field order is that of the source. -/
structure intPair where
  file : Int
  rank : Int

/-- The local array `moves` of `initLegalMoves`, null entry included. -/
def moves : List intPair :=
  [⟨-1, -2⟩, ⟨1, -2⟩, ⟨-2, -1⟩, ⟨2, -1⟩, ⟨-2, 1⟩, ⟨2, 1⟩, ⟨-1, 2⟩, ⟨1, 2⟩, ⟨0, 0⟩]

/-! ## Array accesses -/

/-- Read `gLegalMovesMatrix` at a flat offset. -/
def readMatrix (g : Globals) (p : Nat) : Option Int :=
  if p < matrixSize then some (g.gLegalMovesMatrix p) else none

/-- Read `gLegalMovesMatrix[row][col]`. -/
def cell (g : Globals) (row : Int) (col : Nat) : Option Int :=
  if 0 ≤ row ∧ col < 9 then readMatrix g (row.toNat * 9 + col) else none

/-- Read `gTally[i]`. -/
def readTally (g : Globals) (i : Int) : Option Int :=
  if 0 ≤ i ∧ i < tallySize then some (g.gTally i.toNat) else none

/-- Read `gPositionStack[j]`. -/
def readStack (g : Globals) (j : Nat) : Option Nat :=
  if j < tallySize then some (g.gPositionStack j) else none

/-- The function `legalMovesToPosition`: `*(ptr + gLegalMoveToIndexOff)`. -/
def legalMovesToPosition (g : Globals) (ptr : Nat) : Option Int :=
  readMatrix g (ptr + g.gLegalMoveToIndexOff)

/-! ## `initLegalMoves` -/

/-- The inner `for` loop of `initLegalMoves` for square `i`: it walks the
offsets until the entry whose `rank` is zero and stores the destinations that
stay on the board at `gLegalMovesMatrix[i][colIndex++]`. -/
def fillRow (gGrid : Nat) (i : Nat) : List intPair → (Nat → Int) → Nat → (Nat → Int)
  | [], M, _ => M
  | mv :: rest, M, colIndex =>
    if mv.rank = 0 then M
    else
      let r := rank gGrid i + mv.rank
      let f := file gGrid i + mv.file
      if r > 0 ∧ r ≤ gGrid ∧ f > 0 ∧ f ≤ gGrid then
        fillRow gGrid i rest
          (Function.update M (i * 9 + colIndex) (toChar ((r - 1) * gGrid + (f - 1))))
          (colIndex + 1)
      else fillRow gGrid i rest M colIndex

/-- The call `memset(&gLegalMovesMatrix[row][0], v, 9)`. -/
def memsetRow (M : Nat → Int) (row : Nat) (v : Int) : Nat → Int :=
  fun j => if row * 9 ≤ j ∧ j < row * 9 + 9 then toChar v else M j

/-- The outer `for` loop of `initLegalMoves`: `n` iterations starting at
square `i`. -/
def initRows (gGrid gridSq : Nat) : Nat → Nat → (Nat → Int) → (Nat → Int)
  | 0, _, M => M
  | n + 1, i, M =>
    initRows gGrid gridSq n (i + 1) (memsetRow (fillRow gGrid i moves M 0) (i + gridSq) i)

/-- The function `initLegalMoves`. -/
def initLegalMoves (g : Globals) : Globals :=
  let gridSq := g.gGrid * g.gGrid
  { g with
    gLegalMoveToIndexOff := gridSq * 9
    gLegalMovesMatrix :=
      initRows g.gGrid gridSq gridSq 0
        (fun j => if j < matrixSize then toChar (-1) else g.gLegalMovesMatrix j) }

/-! ## `printStack` -/

/-- The numbers `printStack` prints in its `for` loop, for `i < n`. -/
def printPositions (g : Globals) : Nat → Option (List Int)
  | 0 => some []
  | n + 1 =>
    match printPositions g n, readStack g n with
    | some l, some ptr =>
      match legalMovesToPosition g ptr with
      | some v => some (l ++ [v])
      | none => none
    | _, _ => none

/-- The function `printStack`: the line of numbers it prints. -/
def printStack (g : Globals) : Option (List Int) :=
  if g.gHit = 0 then none
  else
    match printPositions g g.gHit, readStack g (g.gHit - 1) with
    | some l, some ptr =>
      match readMatrix g ptr with
      | some v => some (l ++ [v])
      | none => none
    | _, _ => none

/-! ## `initTallyAndPositionStack` -/

/-- The loop `for(i = 0; i < 9; ++i)` of `initTallyAndPositionStack`, entered
at `i` with `rem` iterations left; `nxt` is `*(cur+1)` when `cur+1 != end`.
The result is the value of `i` after the loop. -/
def scanMoves (g : Globals) (cur : Int) (nxt : Option Int) : Nat → Nat → Option Nat
  | 0, i => some i
  | rem + 1, i =>
    match nxt with
    | none =>
      match cell g cur i with
      | none => none
      | some v =>
        match readTally g v with
        | none => none
        | some t => if t = 0 then some i else scanMoves g cur nxt rem (i + 1)
    | some nx =>
      match cell g nx i with
      | none => none
      | some v => if v = cur then some i else scanMoves g cur nxt rem (i + 1)

/-- The loop `for(; cur < end; ++cur)` of `initTallyAndPositionStack`; `k` is
`cur - first` and the list holds `*cur, *(cur+1), ...` up to the terminator.
The result is the return code reached and the globals at that point; code `0`
stands for leaving the loop. -/
def validateFrom (maxIndex : Nat) : Globals → Nat → List Int → Option (Nat × Globals)
  | g, _, [] => some (0, g)
  | g, k, c :: rest =>
    if c ≥ maxIndex then some (4, g)
    else
      match readTally g c with
      | none => none
      | some t =>
        if t ≠ 0 then some (1, g)
        else
          let g1 := { g with gTally := Function.update g.gTally c.toNat 1, gHit := g.gHit + 1 }
          match scanMoves g1 c rest.head? 9 0 with
          | none => none
          | some i =>
            if i = 9 then some (2, g1)
            else if k < tallySize then
              validateFrom maxIndex
                { g1 with gPositionStack := Function.update g1.gPositionStack k (c.toNat * 9 + i) }
                (k + 1) rest
            else none

/-- The function `initTallyAndPositionStack`; `p` holds the elements of the
argument before its `-1` terminator.  The result is the return code and the
globals on return. -/
def initTallyAndPositionStack (g : Globals) (p : List Int) : Option (Nat × Globals) :=
  if p = [] then none
  else
    let maxIndex := g.gGrid * g.gGrid
    let g0 := { g with gTally := fun j => if j < tallySize then 0 else g.gTally j, gHit := 0 }
    if p.length > maxIndex then some (3, g0)
    else
      match validateFrom maxIndex g0 0 p with
      | some (0, g1) =>
        match printStack g1 with
        | some _ => some (0, g1)
        | none => none
      | r => r

/-- The function `initialize` of the source. -/
def initializeEngine (g : Globals) (initialStack : List Int) : Option (Nat × Globals) :=
  initTallyAndPositionStack (initLegalMoves g) initialStack

/-! ## `findSequentialSolutions` -/

/-- The globals together with the locals of `findSequentialSolutions` and the
lines printed by its completion branch. -/
structure Search where
  g : Globals
  next : Int
  miss : Nat
  paths : Nat
  out : List (List Int)

/-- What one pass through the body of the `do ... while(1)` loop leads to. -/
inductive Outcome where
  | running (s : Search)
  | returned (s : Search)
  | fault

/-- The `while` loop of the retreat branch followed by the three statements
after it.  The first argument is the current value of `gHit`; after `gHit--`
the square `legalMovesToPosition(gPositionStack[gHit])` is read, for the final
message when `gHit` is 0 and for the mark to erase otherwise. -/
def retreatLoop : Nat → Search → Outcome
  | 0, _ => Outcome.fault
  | h + 1, s =>
    match readStack s.g h with
    | none => Outcome.fault
    | some ptr =>
      match readMatrix s.g (ptr + 1) with
      | none => Outcome.fault
      | some v =>
        if v = -1 then
          match legalMovesToPosition s.g ptr with
          | none => Outcome.fault
          | some sq =>
            if h = 0 then Outcome.returned { s with g := { s.g with gHit := 0 } }
            else if 0 ≤ sq ∧ sq < tallySize then
              retreatLoop h
                { s with g := { s.g with gTally := Function.update s.g.gTally sq.toNat 0 } }
            else Outcome.fault
        else
          let g1 := { s.g with gHit := h + 1,
                               gPositionStack := Function.update s.g.gPositionStack h (ptr + 1) }
          Outcome.running { s with g := g1, miss := (s.miss + 1) % 2 ^ 64, next := v }

/-- One pass through the body of the `do ... while(1)` loop.  The call of
`printStack` under `gVerbose` changes no variable and is left out; `out`
collects the lines printed by the completion branch. -/
def step (s : Search) : Outcome :=
  match readTally s.g s.next with
  | none => Outcome.fault
  | some t =>
    if t = 0 then
      if s.g.gHit < tallySize then
        let g1 := { s.g with
          gTally := Function.update s.g.gTally s.next.toNat 1
          gPositionStack := Function.update s.g.gPositionStack s.g.gHit (s.next.toNat * 9) }
        if ((s.g.gGrid * s.g.gGrid : Nat) : Int) - 1 = s.g.gHit then
          match printStack g1 with
          | none => Outcome.fault
          | some line =>
            Outcome.running
              { s with g := { g1 with gHit := s.g.gHit + 1 },
                       paths := (s.paths + 1) % 2 ^ 64, out := s.out ++ [line] }
        else
          match readMatrix g1 (s.next.toNat * 9) with
          | none => Outcome.fault
          | some v => Outcome.running { s with g := { g1 with gHit := s.g.gHit + 1 }, next := v }
      else Outcome.fault
    else retreatLoop s.g.gHit s

/-- The state at the first entry of the loop: `next = *gPositionStack[gHit - 1]`
and both counters zero. -/
def startSearch (g : Globals) : Option Search :=
  if g.gHit = 0 then none
  else
    match readStack g (g.gHit - 1) with
    | none => none
    | some ptr =>
      match readMatrix g ptr with
      | none => none
      | some v => some { g := g, next := v, miss := 0, paths := 0, out := [] }

/-- The loop of `findSequentialSolutions` run for at most `fuel` passes. -/
def searchLoop : Nat → Search → Outcome
  | 0, s => Outcome.running s
  | fuel + 1, s =>
    match step s with
    | Outcome.running s1 => searchLoop fuel s1
    | r => r

/-- The function `findSequentialSolutions`, run for at most `fuel` passes of
its loop. -/
def findSequentialSolutions (fuel : Nat) (g : Globals) : Outcome :=
  match startSearch g with
  | none => Outcome.fault
  | some s => searchLoop fuel s

/-! ## Vocabulary of the specification -/

/-- The knight-move relation computed from rank and file differences. -/
def knightMove (N : Nat) (s t : Nat) : Prop :=
  (Int.natAbs ((t / N : Nat) - (s / N : Nat) : Int) = 1 ∧
      Int.natAbs ((t % N : Nat) - (s % N : Nat) : Int) = 2) ∨
  (Int.natAbs ((t / N : Nat) - (s / N : Nat) : Int) = 2 ∧
      Int.natAbs ((t % N : Nat) - (s % N : Nat) : Int) = 1)

instance (N s t : Nat) : Decidable (knightMove N s t) := by
  delta knightMove; infer_instance

/-- The nine slots of row `s` of the matrix. -/
def rowSlots (g : Globals) (s : Nat) : List Int :=
  (List.range 9).map (fun c => g.gLegalMovesMatrix (s * 9 + c))

/-- The move list of square `s`: the entries of row `s` before the first
sentinel. -/
def moveList (g : Globals) (s : Nat) : List Int :=
  (rowSlots g s).takeWhile (fun v => v ≠ -1)

/-- Globals before the program has run: every array zeroed, as C does for
objects of static storage duration, and `gGrid` as set by `main`. -/
def zeroGlobals (N : Nat) : Globals :=
  { gLegalMovesMatrix := fun _ => 0, gLegalMoveToIndexOff := 0, gTally := fun _ => 0,
    gPositionStack := fun _ => 0, gHit := 0, gGrid := N }

/-! ## `main` -/

/-- How the tests of the argument loop of `main` classify one command-line
argument.  The library calls behind the tests (`strlen`, `memcmp`, `atoi`,
`sscanf`) are not part of the program; their results are the data of the
constructors: `grid n` is an argument starting with `-g=` or `--grid=` for
which `atoi` gives `n`, `number num` an argument for which `sscanf` reads the
integer `num`, `illegal` an argument that passes none of the tests. -/
inductive Arg where
  | verbose
  | grid (n : Int)
  | help
  | number (num : Int)
  | illegal

/-- The variables the argument loop of `main` sets: `gGrid`, `gVerbose`,
`printHelpAndExit`, and the elements stored in `initialStackFromArg` so far
(their number is `initialStackFromArgCount`). -/
structure MainVars where
  gGrid : Nat
  gVerbose : Bool
  printHelpAndExit : Bool
  initialStackFromArg : List Int

/-- Where the argument loop of `main` ends: past the last argument, at one of
its `return` statements, or with a store outside `initialStackFromArg`. -/
inductive ParseOutcome where
  | parsed (v : MainVars)
  | exit (code : Int)
  | fault

/-- The argument loop of `main`. -/
def parseArgs : List Arg → MainVars → ParseOutcome
  | [], v => ParseOutcome.parsed v
  | Arg.verbose :: rest, v => parseArgs rest { v with gVerbose := true }
  | Arg.grid n :: rest, v =>
    if n > MAX_GRID ∨ n < 5 then ParseOutcome.exit (-1)
    else parseArgs rest { v with gGrid := n.toNat }
  | Arg.help :: rest, v => parseArgs rest { v with printHelpAndExit := true }
  | Arg.number num :: rest, v =>
    if v.initialStackFromArg.length = v.gGrid * v.gGrid then ParseOutcome.exit (-3)
    else if num > 127 ∨ num < 0 then ParseOutcome.exit (-4)
    else if v.initialStackFromArg.length < MAX_GRID * MAX_GRID + 1 then
      parseArgs rest { v with initialStackFromArg := v.initialStackFromArg ++ [toChar num] }
    else ParseOutcome.fault
  | Arg.illegal :: _, _ => ParseOutcome.exit (-2)

/-- How a run of `main` ends. -/
inductive MainOutcome where
  | exit (status : Int) (search : Option Search)
  | fault
  | unfinished

/-- The function `main`, with `findSequentialSolutions` run for at most `fuel`
passes of its loop.  `exit status search` is a `return status`; `search` is the
final state of `findSequentialSolutions` when it was called.  The globals start
zeroed, as objects of static storage duration do. -/
def main (fuel : Nat) (args : List Arg) : MainOutcome :=
  match parseArgs args
      { gGrid := 8, gVerbose := false, printHelpAndExit := false, initialStackFromArg := [] } with
  | ParseOutcome.exit code => MainOutcome.exit code none
  | ParseOutcome.fault => MainOutcome.fault
  | ParseOutcome.parsed v =>
    if v.initialStackFromArg.length = MAX_GRID * MAX_GRID + 1 then MainOutcome.fault
    else
      let initialStack := if v.initialStackFromArg.length = 0 then [0] else v.initialStackFromArg
      if v.printHelpAndExit then MainOutcome.exit 0 none
      else
        match initializeEngine (zeroGlobals v.gGrid) initialStack with
        | none => MainOutcome.fault
        | some (code, g1) =>
          if code ≠ 0 then MainOutcome.exit (-1) none
          else
            match findSequentialSolutions fuel g1 with
            | Outcome.returned s => MainOutcome.exit 0 (some s)
            | Outcome.running _ => MainOutcome.unfinished
            | Outcome.fault => MainOutcome.fault

/-- The exit status of a run of `main`, when it returns. -/
def exitStatus : MainOutcome → Option Int
  | MainOutcome.exit status _ => some status
  | _ => none

/-! ## Closed form of the table -/

/-- The test `r > 0 && r <= gGrid && f > 0 && f <= gGrid` for one offset. -/
def onBoard (gGrid : Nat) (i : Nat) (mv : intPair) : Prop :=
  rank gGrid i + mv.rank > 0 ∧ rank gGrid i + mv.rank ≤ gGrid ∧
    file gGrid i + mv.file > 0 ∧ file gGrid i + mv.file ≤ gGrid

instance (gGrid i : Nat) (mv : intPair) : Decidable (onBoard gGrid i mv) := by
  delta onBoard; infer_instance

/-- The `char` stored for one offset: `(r-1)*(gGrid) + (f-1)`. -/
def destOf (gGrid : Nat) (i : Nat) (mv : intPair) : Int :=
  toChar ((rank gGrid i + mv.rank - 1) * gGrid + (file gGrid i + mv.file - 1))

/-- The values the inner loop stores for square `i`, in the order stored. -/
def destsOf (gGrid : Nat) (i : Nat) : List intPair → List Int
  | [] => []
  | mv :: rest =>
    if mv.rank = 0 then []
    else if onBoard gGrid i mv then destOf gGrid i mv :: destsOf gGrid i rest
    else destsOf gGrid i rest

/-- The destinations stored for square `s` on a board of size `N`. -/
def dests (N s : Nat) : List Int := destsOf N s moves

/-- The content of the matrix after `initLegalMoves`, cell by cell. -/
def table (N : Nat) (j : Nat) : Int :=
  if j / 9 < N * N then (dests N (j / 9)).getD (j % 9) (-1)
  else if j / 9 < N * N + N * N then ((j / 9 - N * N : Nat) : Int)
  else -1

/-- One slot of the move list part of the table: row `s`, column `c`. -/
def slot (N s c : Nat) : Int := (dests N s).getD c (-1)

/-! ## Invariants -/

/-- The read-only globals hold what `initLegalMoves` leaves behind for a board
of size 5 to 11. -/
def TableOK (g : Globals) : Prop :=
  5 ≤ g.gGrid ∧ g.gGrid ≤ 11 ∧ g.gLegalMoveToIndexOff = g.gGrid * g.gGrid * 9 ∧
    ∀ j, j < matrixSize → g.gLegalMovesMatrix j = table g.gGrid j

/-- The squares on the first `h` stack positions: the row each cursor lies in. -/
def pathUpTo (st : Nat → Nat) (h : Nat) : List Nat :=
  (List.range h).map (fun k => st k / 9)

/-- Well-formed stack and visited set at depth `h`. -/
structure Wf (g : Globals) (h : Nat) : Prop where
  table : TableOK g
  cols : ∀ k, k < h → g.gPositionStack k % 9 ≤ 7
  rng : ∀ q, q ∈ pathUpTo g.gPositionStack h → q < g.gGrid * g.gGrid
  nodup : (pathUpTo g.gPositionStack h).Nodup
  tally : ∀ q, q < tallySize →
    g.gTally q = if q ∈ pathUpTo g.gPositionStack h then 1 else 0

/-- The cursor at stack position `h - 1` stands on an unvisited destination of
its square, and every earlier slot of that row holds a square of the path. -/
def TopFresh (g : Globals) (h : Nat) : Prop :=
  slot g.gGrid (g.gPositionStack (h - 1) / 9) (g.gPositionStack (h - 1) % 9) ≠ -1 ∧
  g.gTally (slot g.gGrid (g.gPositionStack (h - 1) / 9) (g.gPositionStack (h - 1) % 9)).toNat
    = 0 ∧
  ∀ j, j < g.gPositionStack (h - 1) % 9 →
    (slot g.gGrid (g.gPositionStack (h - 1) / 9) j).toNat ∈ pathUpTo g.gPositionStack h

/-- The knight-move relation on `char` values. -/
def knightMoveInt (N : Nat) (a b : Int) : Prop := knightMove N a.toNat b.toNat

/-- The invariant of the loop of `findSequentialSolutions` at the head of an
iteration. -/
structure Inv (s : Search) : Prop where
  wf : Wf s.g s.g.gHit
  pos : 1 ≤ s.g.gHit
  chain : List.Chain' (knightMove s.g.gGrid) (pathUpTo s.g.gPositionStack s.g.gHit)
  next_rng : 0 ≤ s.next ∧ s.next < s.g.gGrid * s.g.gGrid
  next_top : s.g.gTally s.next.toNat = 0 →
    s.next = slot s.g.gGrid (s.g.gPositionStack (s.g.gHit - 1) / 9)
      (s.g.gPositionStack (s.g.gHit - 1) % 9)

/-- A knight's tour of the `N`×`N` board, as a list of squares: `N*N` pairwise
distinct squares of the board, consecutive ones one knight move apart. -/
def TourNat (N : Nat) (t : List Nat) : Prop :=
  t.length = N * N ∧ t.Nodup ∧ (∀ q, q ∈ t → q < N * N) ∧ List.Chain' (knightMove N) t

/-- A printed line is a knight's tour: it has `N*N` entries, every square of
the board occurs in it exactly once, and consecutive entries are one knight
move apart by the rank and file test. -/
def IsTour (N : Nat) (l : List Int) : Prop :=
  l.length = N * N ∧ (∀ q, q < N * N → l.count (q : Int) = 1) ∧
    List.Chain' (fun a b => knightMove N a.toNat b.toNat) l

/-- Carry on with the loop after one pass of its body. -/
def cont (fuel : Nat) : Outcome → Outcome
  | Outcome.running s => searchLoop fuel s
  | r => r

/-- The complete paths printed so far. -/
def outOf : Outcome → List (List Int)
  | Outcome.running s => s.out
  | Outcome.returned s => s.out
  | Outcome.fault => []

/-- Variant of the search: free stack positions, then free columns of the top
cursor. -/
def searchMeasure (s : Search) : Nat :=
  (s.g.gGrid * s.g.gGrid - s.g.gHit) * 9 + (8 - s.g.gPositionStack (s.g.gHit - 1) % 9)

/-- What holds of the outcome of any number of passes of the loop: no fault,
the invariant at a loop head, depth zero on return, and only tours printed. -/
def GoodOutcome (N : Nat) : Outcome → Prop
  | Outcome.running s => Inv s ∧ s.g.gGrid = N ∧ ∀ l, l ∈ s.out → IsTour N l
  | Outcome.returned s => s.g.gHit = 0 ∧ ∀ l, l ∈ s.out → IsTour N l
  | Outcome.fault => False

/-- State `s1` stands at depth `h + 1` on the path and the lower cursors of
the stack `st`, its top cursor has no further candidate, and it has printed at
least the lines of `out`. -/
def Explored (N h : Nat) (st : Nat → Nat) (out : List (List Int)) (s1 : Search) : Prop :=
  Wf s1.g (h + 1) ∧ s1.g.gGrid = N ∧
  pathUpTo s1.g.gPositionStack (h + 1) = pathUpTo st (h + 1) ∧
  (∀ k, k < h → s1.g.gPositionStack k = st k) ∧
  slot N (s1.g.gPositionStack h / 9) (s1.g.gPositionStack h % 9 + 1) = -1 ∧
  (∀ l, l ∈ out → l ∈ s1.out)

/-- Every tour that continues the path of the stack `st` at depth `h + 1` with
the square in slot `j` of the top square's row, for the slots `j` that `ok`
admits, is among the lines `out1`. -/
def ToursIn (N h : Nat) (st : Nat → Nat) (ok : Nat → Nat → Prop)
    (out1 : List (List Int)) : Prop :=
  ∀ (t rest : List Nat) (x j : Nat), TourNat N t → t = pathUpTo st (h + 1) ++ x :: rest →
    slot N (st h / 9) j = (x : Int) → ok j x → t.map Int.ofNat ∈ out1

/-- A legal initial path on the `N`×`N` board: at most `N*N` elements, each a
square of the board, pairwise distinct, consecutive ones one knight move
apart. -/
def LegalPath (N : Nat) (p : List Int) : Prop :=
  p.length ≤ N * N ∧ (∀ v, v ∈ p → 0 ≤ v ∧ v < N * N) ∧ p.Nodup ∧
    List.Chain' (fun a b => knightMove N a.toNat b.toNat) p

end Knight

/-! # Theorems -/

namespace Knight

/-! ## Arithmetic of the board -/

theorem rank_nat (N s : Nat) : rank N s = ((s / N : Nat) : Int) + 1 := by
  unfold rank
  rw [Int.tdiv_eq_ediv (Int.natCast_nonneg _) (Int.natCast_nonneg _)]
  norm_cast

theorem file_nat (N s : Nat) : file N s = ((s % N : Nat) : Int) + 1 := by
  unfold file
  rw [Int.tmod_eq_emod (Int.natCast_nonneg _) (Int.natCast_nonneg _)]
  norm_cast

theorem toChar_id (v : Int) (h0 : 0 ≤ v) (h1 : v ≤ 127) : toChar v = v := by
  unfold toChar; omega

theorem toChar_neg_one : toChar (-1) = -1 := by
  decide

theorem sq_le_tallySize (N : Nat) (h11 : N ≤ 11) : N * N ≤ tallySize := by
  have : N * N ≤ 11 * 11 := Nat.mul_le_mul h11 h11
  simpa [tallySize, MAX_GRID] using this

theorem sq_ge (N : Nat) (h5 : 5 ≤ N) : 25 ≤ N * N := by
  have : 5 * 5 ≤ N * N := Nat.mul_le_mul h5 h5
  simpa using this

/-! ## The destinations of a square -/

theorem mem_destsOf (N i : Nat) (t : Int) (mvs : List intPair) :
    t ∈ destsOf N i mvs ↔
      ∃ mv ∈ mvs.takeWhile (fun m => decide (m.rank ≠ 0)), onBoard N i mv ∧ t = destOf N i mv := by
  induction mvs with
  | nil => simp [destsOf]
  | cons mv rest ih =>
    unfold destsOf
    by_cases h0 : mv.rank = 0
    · simp [h0, List.takeWhile_cons]
    · by_cases hb : onBoard N i mv
      · simp [h0, hb, List.takeWhile_cons, ih]
      · simp [h0, hb, List.takeWhile_cons, ih]

theorem moves_live : moves.takeWhile (fun m => decide (m.rank ≠ 0)) =
    [⟨-1, -2⟩, ⟨1, -2⟩, ⟨-2, -1⟩, ⟨2, -1⟩, ⟨-2, 1⟩, ⟨2, 1⟩, ⟨-1, 2⟩, ⟨1, 2⟩] := by
  rfl

theorem destOf_onBoard (N s : Nat) (mv : intPair) (h5 : 5 ≤ N)
    (h11 : N ≤ 11) (hb : onBoard N s mv) :
    destOf N s mv = (((s / N : Nat) : Int) + mv.rank) * N + (((s % N : Nat) : Int) + mv.file) := by
  simp only [onBoard, destOf, rank_nat, file_nat] at hb ⊢
  rw [toChar_id]
  · ring
  · interval_cases N <;> omega
  · interval_cases N <;> omega

theorem onBoard_dest_iff (N s t : Nat) (mv : intPair) (hs : s < N * N) (h5 : 5 ≤ N)
    (h11 : N ≤ 11) :
    (onBoard N s mv ∧ (t : Int) = destOf N s mv) ↔
      (t < N * N ∧ ((t / N : Nat) : Int) - (s / N : Nat) = mv.rank ∧
        ((t % N : Nat) : Int) - (s % N : Nat) = mv.file) := by
  by_cases hb : onBoard N s mv
  · rw [destOf_onBoard N s mv h5 h11 hb]
    simp only [onBoard, rank_nat, file_nat] at hb
    simp only [onBoard, rank_nat, file_nat, hb, true_and, gt_iff_lt, and_self]
    interval_cases N <;> omega
  · simp only [hb, false_and, false_iff]
    simp only [onBoard, rank_nat, file_nat] at hb
    interval_cases N <;> omega

theorem mem_dests (N s t : Nat) (hs : s < N * N) (h5 : 5 ≤ N) (h11 : N ≤ 11) :
    (t : Int) ∈ dests N s ↔ t < N * N ∧ knightMove N s t := by
  unfold dests
  rw [mem_destsOf, moves_live]
  simp only [List.mem_cons, List.mem_singleton, exists_eq_or_imp, List.not_mem_nil, false_and,
    exists_false, or_false, exists_eq_left]
  rw [onBoard_dest_iff N s t _ hs h5 h11, onBoard_dest_iff N s t _ hs h5 h11,
    onBoard_dest_iff N s t _ hs h5 h11, onBoard_dest_iff N s t _ hs h5 h11,
    onBoard_dest_iff N s t _ hs h5 h11, onBoard_dest_iff N s t _ hs h5 h11,
    onBoard_dest_iff N s t _ hs h5 h11, onBoard_dest_iff N s t _ hs h5 h11]
  unfold knightMove
  generalize ((t / N : Nat) : Int) - (s / N : Nat) = x
  generalize ((t % N : Nat) : Int) - (s % N : Nat) = y
  simp only [Int.natAbs_eq_iff]
  omega

theorem dests_range (N s : Nat) (v : Int) (hs : s < N * N) (h5 : 5 ≤ N) (h11 : N ≤ 11)
    (hv : v ∈ dests N s) : 0 ≤ v ∧ v < N * N := by
  unfold dests at hv
  rw [mem_destsOf] at hv
  obtain ⟨mv, -, hb, rfl⟩ := hv
  rw [destOf_onBoard N s mv h5 h11 hb]
  simp only [onBoard, rank_nat, file_nat] at hb
  interval_cases N <;> omega

set_option maxRecDepth 100000 in
theorem dests_length (N : Nat) (h5 : 5 ≤ N) (h11 : N ≤ 11) :
    ∀ s < N * N, 2 ≤ (dests N s).length ∧ (dests N s).length ≤ 8 := by
  interval_cases N <;> decide

theorem knightMove_symm (N s t : Nat) (h : knightMove N s t) : knightMove N t s := by
  unfold knightMove at h ⊢
  simp only [Int.natAbs_eq_iff] at h ⊢
  omega

/-! ## The matrix built by `initLegalMoves` -/

theorem fillRow_apply (N i : Nat) (mvs : List intPair) :
    ∀ (M : Nat → Int) (col j : Nat),
      fillRow N i mvs M col j =
        if i * 9 + col ≤ j ∧ j < i * 9 + col + (destsOf N i mvs).length then
          (destsOf N i mvs).getD (j - (i * 9 + col)) 0
        else M j := by
  induction mvs with
  | nil =>
    intro M col j
    simp only [fillRow, destsOf, List.length_nil]
    rw [if_neg (by omega)]
  | cons mv rest ih =>
    intro M col j
    unfold fillRow destsOf
    by_cases h0 : mv.rank = 0
    · simp only [h0, if_true, List.length_nil]
      rw [if_neg (by omega)]
    · by_cases hb : onBoard N i mv
      · have hb2 := hb
        unfold onBoard at hb2
        simp only [h0, if_false, hb, if_true, hb2, and_self, List.length_cons]
        rw [ih]
        by_cases hj : j = i * 9 + col
        · subst hj
          simp [destOf]
        · by_cases hlt : i * 9 + (col + 1) ≤ j ∧ j < i * 9 + (col + 1) + (destsOf N i rest).length
          · have e : j - (i * 9 + col) = (j - (i * 9 + (col + 1))) + 1 := by omega
            rw [if_pos hlt, if_pos (by omega), e, List.getD_cons_succ]
          · rw [if_neg hlt, if_neg (by omega), Function.update_noteq hj]
      · have hb2 := hb
        unfold onBoard at hb2
        simp only [h0, if_false, hb, hb2]
        rw [ih]

theorem destsOf_length_le (N i : Nat) (mvs : List intPair) :
    (destsOf N i mvs).length ≤ (mvs.takeWhile (fun m => decide (m.rank ≠ 0))).length := by
  induction mvs with
  | nil => simp [destsOf]
  | cons mv rest ih =>
    unfold destsOf
    by_cases h0 : mv.rank = 0
    · simp [h0]
    · have e : List.takeWhile (fun m => decide (m.rank ≠ 0)) (mv :: rest) =
          mv :: List.takeWhile (fun m => decide (m.rank ≠ 0)) rest := by
        simp [List.takeWhile_cons, h0]
      rw [e, if_neg h0]
      split_ifs
      · simpa using ih
      · exact Nat.le_succ_of_le ih

theorem dests_length_le (N s : Nat) : (dests N s).length ≤ 8 := by
  have h := destsOf_length_le N s moves
  rw [moves_live] at h
  exact h

theorem rowStep_apply (N gridSq i : Nat) (M : Nat → Int) (j : Nat) :
    memsetRow (fillRow N i moves M 0) (i + gridSq) i j =
      if j / 9 = i + gridSq then toChar i
      else if j / 9 = i then
        (if j % 9 < (dests N i).length then (dests N i).getD (j % 9) 0 else M j)
      else M j := by
  have hlen := dests_length_le N i
  unfold memsetRow
  rw [fillRow_apply]
  unfold dests at hlen ⊢
  by_cases h1 : j / 9 = i + gridSq
  · rw [if_pos (by omega), if_pos h1]
  · rw [if_neg (by omega), if_neg h1]
    by_cases h2 : j / 9 = i
    · rw [if_pos h2]
      by_cases h3 : j % 9 < (destsOf N i moves).length
      · have e : j - (i * 9 + 0) = j % 9 := by omega
        rw [if_pos (by omega), if_pos h3, e]
      · rw [if_neg (by omega), if_neg h3]
    · rw [if_neg (by omega), if_neg h2]

theorem initRows_apply (N gridSq : Nat) :
    ∀ (n i : Nat) (M : Nat → Int) (j : Nat), i + n ≤ gridSq →
      initRows N gridSq n i M j =
        if i ≤ j / 9 ∧ j / 9 < i + n then
          (if j % 9 < (dests N (j / 9)).length then (dests N (j / 9)).getD (j % 9) 0 else M j)
        else if i + gridSq ≤ j / 9 ∧ j / 9 < i + n + gridSq then
          toChar ((j / 9 - gridSq : Nat) : Int)
        else M j := by
  intro n
  induction n with
  | zero =>
    intro i M j _
    simp only [initRows]
    rw [if_neg (by omega), if_neg (by omega)]
  | succ n ih =>
    intro i M j hle
    simp only [initRows]
    rw [ih (i + 1) _ j (by omega)]
    simp only [rowStep_apply]
    generalize j / 9 = r
    generalize j % 9 = c
    split_ifs <;>
      first
        | rfl
        | (exfalso; omega)
        | (have e : r = i := by omega
           subst e; rfl)
        | (have e : r = i := by omega
           subst e; exfalso; omega)
        | (have e : r - gridSq = i := by omega
           rw [e])

/-- After `initLegalMoves` every cell of the matrix holds the closed form
`table`, whatever the matrix held before. -/
theorem initLegalMoves_matrix (g : Globals) (h11 : g.gGrid ≤ 11) (j : Nat) (hj : j < matrixSize) :
    (initLegalMoves g).gLegalMovesMatrix j = table g.gGrid j := by
  have hsq := sq_le_tallySize g.gGrid h11
  simp only [tallySize, MAX_GRID] at hsq
  simp only [initLegalMoves, table]
  rw [initRows_apply _ _ _ _ _ _ (by omega)]
  simp only [hj, if_true, toChar_neg_one]
  by_cases h1 : j / 9 < g.gGrid * g.gGrid
  · rw [if_pos (by omega), if_pos h1]
    by_cases h2 : j % 9 < (dests g.gGrid (j / 9)).length
    · rw [if_pos h2, List.getD_eq_getElem _ _ h2, List.getD_eq_getElem _ _ h2]
    · rw [if_neg h2, List.getD_eq_default _ _ (by omega)]
  · rw [if_neg (by omega), if_neg h1]
    by_cases h3 : j / 9 < g.gGrid * g.gGrid + g.gGrid * g.gGrid
    · rw [if_pos (by omega), if_pos h3, toChar_id _ (by omega) (by omega)]
    · rw [if_neg (by omega), if_neg h3]

theorem initLegalMoves_off (g : Globals) :
    (initLegalMoves g).gLegalMoveToIndexOff = g.gGrid * g.gGrid * 9 := rfl

theorem initLegalMoves_grid (g : Globals) : (initLegalMoves g).gGrid = g.gGrid := rfl

theorem initLegalMoves_tally (g : Globals) : (initLegalMoves g).gTally = g.gTally := rfl

theorem initLegalMoves_stack (g : Globals) :
    (initLegalMoves g).gPositionStack = g.gPositionStack := rfl

theorem initLegalMoves_hit (g : Globals) : (initLegalMoves g).gHit = g.gHit := rfl

theorem matrix_row (g : Globals) (h11 : g.gGrid ≤ 11) (s c : Nat)
    (hs : s < g.gGrid * g.gGrid) (hc : c < 9) :
    (initLegalMoves g).gLegalMovesMatrix (s * 9 + c) = (dests g.gGrid s).getD c (-1) := by
  have hsq := sq_le_tallySize g.gGrid h11
  simp only [tallySize, MAX_GRID] at hsq
  rw [initLegalMoves_matrix g h11 _ (by simp only [matrixSize, MAX_GRID]; omega)]
  have e1 : (s * 9 + c) / 9 = s := by omega
  have e2 : (s * 9 + c) % 9 = c := by omega
  simp only [table, e1, e2, hs, if_true]

theorem matrix_rev (g : Globals) (h11 : g.gGrid ≤ 11) (s c : Nat)
    (hs : s < g.gGrid * g.gGrid) (hc : c < 9) :
    (initLegalMoves g).gLegalMovesMatrix (s * 9 + c + g.gGrid * g.gGrid * 9) = (s : Int) := by
  have hsq := sq_le_tallySize g.gGrid h11
  simp only [tallySize, MAX_GRID] at hsq
  rw [initLegalMoves_matrix g h11 _ (by simp only [matrixSize, MAX_GRID]; omega)]
  have e1 : (s * 9 + c + g.gGrid * g.gGrid * 9) / 9 = s + g.gGrid * g.gGrid := by omega
  simp only [table, e1]
  rw [if_neg (by omega), if_pos (by omega)]
  congr 1
  omega

theorem takeWhile_slots (L : List Int) :
    ∀ n, L.length < n → (∀ v ∈ L, v ≠ -1) →
      ((List.range n).map (fun c => L.getD c (-1))).takeWhile (fun v => decide (v ≠ -1)) = L := by
  induction L with
  | nil =>
    intro n hn _
    obtain ⟨m, rfl⟩ : ∃ m, n = m + 1 := ⟨n - 1, by simp at hn; omega⟩
    simp [List.range_succ_eq_map]
  | cons a L ih =>
    intro n hn hne
    obtain ⟨m, rfl⟩ : ∃ m, n = m + 1 := ⟨n - 1, by simp at hn; omega⟩
    have ha : a ≠ -1 := hne a (List.mem_cons_self _ _)
    have hL := ih m (by simpa using hn) (fun v hv => hne v (List.mem_cons_of_mem _ hv))
    rw [List.range_succ_eq_map, List.map_cons, List.map_map]
    simp only [List.getD_cons_zero, List.takeWhile_cons, ha, ne_eq, not_false_eq_true,
      decide_True, if_true]
    congr 1

theorem moveList_eq (g : Globals) (h5 : 5 ≤ g.gGrid) (h11 : g.gGrid ≤ 11) (s : Nat)
    (hs : s < g.gGrid * g.gGrid) :
    moveList (initLegalMoves g) s = dests g.gGrid s := by
  unfold moveList rowSlots
  have e : (List.range 9).map (fun c => (initLegalMoves g).gLegalMovesMatrix (s * 9 + c)) =
      (List.range 9).map (fun c => (dests g.gGrid s).getD c (-1)) := by
    apply List.map_congr_left
    intro c hc
    exact matrix_row g h11 s c hs (List.mem_range.mp hc)
  rw [e]
  apply takeWhile_slots
  · have := dests_length_le g.gGrid s
    omega
  · intro v hv
    have := dests_range g.gGrid s v hs h5 h11 hv
    omega

/-! ## Claims about the adjacency table -/

theorem dests_offset (N s : Nat) (v : Int) (h5 : 5 ≤ N) (h11 : N ≤ 11)
    (hv : v ∈ dests N s) :
    ∃ mv, mv ∈ moves ∧ mv.rank ≠ 0 ∧ onBoard N s mv ∧ v = s + mv.rank * N + mv.file := by
  unfold dests at hv
  rw [mem_destsOf] at hv
  obtain ⟨mv, hm, hb, rfl⟩ := hv
  have hm2 := List.mem_takeWhile_imp hm
  refine ⟨mv, (List.takeWhile_sublist _).subset hm, by simpa using hm2, hb, ?_⟩
  rw [destOf_onBoard N s mv h5 h11 hb]
  have h := Nat.div_add_mod s N
  have h2 : ((N : Int)) * ((s / N : Nat) : Int) + ((s % N : Nat) : Int) = (s : Int) := by
    exact_mod_cast h
  linear_combination h2

/-- C1: for a board size between 5 and 11 and a square `s` on the board, every
entry of the move list `initLegalMoves` builds for `s` (the entries of row `s`
before the first sentinel) is a square of the board; a square `t` of the board
is in that list exactly when the rank and file differences of `s` and `t` are
(1,2) or (2,1); and every entry is `s + dr*N + df` for one of the eight offsets
of `moves` that stays on the board. -/
theorem C1_adjacency_is_knight_move (g : Globals) (s : Nat)
    (h5 : 5 ≤ g.gGrid) (h11 : g.gGrid ≤ 11) (hs : s < g.gGrid * g.gGrid) :
    (∀ v, v ∈ moveList (initLegalMoves g) s → 0 ≤ v ∧ v < g.gGrid * g.gGrid) ∧
    (∀ t, t < g.gGrid * g.gGrid →
      ((t : Int) ∈ moveList (initLegalMoves g) s ↔ knightMove g.gGrid s t)) ∧
    (∀ v, v ∈ moveList (initLegalMoves g) s →
      ∃ mv, mv ∈ moves ∧ mv.rank ≠ 0 ∧ onBoard g.gGrid s mv ∧
        v = s + mv.rank * g.gGrid + mv.file) := by
  rw [moveList_eq g h5 h11 s hs]
  refine ⟨fun v hv => dests_range g.gGrid s v hs h5 h11 hv, fun t ht => ?_,
    fun v hv => dests_offset g.gGrid s v h5 h11 hv⟩
  rw [mem_dests g.gGrid s t hs h5 h11]
  exact ⟨fun h => h.2, fun h => ⟨ht, h⟩⟩

theorem C1_adjacency_is_knight_move_witness :
    (∀ v, v ∈ moveList (initLegalMoves (zeroGlobals 5)) 0 → 0 ≤ v ∧ v < ((5 * 5 : Nat) : Int)) ∧
    (∀ t : Nat, t < 5 * 5 →
      ((t : Int) ∈ moveList (initLegalMoves (zeroGlobals 5)) 0 ↔ knightMove 5 0 t)) ∧
    (∀ v, v ∈ moveList (initLegalMoves (zeroGlobals 5)) 0 →
      ∃ mv, mv ∈ moves ∧ mv.rank ≠ 0 ∧ onBoard 5 0 mv ∧
        v = ((0 : Nat) : Int) + mv.rank * ((5 : Nat) : Int) + mv.file) :=
  C1_adjacency_is_knight_move (zeroGlobals 5) 0 (by decide) (by decide) (by decide)

/-- C7: for a board size between 5 and 11 and squares `a`, `b` on the board,
`b` is in the move list built for `a` exactly when `a` is in the move list
built for `b`. -/
theorem C7_adjacency_symmetric (g : Globals) (a b : Nat)
    (h5 : 5 ≤ g.gGrid) (h11 : g.gGrid ≤ 11)
    (ha : a < g.gGrid * g.gGrid) (hb : b < g.gGrid * g.gGrid) :
    (b : Int) ∈ moveList (initLegalMoves g) a ↔ (a : Int) ∈ moveList (initLegalMoves g) b := by
  rw [moveList_eq g h5 h11 a ha, moveList_eq g h5 h11 b hb, mem_dests g.gGrid a b ha h5 h11,
    mem_dests g.gGrid b a hb h5 h11]
  exact ⟨fun h => ⟨ha, knightMove_symm _ _ _ h.2⟩, fun h => ⟨hb, knightMove_symm _ _ _ h.2⟩⟩

theorem C7_adjacency_symmetric_witness :
    (11 : Int) ∈ moveList (initLegalMoves (zeroGlobals 5)) 0 ↔
      (0 : Int) ∈ moveList (initLegalMoves (zeroGlobals 5)) 11 :=
  C7_adjacency_symmetric (zeroGlobals 5) 0 11 (by decide) (by decide) (by decide) (by decide)

set_option maxRecDepth 100000 in
theorem dests_corners (N : Nat) (h5 : 5 ≤ N) (h11 : N ≤ 11) :
    (dests N 0).length = 2 ∧ (dests N (N - 1)).length = 2 ∧
      (dests N (N * N - N)).length = 2 ∧ (dests N (N * N - 1)).length = 2 := by
  interval_cases N <;> decide

/-- C8: for a board size between 5 and 11 the move list built for every square
has at least 2 and at most 8 entries, and the move lists of the four corner
squares `0`, `N-1`, `N*N-N` and `N*N-1` have exactly 2 entries. -/
theorem C8_move_count_bounds (g : Globals) (h5 : 5 ≤ g.gGrid) (h11 : g.gGrid ≤ 11) :
    (∀ s, s < g.gGrid * g.gGrid →
        2 ≤ (moveList (initLegalMoves g) s).length ∧
          (moveList (initLegalMoves g) s).length ≤ 8) ∧
      (moveList (initLegalMoves g) 0).length = 2 ∧
      (moveList (initLegalMoves g) (g.gGrid - 1)).length = 2 ∧
      (moveList (initLegalMoves g) (g.gGrid * g.gGrid - g.gGrid)).length = 2 ∧
      (moveList (initLegalMoves g) (g.gGrid * g.gGrid - 1)).length = 2 := by
  have hsq := sq_ge g.gGrid h5
  have hN : g.gGrid ≤ g.gGrid * g.gGrid := Nat.le_mul_of_pos_left _ (by omega)
  have hc := dests_corners g.gGrid h5 h11
  refine ⟨fun s hs => ?_, ?_, ?_, ?_, ?_⟩
  · rw [moveList_eq g h5 h11 s hs]
    exact dests_length g.gGrid h5 h11 s hs
  · rw [moveList_eq g h5 h11 0 (by omega)]
    exact hc.1
  · rw [moveList_eq g h5 h11 _ (by omega)]
    exact hc.2.1
  · rw [moveList_eq g h5 h11 _ (by omega)]
    exact hc.2.2.1
  · rw [moveList_eq g h5 h11 _ (by omega)]
    exact hc.2.2.2

theorem C8_move_count_bounds_witness :
    (∀ s, s < 5 * 5 →
        2 ≤ (moveList (initLegalMoves (zeroGlobals 5)) s).length ∧
          (moveList (initLegalMoves (zeroGlobals 5)) s).length ≤ 8) ∧
      (moveList (initLegalMoves (zeroGlobals 5)) 0).length = 2 ∧
      (moveList (initLegalMoves (zeroGlobals 5)) (5 - 1)).length = 2 ∧
      (moveList (initLegalMoves (zeroGlobals 5)) (5 * 5 - 5)).length = 2 ∧
      (moveList (initLegalMoves (zeroGlobals 5)) (5 * 5 - 1)).length = 2 :=
  C8_move_count_bounds (zeroGlobals 5) (by decide) (by decide)

/-! ## Reading the table -/

theorem slot_range (N s c : Nat) (h5 : 5 ≤ N) (h11 : N ≤ 11) (hs : s < N * N) :
    slot N s c = -1 ∨ (0 ≤ slot N s c ∧ slot N s c < N * N ∧ slot N s c ∈ dests N s) := by
  unfold slot
  by_cases hc : c < (dests N s).length
  · right
    rw [List.getD_eq_getElem _ _ hc]
    have hm : (dests N s)[c] ∈ dests N s := List.getElem_mem hc
    have := dests_range N s _ hs h5 h11 hm
    exact ⟨this.1, this.2, hm⟩
  · left
    rw [List.getD_eq_default _ _ (by omega)]

theorem slot_lt_length (N s c : Nat) (h5 : 5 ≤ N) (h11 : N ≤ 11) (hs : s < N * N) :
    slot N s c ≠ -1 ↔ c < (dests N s).length := by
  unfold slot
  by_cases hc : c < (dests N s).length
  · rw [List.getD_eq_getElem _ _ hc]
    have hm : (dests N s)[c] ∈ dests N s := List.getElem_mem hc
    have := dests_range N s _ hs h5 h11 hm
    constructor
    · intro _; exact hc
    · intro _; omega
  · rw [List.getD_eq_default _ _ (by omega)]
    simp [hc]

theorem slot_of_mem (N s : Nat) (v : Int) (hv : v ∈ dests N s) :
    ∃ c, c < (dests N s).length ∧ c ≤ 7 ∧ slot N s c = v := by
  obtain ⟨c, hc, e⟩ := List.getElem_of_mem hv
  have := dests_length_le N s
  refine ⟨c, hc, by omega, ?_⟩
  unfold slot
  rw [List.getD_eq_getElem _ _ hc, e]

theorem slot_knight (N s c : Nat) (h5 : 5 ≤ N) (h11 : N ≤ 11) (hs : s < N * N)
    (hne : slot N s c ≠ -1) :
    0 ≤ slot N s c ∧ (slot N s c).toNat < N * N ∧ knightMove N s (slot N s c).toNat ∧
      c ≤ 7 := by
  have hlen := dests_length_le N s
  have hc := (slot_lt_length N s c h5 h11 hs).mp hne
  rcases slot_range N s c h5 h11 hs with h | ⟨h0, h1, hm⟩
  · exact absurd h hne
  · have e : ((slot N s c).toNat : Int) = slot N s c := Int.toNat_of_nonneg h0
    rw [← e] at hm
    have := (mem_dests N s _ hs h5 h11).mp hm
    exact ⟨h0, this.1, this.2, by omega⟩

theorem TableOK.read_row {g : Globals} (ht : TableOK g) (s c : Nat)
    (hs : s < g.gGrid * g.gGrid) (hc : c < 9) :
    readMatrix g (s * 9 + c) = some (slot g.gGrid s c) := by
  obtain ⟨_, h11, _, hM⟩ := ht
  have hsq := sq_le_tallySize g.gGrid h11
  simp only [tallySize, MAX_GRID] at hsq
  have hlt : s * 9 + c < matrixSize := by simp only [matrixSize, MAX_GRID]; omega
  have e1 : (s * 9 + c) / 9 = s := by omega
  have e2 : (s * 9 + c) % 9 = c := by omega
  simp only [readMatrix, hlt, if_true, hM _ hlt, table, e1, e2, hs, slot]

theorem TableOK.read_ptr {g : Globals} (ht : TableOK g) (p : Nat)
    (hs : p / 9 < g.gGrid * g.gGrid) :
    readMatrix g p = some (slot g.gGrid (p / 9) (p % 9)) := by
  have := ht.read_row (p / 9) (p % 9) hs (Nat.mod_lt _ (by decide))
  have e : p / 9 * 9 + p % 9 = p := by omega
  rwa [e] at this

theorem TableOK.position {g : Globals} (ht : TableOK g) (p : Nat)
    (hs : p / 9 < g.gGrid * g.gGrid) :
    legalMovesToPosition g p = some ((p / 9 : Nat) : Int) := by
  obtain ⟨_, h11, hoff, hM⟩ := ht
  have hsq := sq_le_tallySize g.gGrid h11
  simp only [tallySize, MAX_GRID] at hsq
  have hlt : p + g.gGrid * g.gGrid * 9 < matrixSize := by
    simp only [matrixSize, MAX_GRID]; omega
  have e1 : (p + g.gGrid * g.gGrid * 9) / 9 = p / 9 + g.gGrid * g.gGrid := by omega
  simp only [legalMovesToPosition, readMatrix, hoff, hlt, if_true, hM _ hlt, table, e1]
  rw [if_neg (by omega), if_pos (by omega)]
  congr 2
  omega

/-- A row at or above row `N*N` holds no move list: it is constant. -/
theorem TableOK.read_high {g : Globals} (ht : TableOK g) (d c : Nat)
    (hd : g.gGrid * g.gGrid ≤ d) (hc : c < 9) (v : Int)
    (hr : readMatrix g (d * 9 + c) = some v) :
    v = -1 ∨ (v = ((d - g.gGrid * g.gGrid : Nat) : Int) ∧
      readMatrix g (d * 9 + 0) = some v) := by
  obtain ⟨_, h11, _, hM⟩ := ht
  unfold readMatrix at hr ⊢
  by_cases hlt : d * 9 + c < matrixSize
  · have hlt0 : d * 9 + 0 < matrixSize := by omega
    have e1 : (d * 9 + c) / 9 = d := by omega
    have e0 : (d * 9 + 0) / 9 = d := by omega
    simp only [hlt, if_true, hM _ hlt, table, e1, Option.some.injEq] at hr
    simp only [hlt0, if_true, hM _ hlt0, table, e0, Option.some.injEq]
    rw [if_neg (by omega)] at hr
    rw [if_neg (by omega)]
    by_cases h2 : d < g.gGrid * g.gGrid + g.gGrid * g.gGrid
    · rw [if_pos h2] at hr
      rw [if_pos h2]
      right
      exact ⟨hr.symm, hr⟩
    · rw [if_neg h2] at hr
      left
      exact hr.symm
  · simp [hlt] at hr

theorem initLegalMoves_tableOK (g : Globals) (h5 : 5 ≤ g.gGrid) (h11 : g.gGrid ≤ 11) :
    TableOK (initLegalMoves g) :=
  ⟨h5, h11, rfl, fun j hj => initLegalMoves_matrix g h11 j hj⟩

/-! ## The path held by the stack -/

theorem pathUpTo_succ (st : Nat → Nat) (h : Nat) :
    pathUpTo st (h + 1) = pathUpTo st h ++ [st h / 9] := by
  simp [pathUpTo, List.range_succ]

theorem pathUpTo_length (st : Nat → Nat) (h : Nat) : (pathUpTo st h).length = h := by
  simp [pathUpTo]

theorem mem_pathUpTo (st : Nat → Nat) (h q : Nat) :
    q ∈ pathUpTo st h ↔ ∃ k, k < h ∧ st k / 9 = q := by
  simp [pathUpTo]

theorem pathUpTo_congr (st st2 : Nat → Nat) (h : Nat) (e : ∀ k, k < h → st2 k = st k) :
    pathUpTo st2 h = pathUpTo st h := by
  unfold pathUpTo
  apply List.map_congr_left
  intro k hk
  rw [e k (List.mem_range.mp hk)]

theorem pathUpTo_update (st : Nat → Nat) (h j v : Nat) (hj : h ≤ j) :
    pathUpTo (Function.update st j v) h = pathUpTo st h := by
  apply pathUpTo_congr
  intro k hk
  exact Function.update_noteq (by omega) _ _

theorem pathUpTo_bump (st : Nat → Nat) (h j : Nat) (hc : st j % 9 ≤ 7) :
    pathUpTo (Function.update st j (st j + 1)) h = pathUpTo st h := by
  unfold pathUpTo
  apply List.map_congr_left
  intro k _
  by_cases e : k = j
  · subst e
    rw [Function.update_same]
    omega
  · rw [Function.update_noteq e]

theorem nodup_length_le (l : List Nat) (n : Nat) (hn : l.Nodup) (hr : ∀ q, q ∈ l → q < n) :
    l.length ≤ n := by
  have h1 : l.toFinset ⊆ Finset.range n := by
    intro q hq
    exact Finset.mem_range.mpr (hr q (List.mem_toFinset.mp hq))
  have h2 := Finset.card_le_card h1
  rw [List.toFinset_card_of_nodup hn, Finset.card_range] at h2
  exact h2

theorem nodup_full (l : List Nat) (n : Nat) (hn : l.Nodup) (hr : ∀ q, q ∈ l → q < n)
    (hl : l.length = n) (q : Nat) (hq : q < n) : q ∈ l := by
  have h1 : l.toFinset ⊆ Finset.range n := by
    intro q hq
    exact Finset.mem_range.mpr (hr q (List.mem_toFinset.mp hq))
  have h2 : l.toFinset = Finset.range n := by
    apply Finset.eq_of_subset_of_card_le h1
    rw [List.toFinset_card_of_nodup hn, Finset.card_range, hl]
  have : q ∈ l.toFinset := by rw [h2]; exact Finset.mem_range.mpr hq
  exact List.mem_toFinset.mp this

theorem Wf.le {g : Globals} {h : Nat} (w : Wf g h) : h ≤ g.gGrid * g.gGrid := by
  have := nodup_length_le _ _ w.nodup w.rng
  rwa [pathUpTo_length] at this

theorem Wf.sq_lt {g : Globals} {h : Nat} (w : Wf g h) (k : Nat) (hk : k < h) :
    g.gPositionStack k / 9 < g.gGrid * g.gGrid :=
  w.rng _ ((mem_pathUpTo _ _ _).mpr ⟨k, hk, rfl⟩)

theorem Wf.tallySize_ge {g : Globals} {h : Nat} (w : Wf g h) :
    g.gGrid * g.gGrid ≤ tallySize :=
  sq_le_tallySize _ w.table.2.1

/-- Pushing an unvisited square: the effect of `gTally[q] = 1` and of storing a
cursor of row `q` at stack position `h`. -/
theorem Wf.push {g : Globals} {h : Nat} (w : Wf g h) (g2 : Globals) (q c : Nat)
    (hq : q < g.gGrid * g.gGrid) (hc : c ≤ 7) (hnew : g.gTally q = 0)
    (eM : g2.gLegalMovesMatrix = g.gLegalMovesMatrix)
    (eO : g2.gLegalMoveToIndexOff = g.gLegalMoveToIndexOff) (eG : g2.gGrid = g.gGrid)
    (eT : g2.gTally = Function.update g.gTally q 1)
    (eS : g2.gPositionStack = Function.update g.gPositionStack h (q * 9 + c)) :
    Wf g2 (h + 1) ∧ pathUpTo g2.gPositionStack (h + 1) = pathUpTo g.gPositionStack h ++ [q] := by
  have hts := w.tallySize_ge
  have hnot : q ∉ pathUpTo g.gPositionStack h := by
    intro hin
    have := w.tally q (by omega)
    rw [if_pos hin, hnew] at this
    exact absurd this (by decide)
  have hp : pathUpTo g2.gPositionStack (h + 1) = pathUpTo g.gPositionStack h ++ [q] := by
    rw [pathUpTo_succ, eS, pathUpTo_update _ _ _ _ (Nat.le_refl _), Function.update_same]
    congr 2
    omega
  refine ⟨⟨?_, ?_, ?_, ?_, ?_⟩, hp⟩
  · obtain ⟨a, b, c2, d⟩ := w.table
    exact ⟨eG ▸ a, eG ▸ b, by rw [eO, eG]; exact c2, by rw [eM, eG]; exact d⟩
  · intro k hk
    rw [eS]
    by_cases e : k = h
    · subst e
      rw [Function.update_same]
      omega
    · rw [Function.update_noteq e]
      exact w.cols k (by omega)
  · intro r hr
    rw [hp] at hr
    rw [eG]
    rcases List.mem_append.mp hr with h1 | h1
    · exact w.rng r h1
    · rw [List.mem_singleton.mp h1]; exact hq
  · rw [hp]
    refine List.Nodup.append w.nodup (List.nodup_singleton q) ?_
    intro a ha hb
    rw [List.mem_singleton.mp hb] at ha
    exact hnot ha
  · intro r hr
    rw [hp, eT]
    by_cases e : r = q
    · subst e
      simp
    · rw [Function.update_noteq e, w.tally r hr]
      simp [e]

/-- Popping the top square: the effect of `gHit--` followed by
`gTally[legalMovesToPosition(gPositionStack[gHit])] = 0`. -/
theorem Wf.pop {g : Globals} {h : Nat} (w : Wf g (h + 1)) (g2 : Globals)
    (eM : g2.gLegalMovesMatrix = g.gLegalMovesMatrix)
    (eO : g2.gLegalMoveToIndexOff = g.gLegalMoveToIndexOff) (eG : g2.gGrid = g.gGrid)
    (eT : g2.gTally = Function.update g.gTally (g.gPositionStack h / 9) 0)
    (eS : g2.gPositionStack = g.gPositionStack) :
    Wf g2 h := by
  have hts := w.tallySize_ge
  have hn := w.nodup
  rw [pathUpTo_succ] at hn
  have hnot : g.gPositionStack h / 9 ∉ pathUpTo g.gPositionStack h := by
    intro hin
    have := (List.nodup_append.mp hn).2.2
    exact this hin (List.mem_singleton_self _)
  refine ⟨?_, ?_, ?_, ?_, ?_⟩
  · obtain ⟨a, b, c2, d⟩ := w.table
    exact ⟨eG ▸ a, eG ▸ b, by rw [eO, eG]; exact c2, by rw [eM, eG]; exact d⟩
  · intro k hk
    rw [eS]
    exact w.cols k (by omega)
  · intro r hr
    rw [eS] at hr
    rw [eG]
    apply w.rng
    rw [pathUpTo_succ]
    exact List.mem_append_left _ hr
  · rw [eS]
    exact (List.nodup_append.mp hn).1
  · intro r hr
    rw [eS, eT]
    by_cases e : r = g.gPositionStack h / 9
    · rw [e, Function.update_same, if_neg hnot]
    · rw [Function.update_noteq e, w.tally r hr, pathUpTo_succ]
      simp [e]

/-- Advancing one cursor inside its row: the effect of `gPositionStack[k]++`. -/
theorem Wf.bump {g : Globals} {h : Nat} (w : Wf g h) (g2 : Globals) (k : Nat)
    (hc : g.gPositionStack k % 9 + 1 ≤ 7)
    (eM : g2.gLegalMovesMatrix = g.gLegalMovesMatrix)
    (eO : g2.gLegalMoveToIndexOff = g.gLegalMoveToIndexOff) (eG : g2.gGrid = g.gGrid)
    (eT : g2.gTally = g.gTally)
    (eS : g2.gPositionStack = Function.update g.gPositionStack k (g.gPositionStack k + 1)) :
    Wf g2 h ∧ pathUpTo g2.gPositionStack h = pathUpTo g.gPositionStack h := by
  have hp : pathUpTo g2.gPositionStack h = pathUpTo g.gPositionStack h := by
    rw [eS]
    exact pathUpTo_bump _ _ _ (by omega)
  refine ⟨⟨?_, ?_, ?_, ?_, ?_⟩, hp⟩
  · obtain ⟨a, b, c2, d⟩ := w.table
    exact ⟨eG ▸ a, eG ▸ b, by rw [eO, eG]; exact c2, by rw [eM, eG]; exact d⟩
  · intro j hj
    rw [eS]
    by_cases e : j = k
    · subst e
      rw [Function.update_same]
      omega
    · rw [Function.update_noteq e]
      exact w.cols j hj
  · intro r hr
    rw [hp] at hr
    rw [eG]
    exact w.rng r hr
  · rw [hp]
    exact w.nodup
  · intro r hr
    rw [hp, eT]
    exact w.tally r hr

/-! ## The validation loop -/

theorem readTally_some {g : Globals} {i t : Int} (h : readTally g i = some t) :
    0 ≤ i ∧ i < tallySize ∧ g.gTally i.toNat = t := by
  unfold readTally at h
  split at h
  · rename_i hc
    exact ⟨hc.1, hc.2, by simpa using h⟩
  · simp at h

theorem cell_some {g : Globals} {row v : Int} {col : Nat} (h : cell g row col = some v) :
    0 ≤ row ∧ col < 9 ∧ readMatrix g (row.toNat * 9 + col) = some v := by
  unfold cell at h
  split at h
  · rename_i hc
    exact ⟨hc.1, hc.2, h⟩
  · simp at h

theorem scanMoves_some_spec (g : Globals) (cur nx : Int) :
    ∀ rem i r, scanMoves g cur (some nx) rem i = some r →
      r = i + rem ∨ (i ≤ r ∧ r < i + rem ∧ cell g nx r = some cur ∧
        ∀ j, i ≤ j → j < r → ∃ v, cell g nx j = some v ∧ v ≠ cur) := by
  intro rem
  induction rem with
  | zero =>
    intro i r h
    simp only [scanMoves, Option.some.injEq] at h
    left; omega
  | succ rem ih =>
    intro i r h
    simp only [scanMoves] at h
    cases hc : cell g nx i with
    | none => rw [hc] at h; simp at h
    | some v =>
      rw [hc] at h
      simp only at h
      by_cases hv : v = cur
      · rw [if_pos hv] at h
        simp only [Option.some.injEq] at h
        subst h
        right
        exact ⟨Nat.le_refl _, by omega, hv ▸ hc, fun j h1 h2 => by omega⟩
      · rw [if_neg hv] at h
        rcases ih (i + 1) r h with h1 | ⟨h1, h2, h3, h4⟩
        · left; omega
        · right
          refine ⟨by omega, by omega, h3, fun j hj1 hj2 => ?_⟩
          by_cases e : j = i
          · subst e; exact ⟨v, hc, hv⟩
          · exact h4 j (by omega) hj2

theorem scanMoves_none_spec (g : Globals) (cur : Int) :
    ∀ rem i r, scanMoves g cur none rem i = some r →
      r = i + rem ∨ (i ≤ r ∧ r < i + rem ∧
        (∃ v, cell g cur r = some v ∧ readTally g v = some 0) ∧
        ∀ j, i ≤ j → j < r → ∃ v t, cell g cur j = some v ∧ readTally g v = some t ∧ t ≠ 0) := by
  intro rem
  induction rem with
  | zero =>
    intro i r h
    simp only [scanMoves, Option.some.injEq] at h
    left; omega
  | succ rem ih =>
    intro i r h
    simp only [scanMoves] at h
    cases hc : cell g cur i with
    | none => rw [hc] at h; simp at h
    | some v =>
      rw [hc] at h
      simp only at h
      cases ht : readTally g v with
      | none => rw [ht] at h; simp at h
      | some t =>
        rw [ht] at h
        simp only at h
        by_cases hv : t = 0
        · rw [if_pos hv] at h
          simp only [Option.some.injEq] at h
          subst h
          right
          exact ⟨Nat.le_refl _, by omega, ⟨v, hc, hv ▸ ht⟩, fun j h1 h2 => by omega⟩
        · rw [if_neg hv] at h
          rcases ih (i + 1) r h with h1 | ⟨h1, h2, h3, h4⟩
          · left; omega
          · right
            refine ⟨by omega, by omega, h3, fun j hj1 hj2 => ?_⟩
            by_cases e : j = i
            · subst e; exact ⟨v, t, hc, ht, hv⟩
            · exact h4 j (by omega) hj2

theorem validateFrom_ok : ∀ (rest : List Int) (g : Globals) (k : Nat) (g1 : Globals),
    Wf g k → g.gHit = k → validateFrom (g.gGrid * g.gGrid) g k rest = some (0, g1) →
      Wf g1 (k + rest.length) ∧ g1.gHit = k + rest.length ∧
      pathUpTo g1.gPositionStack (k + rest.length) =
        pathUpTo g.gPositionStack k ++ rest.map Int.toNat ∧
      (∀ v, v ∈ rest → 0 ≤ v) ∧
      List.Chain' (knightMoveInt g.gGrid) rest ∧
      (∀ i, i < k → g1.gPositionStack i = g.gPositionStack i) ∧
      g1.gGrid = g.gGrid ∧
      (rest ≠ [] → TopFresh g1 (k + rest.length)) := by
  intro rest
  induction rest with
  | nil =>
    intro g k g1 w hk hv
    simp only [validateFrom, Option.some.injEq, Prod.mk.injEq, true_and] at hv
    subst hv
    simp only [List.length_nil, Nat.add_zero, List.map_nil, List.append_nil, List.not_mem_nil,
      false_implies, implies_true, List.chain'_nil, ne_eq, not_true_eq_false, and_self, and_true]
    exact ⟨w, hk⟩
  | cons c rest ih =>
    intro g k g1 w hk hv
    have ht := w.table
    obtain ⟨h5, h11, hoff, hM⟩ := ht
    have hts := w.tallySize_ge
    rw [validateFrom] at hv
    by_cases h4 : c ≥ ((g.gGrid * g.gGrid : Nat) : Int)
    · rw [if_pos h4] at hv
      simp at hv
    rw [if_neg h4] at hv
    cases hrt : readTally g c with
    | none => rw [hrt] at hv; simp at hv
    | some t =>
      rw [hrt] at hv
      simp only at hv
      by_cases ht0 : t ≠ 0
      · rw [if_pos ht0] at hv
        simp at hv
      rw [if_neg ht0] at hv
      have ht0 : t = 0 := by simpa using ht0
      obtain ⟨hc0, -, hct⟩ := readTally_some hrt
      rw [ht0] at hct
      have hcN : c.toNat < g.gGrid * g.gGrid := by omega
      obtain ⟨ga, hga⟩ : ∃ ga : Globals, ga =
          { g with gTally := Function.update g.gTally c.toNat 1, gHit := g.gHit + 1 } :=
        ⟨_, rfl⟩
      rw [← hga] at hv
      cases hsc : scanMoves ga c rest.head? 9 0 with
      | none => rw [hsc] at hv; simp at hv
      | some i =>
        rw [hsc] at hv
        simp only at hv
        by_cases hi9 : i = 9
        · rw [if_pos hi9] at hv
          simp at hv
        rw [if_neg hi9] at hv
        by_cases hk2 : k < tallySize
        swap
        · rw [if_neg hk2] at hv
          simp at hv
        rw [if_pos hk2] at hv
        obtain ⟨gb, hgb⟩ : ∃ gb : Globals, gb =
            { g with gTally := Function.update g.gTally c.toNat 1, gHit := g.gHit + 1,
                     gPositionStack := Function.update g.gPositionStack k (c.toNat * 9 + i) } :=
          ⟨_, rfl⟩
        have hv2 : validateFrom (gb.gGrid * gb.gGrid) gb (k + 1) rest = some (0, g1) := by
          rw [hgb]; exact hv
        have gaT : TableOK ga := by rw [hga]; exact ⟨h5, h11, hoff, hM⟩
        have gaG : ga.gGrid = g.gGrid := by rw [hga]
        have gbG : gb.gGrid = g.gGrid := by rw [hgb]
        -- the column found by the scan is at most 7
        have hi7 : i ≤ 7 := by
          cases hhd : rest.head? with
          | none =>
            rw [hhd] at hsc
            rcases scanMoves_none_spec ga c 9 0 i hsc with h | ⟨-, h2, ⟨v, hcv, htv⟩, -⟩
            · omega
            · obtain ⟨-, -, hrm⟩ := cell_some hcv
              obtain ⟨hv0, -, -⟩ := readTally_some htv
              rw [gaT.read_row c.toNat i (by rw [gaG]; exact hcN) (by omega)] at hrm
              simp only [Option.some.injEq] at hrm
              have := (slot_knight ga.gGrid c.toNat i (gaG ▸ h5) (gaG ▸ h11)
                (by rw [gaG]; exact hcN) (by omega)).2.2.2
              exact this
          | some d =>
            rw [hhd] at hsc
            rcases scanMoves_some_spec ga c d 9 0 i hsc with h | ⟨-, h2, hcv, hall⟩
            · omega
            · obtain ⟨hd0, -, hrm⟩ := cell_some hcv
              by_cases hdN : d.toNat < ga.gGrid * ga.gGrid
              · rw [gaT.read_row d.toNat i hdN (by omega)] at hrm
                simp only [Option.some.injEq] at hrm
                exact (slot_knight ga.gGrid d.toNat i (gaG ▸ h5) (gaG ▸ h11) hdN (by omega)).2.2.2
              · rcases gaT.read_high d.toNat i (by omega) (by omega) c hrm with h | ⟨-, h0⟩
                · omega
                · by_cases hi0 : i = 0
                  · omega
                  · obtain ⟨v, hv1, hv2⟩ := hall 0 (Nat.le_refl _) (by omega)
                    obtain ⟨-, -, hrm0⟩ := cell_some hv1
                    rw [h0] at hrm0
                    simp only [Option.some.injEq] at hrm0
                    exact absurd hrm0.symm hv2
        obtain ⟨wb, hpb⟩ := w.push gb c.toNat i hcN hi7 hct (by rw [hgb]) (by rw [hgb])
          (by rw [hgb]) (by rw [hgb]) (by rw [hgb])
        obtain ⟨r1, r2, r3, r4, r5, r6, r7, r8⟩ := ih gb (k + 1) g1 wb (by rw [hgb]; simp [hk]) hv2
        have elen : k + (c :: rest).length = k + 1 + rest.length := by
          simp only [List.length_cons]; omega
        rw [elen]
        have hstk : g1.gPositionStack k = c.toNat * 9 + i := by
          rw [r6 k (by omega), hgb]
          simp
        refine ⟨r1, r2, ?_, ?_, ?_, ?_, ?_, ?_⟩
        · rw [r3, hpb]
          simp
        · intro v hv
          rcases List.mem_cons.mp hv with e | e
          · rw [e]; exact hc0
          · exact r4 v e
        · cases hhd : rest with
          | nil => exact List.chain'_singleton c
          | cons d rest2 =>
            subst hhd
            rw [gbG] at r5
            refine List.Chain'.cons ?_ r5
            simp only [List.head?_cons] at hsc
            have hd0 : 0 ≤ d := r4 d (List.mem_cons_self _ _)
            have hdN : d.toNat < g.gGrid * g.gGrid := by
              have := r1.rng d.toNat (by rw [r3, hpb]; simp)
              rwa [r7, gbG] at this
            rcases scanMoves_some_spec ga c d 9 0 i hsc with h | ⟨-, h2, hcv, -⟩
            · omega
            · obtain ⟨-, -, hrm⟩ := cell_some hcv
              rw [gaT.read_row d.toNat i (by rw [gaG]; exact hdN) (by omega), gaG] at hrm
              simp only [Option.some.injEq] at hrm
              have := (slot_knight g.gGrid d.toNat i h5 h11 hdN (by omega)).2.2.1
              rw [hrm] at this
              exact knightMove_symm _ _ _ this
        · intro j hj
          rw [r6 j (by omega), hgb]
          simp only
          rw [Function.update_noteq (by omega)]
        · rw [r7, gbG]
        · intro _
          cases hhd : rest with
          | cons d rest2 => subst hhd; exact r8 (by simp)
          | nil =>
            subst hhd
            simp only [validateFrom, Option.some.injEq, Prod.mk.injEq, true_and] at hv2
            subst hv2
            simp only [List.head?_nil] at hsc
            have e9 : gb.gPositionStack k / 9 = c.toNat := by rw [hstk]; omega
            have e10 : gb.gPositionStack k % 9 = i := by rw [hstk]; omega
            have gbT : gb.gTally = ga.gTally := by rw [hgb, hga]
            rcases scanMoves_none_spec ga c 9 0 i hsc with h | ⟨-, h2, ⟨v, hcv, htv⟩, hall⟩
            · omega
            · obtain ⟨-, -, hrm⟩ := cell_some hcv
              obtain ⟨hv0, hv1, hv2⟩ := readTally_some htv
              rw [gaT.read_row c.toNat i (by rw [gaG]; exact hcN) (by omega), gaG] at hrm
              simp only [Option.some.injEq] at hrm
              simp only [TopFresh, List.length_nil, Nat.add_zero, Nat.add_sub_cancel, e9, e10,
                gbG, hrm, gbT, hv2, true_and]
              refine ⟨by omega, fun j hj => ?_⟩
              obtain ⟨vj, tj, hcj, htj, hne⟩ := hall j (Nat.zero_le _) hj
              obtain ⟨-, -, hrmj⟩ := cell_some hcj
              obtain ⟨hj0, hj1, hj2⟩ := readTally_some htj
              rw [gaT.read_row c.toNat j (by rw [gaG]; exact hcN) (by omega), gaG] at hrmj
              simp only [Option.some.injEq] at hrmj
              rw [hrmj]
              have := wb.tally vj.toNat (by omega)
              rw [gbT, hj2] at this
              by_contra hcon
              rw [if_neg hcon] at this
              exact hne this

theorem wf_zero (g : Globals) (ht : TableOK g) :
    Wf { g with gTally := fun j => if j < tallySize then 0 else g.gTally j, gHit := 0 } 0 := by
  refine ⟨ht, fun k hk => by omega, fun q hq => by simp [pathUpTo] at hq,
    by simp [pathUpTo], fun q hq => ?_⟩
  simp [pathUpTo, hq]

theorem initTally_cases (g : Globals) (p : List Int) (g1 : Globals)
    (h : initTallyAndPositionStack g p = some (0, g1)) :
    p ≠ [] ∧ p.length ≤ g.gGrid * g.gGrid ∧
      validateFrom (g.gGrid * g.gGrid)
        { g with gTally := fun j => if j < tallySize then 0 else g.gTally j, gHit := 0 } 0 p
        = some (0, g1) := by
  unfold initTallyAndPositionStack at h
  by_cases hp : p = []
  · rw [if_pos hp] at h; simp at h
  rw [if_neg hp] at h
  simp only at h
  by_cases hl : p.length > g.gGrid * g.gGrid
  · rw [if_pos hl] at h; simp at h
  rw [if_neg hl] at h
  refine ⟨hp, by omega, ?_⟩
  split at h
  · rename_i g2 heq
    split at h
    · simp only [Option.some.injEq, Prod.mk.injEq, true_and] at h
      rw [← h]; exact heq
    · simp at h
  · rename_i hne
    exact absurd h (hne g1)

theorem initTally_ok (g : Globals) (p : List Int) (g1 : Globals) (ht : TableOK g)
    (h : initTallyAndPositionStack g p = some (0, g1)) :
    p ≠ [] ∧ p.length ≤ g.gGrid * g.gGrid ∧ Wf g1 p.length ∧ g1.gHit = p.length ∧
      pathUpTo g1.gPositionStack p.length = p.map Int.toNat ∧
      (∀ v, v ∈ p → 0 ≤ v) ∧ List.Chain' (knightMoveInt g.gGrid) p ∧
      g1.gGrid = g.gGrid ∧ TopFresh g1 p.length := by
  obtain ⟨hp, hl, hv⟩ := initTally_cases g p g1 h
  obtain ⟨r1, r2, r3, r4, r5, -, r7, r8⟩ :=
    validateFrom_ok p _ 0 g1 (wf_zero g ht) rfl hv
  simp only [Nat.zero_add] at r1 r2 r3 r8
  refine ⟨hp, hl, r1, r2, ?_, r4, r5, r7, r8 hp⟩
  rw [r3]
  simp [pathUpTo]

theorem readStack_lt (g : Globals) (j : Nat) (h : j < tallySize) :
    readStack g j = some (g.gPositionStack j) := by
  simp [readStack, h]

theorem printPositions_wf {g : Globals} {h : Nat} (w : Wf g h) :
    ∀ n, n ≤ h →
      printPositions g n = some ((pathUpTo g.gPositionStack n).map Int.ofNat) := by
  have hts := w.tallySize_ge
  have hle := w.le
  intro n
  induction n with
  | zero => intro _; simp [printPositions, pathUpTo]
  | succ n ih =>
    intro hn
    simp only [printPositions]
    rw [ih (by omega), readStack_lt g n (by omega)]
    simp only
    rw [w.table.position _ (w.sq_lt n (by omega))]
    simp only [pathUpTo_succ, List.map_append, List.map_cons, List.map_nil, Int.ofNat_eq_coe]

theorem printStack_wf {g : Globals} {h : Nat} (w : Wf g h) (hh : g.gHit = h) (h1 : 1 ≤ h) :
    printStack g = some ((pathUpTo g.gPositionStack h).map Int.ofNat ++
      [slot g.gGrid (g.gPositionStack (h - 1) / 9) (g.gPositionStack (h - 1) % 9)]) := by
  have hts := w.tallySize_ge
  have hle := w.le
  unfold printStack
  rw [if_neg (by omega), hh, printPositions_wf w h (Nat.le_refl _),
    readStack_lt g (h - 1) (by omega)]
  simp only
  rw [w.table.read_ptr _ (w.sq_lt (h - 1) (by omega))]

theorem scanMoves_some_find (g : Globals) (cur nx : Int) (j0 : Nat)
    (hall : ∀ j, j ≤ j0 → ∃ v, cell g nx j = some v) (hj0 : cell g nx j0 = some cur) :
    ∀ rem i, i ≤ j0 → j0 < i + rem →
      ∃ r, scanMoves g cur (some nx) rem i = some r ∧ r ≤ j0 := by
  intro rem
  induction rem with
  | zero => intro i h1 h2; omega
  | succ rem ih =>
    intro i h1 h2
    simp only [scanMoves]
    obtain ⟨v, hv⟩ := hall i h1
    rw [hv]
    simp only
    by_cases e : v = cur
    · rw [if_pos e]; exact ⟨i, rfl, h1⟩
    · rw [if_neg e]
      have : i ≠ j0 := by
        intro hij
        rw [hij, hj0] at hv
        simp only [Option.some.injEq] at hv
        exact e hv.symm
      exact ih (i + 1) (by omega) (by omega)

theorem scanMoves_none_find (g : Globals) (cur : Int) (j0 : Nat)
    (hall : ∀ j, j ≤ j0 → ∃ v t, cell g cur j = some v ∧ readTally g v = some t)
    (hj0 : ∃ v, cell g cur j0 = some v ∧ readTally g v = some 0) :
    ∀ rem i, i ≤ j0 → j0 < i + rem →
      ∃ r, scanMoves g cur none rem i = some r ∧ r ≤ j0 := by
  intro rem
  induction rem with
  | zero => intro i h1 h2; omega
  | succ rem ih =>
    intro i h1 h2
    simp only [scanMoves]
    obtain ⟨v, t, hv, ht⟩ := hall i h1
    rw [hv]
    simp only
    rw [ht]
    simp only
    by_cases e : t = 0
    · rw [if_pos e]; exact ⟨i, rfl, h1⟩
    · rw [if_neg e]
      have : i ≠ j0 := by
        intro hij
        obtain ⟨v0, hv0, ht0⟩ := hj0
        rw [hij, hv0] at hv
        simp only [Option.some.injEq] at hv
        rw [hv, ht] at ht0
        simp only [Option.some.injEq] at ht0
        exact e ht0
      exact ih (i + 1) (by omega) (by omega)

theorem cell_row {g : Globals} (ht : TableOK g) (s : Int) (c : Nat) (h0 : 0 ≤ s)
    (hs : s.toNat < g.gGrid * g.gGrid) (hc : c < 9) :
    cell g s c = some (slot g.gGrid s.toNat c) := by
  unfold cell
  rw [if_pos ⟨h0, hc⟩, ht.read_row _ _ hs hc]

theorem readTally_lt (g : Globals) (v : Int) (h0 : 0 ≤ v) (h1 : v < tallySize) :
    readTally g v = some (g.gTally v.toNat) := by
  simp [readTally, h0, h1]

theorem validateFrom_wf : ∀ (rest : List Nat) (g : Globals) (k : Nat),
    Wf g k → k + rest.length ≤ g.gGrid * g.gGrid →
    (∀ q, q ∈ rest → q < g.gGrid * g.gGrid) →
    (∀ q, q ∈ rest → q ∉ pathUpTo g.gPositionStack k) → rest.Nodup →
    List.Chain' (knightMove g.gGrid) rest →
    (∀ c, rest.getLast? = some c → ∃ t, t < g.gGrid * g.gGrid ∧ knightMove g.gGrid c t ∧
      t ∉ pathUpTo g.gPositionStack k ∧ t ∉ rest) →
    ∃ g1, validateFrom (g.gGrid * g.gGrid) g k (rest.map Int.ofNat) = some (0, g1) := by
  intro rest
  induction rest with
  | nil => intro g k _ _ _ _ _ _ _; exact ⟨g, rfl⟩
  | cons c rest ih =>
    intro g k w hlen hrng hnot hnd hch hlast
    obtain ⟨h5, h11, hoff, hM⟩ := w.table
    have hts := w.tallySize_ge
    have hcN : c < g.gGrid * g.gGrid := hrng c (List.mem_cons_self _ _)
    have hct : g.gTally c = 0 := by
      rw [w.tally c (by omega), if_neg (hnot c (List.mem_cons_self _ _))]
    simp only [List.length_cons] at hlen
    rw [List.map_cons, validateFrom]
    rw [if_neg (by simp only [Int.ofNat_eq_coe, ge_iff_le, Nat.cast_le]; omega)]
    rw [readTally_lt g _ (by simp) (by simp only [Int.ofNat_eq_coe, Nat.cast_lt]; omega)]
    simp only [Int.ofNat_eq_coe, Int.toNat_ofNat, hct, ne_eq, not_true_eq_false, if_false]
    obtain ⟨ga, hga⟩ : ∃ ga : Globals, ga =
        { g with gTally := Function.update g.gTally c 1, gHit := g.gHit + 1 } := ⟨_, rfl⟩
    rw [← hga]
    have gaT : TableOK ga := by rw [hga]; exact ⟨h5, h11, hoff, hM⟩
    have gaG : ga.gGrid = g.gGrid := by rw [hga]
    have hscan : ∃ r, scanMoves ga (c : Int) (List.map Int.ofNat rest).head? 9 0 = some r ∧
        r ≤ 7 := by
      cases rest with
      | nil =>
        obtain ⟨t, htN, htk, htp, htc⟩ := hlast c rfl
        have hm := (mem_dests g.gGrid c t hcN h5 h11).mpr ⟨htN, htk⟩
        obtain ⟨j0, hj0, hj7, hs0⟩ := slot_of_mem _ _ _ hm
        have hcell : ∀ j, j < 9 → cell ga (c : Int) j = some (slot g.gGrid c j) := by
          intro j hj
          rw [cell_row gaT _ _ (by simp) (by simpa [gaG] using hcN) hj, gaG]
          simp
        have h := scanMoves_none_find ga (c : Int) j0 (fun j hj => by
            have hne : slot g.gGrid c j ≠ -1 :=
              (slot_lt_length g.gGrid c j h5 h11 hcN).mpr (by omega)
            obtain ⟨a0, a1, -, -⟩ := slot_knight g.gGrid c j h5 h11 hcN hne
            exact ⟨_, _, hcell j (by omega), readTally_lt ga _ a0 (by omega)⟩)
          ⟨_, hcell j0 (by omega), by
            rw [hs0, readTally_lt ga _ (by simp) (by simp only [Nat.cast_lt]; omega), hga]
            simp only [Int.toNat_ofNat]
            have hne : t ≠ c := by
              intro e; exact htc (by rw [e]; exact List.mem_cons_self _ _)
            rw [Function.update_noteq hne, w.tally t (by omega), if_neg htp]⟩
          9 0 (Nat.zero_le _) (by omega)
        obtain ⟨r, hr, hr2⟩ := h
        exact ⟨r, hr, by omega⟩
      | cons d rest2 =>
        have hdN : d < g.gGrid * g.gGrid := hrng d (by simp)
        have hk : knightMove g.gGrid c d := (List.chain'_cons.mp hch).1
        have hm := (mem_dests g.gGrid d c hdN h5 h11).mpr ⟨hcN, knightMove_symm _ _ _ hk⟩
        obtain ⟨j0, hj0, hj7, hs0⟩ := slot_of_mem _ _ _ hm
        have hcell : ∀ j, j < 9 → cell ga (d : Int) j = some (slot g.gGrid d j) := by
          intro j hj
          rw [cell_row gaT _ _ (by simp) (by simpa [gaG] using hdN) hj, gaG]
          simp
        have h := scanMoves_some_find ga (c : Int) (d : Int) j0
          (fun j hj => ⟨_, hcell j (by omega)⟩) (by rw [hcell j0 (by omega), hs0])
          9 0 (Nat.zero_le _) (by omega)
        obtain ⟨r, hr, hr2⟩ := h
        exact ⟨r, by simpa using hr, by omega⟩
    obtain ⟨r, hr, hr7⟩ := hscan
    rw [hr]
    simp only
    rw [if_neg (by omega), if_pos (by omega)]
    obtain ⟨gb, hgb⟩ : ∃ gb : Globals, gb =
        { g with gTally := Function.update g.gTally c 1, gHit := g.gHit + 1,
                 gPositionStack := Function.update g.gPositionStack k (c * 9 + r) } :=
      ⟨_, rfl⟩
    have gbG : gb.gGrid = g.gGrid := by rw [hgb]
    obtain ⟨wb, hpb⟩ := w.push gb c r hcN hr7 hct (by rw [hgb]) (by rw [hgb])
      (by rw [hgb]) (by rw [hgb]) (by rw [hgb])
    have hnd2 := List.nodup_cons.mp hnd
    have := ih gb (k + 1) wb (by rw [gbG]; omega)
      (fun q hq => by rw [gbG]; exact hrng q (List.mem_cons_of_mem _ hq))
      (fun q hq => by
        rw [hpb]
        intro hin
        rcases List.mem_append.mp hin with h1 | h1
        · exact hnot q (List.mem_cons_of_mem _ hq) h1
        · rw [List.mem_singleton.mp h1] at hq
          exact hnd2.1 hq)
      hnd2.2 (by rw [gbG]; exact hch.tail)
      (fun c2 hc2 => by
        have hl : (c :: rest).getLast? = some c2 := by
          cases rest with
          | nil => simp at hc2
          | cons d rest2 => rw [List.getLast?_cons_cons]; exact hc2
        obtain ⟨t, htN, htk, htp, htc⟩ := hlast c2 hl
        refine ⟨t, by rw [gbG]; exact htN, by rw [gbG]; exact htk, ?_, ?_⟩
        · rw [hpb]
          intro hin
          rcases List.mem_append.mp hin with h1 | h1
          · exact htp h1
          · exact htc (by rw [List.mem_singleton.mp h1]; exact List.mem_cons_self _ _)
        · intro hin
          exact htc (List.mem_cons_of_mem _ hin))
    rw [gbG, hgb] at this
    exact this

theorem getElem_pathUpTo (st : Nat → Nat) (h k : Nat) (hk : k < (pathUpTo st h).length) :
    (pathUpTo st h)[k] = st k / 9 := by
  simp [pathUpTo]

theorem map_toNat_ofNat (p : List Nat) : (p.map Int.ofNat).map Int.toNat = p := by
  induction p with
  | nil => rfl
  | cons a p ih => simp [ih]

/-- A well-formed path whose last square has an unvisited destination is
accepted, and the globals then describe that path. -/
theorem initializeEngine_accepts (g : Globals) (p : List Nat)
    (h5 : 5 ≤ g.gGrid) (h11 : g.gGrid ≤ 11) (hne : p ≠ [])
    (hrng : ∀ q, q ∈ p → q < g.gGrid * g.gGrid) (hnd : p.Nodup)
    (hch : List.Chain' (knightMove g.gGrid) p)
    (hlast : ∃ t, t < g.gGrid * g.gGrid ∧ knightMove g.gGrid (p.getLast hne) t ∧ t ∉ p) :
    ∃ g1, initializeEngine g (p.map Int.ofNat) = some (0, g1) ∧ Wf g1 p.length ∧
      g1.gHit = p.length ∧ pathUpTo g1.gPositionStack p.length = p ∧ g1.gGrid = g.gGrid := by
  have hT := initLegalMoves_tableOK g h5 h11
  have hlen := nodup_length_le p _ hnd hrng
  obtain ⟨g1, hv⟩ := validateFrom_wf p _ 0 (wf_zero _ hT) (by simpa using hlen)
    hrng (fun q _ => by simp [pathUpTo]) hnd hch (fun c hc => by
      rw [List.getLast?_eq_getLast _ hne] at hc
      simp only [Option.some.injEq] at hc
      obtain ⟨t, h1, h2, h3⟩ := hlast
      exact ⟨t, h1, hc ▸ h2, by simp [pathUpTo], h3⟩)
  obtain ⟨r1, r2, r3, -, -, -, r7, -⟩ := validateFrom_ok _ _ 0 g1 (wf_zero _ hT) rfl hv
  simp only [Nat.zero_add, List.length_map] at r1 r2 r3
  have hpos : 1 ≤ p.length := by
    cases p with
    | nil => exact absurd rfl hne
    | cons a l => simp
  refine ⟨g1, ?_, r1, r2, ?_, r7⟩
  · unfold initializeEngine initTallyAndPositionStack
    rw [if_neg (by simpa using hne)]
    simp only [List.length_map]
    rw [if_neg (by simpa using hlen)]
    simp only [initLegalMoves_grid] at hv ⊢
    rw [hv]
    simp only [printStack_wf r1 r2 hpos]
  · rw [r3, map_toNat_ofNat]
    simp [pathUpTo]

/-- C5: on a board of size 5 to 11, a path of squares on the board, pairwise
distinct, with consecutive squares one knight move apart, whose last square has
a legal destination outside the path, is accepted with return code 0; then
`gHit` is the length of the path, `gTally[s]` is 1 exactly for the squares of
the path and 0 for all others, and every cursor lies in the table row of its
square. -/
theorem C5_validation_accepts_wellformed (g : Globals) (p : List Nat)
    (h5 : 5 ≤ g.gGrid) (h11 : g.gGrid ≤ 11) (hne : p ≠ [])
    (hrng : ∀ q, q ∈ p → q < g.gGrid * g.gGrid) (hnd : p.Nodup)
    (hch : List.Chain' (knightMove g.gGrid) p)
    (hlast : ∃ t, t < g.gGrid * g.gGrid ∧ knightMove g.gGrid (p.getLast hne) t ∧ t ∉ p) :
    ∃ g1, initializeEngine g (p.map Int.ofNat) = some (0, g1) ∧ g1.gHit = p.length ∧
      (∀ s, s < tallySize → g1.gTally s = if s ∈ p then 1 else 0) ∧
      ∀ k (hk : k < p.length),
        legalMovesToPosition g1 (g1.gPositionStack k) = some (p[k] : Int) := by
  obtain ⟨g1, e, w, hh, hp, -⟩ := initializeEngine_accepts g p h5 h11 hne hrng hnd hch hlast
  refine ⟨g1, e, hh, fun s hs => ?_, fun k hk => ?_⟩
  · rw [w.tally s hs, hp]
  · rw [w.table.position _ (w.sq_lt k hk)]
    have := getElem_pathUpTo g1.gPositionStack p.length k (by rw [pathUpTo_length]; exact hk)
    simp only [hp] at this
    rw [this]

theorem C5_validation_accepts_wellformed_witness :
    ∃ g1, initializeEngine (zeroGlobals 5) ([0, 7].map Int.ofNat) = some (0, g1) ∧
      g1.gHit = [0, 7].length ∧
      (∀ s, s < tallySize → g1.gTally s = if s ∈ [0, 7] then 1 else 0) ∧
      ∀ k (hk : k < [0, 7].length),
        legalMovesToPosition g1 (g1.gPositionStack k) = some (([0, 7] : List Nat)[k] : Int) :=
  C5_validation_accepts_wellformed (zeroGlobals 5) [0, 7] (by decide) (by decide) (by decide)
    (by decide) (by decide) (List.chain'_pair.mpr (by decide)) ⟨4, by decide, by decide, by decide⟩

/-- C10 at the instance N = 5, p = [0, 11]: the path is accepted, the cursor
stored at stack position 0 is the first slot of row 0, and that slot holds
square 7, not square 11. -/
theorem C10_cursor_of_seed_0_11 :
    (initializeEngine (zeroGlobals 5) [0, 11]).map
        (fun r => (r.1, r.2.gPositionStack 0, readMatrix r.2 (r.2.gPositionStack 0))) =
      some (0, 0, some 7) := by
  decide!

/-! ## One pass of the search loop -/

theorem searchLoop_succ (fuel : Nat) (s : Search) :
    searchLoop (fuel + 1) s = cont fuel (step s) := by
  simp only [searchLoop, cont]

theorem Wf.ptr_succ {g : Globals} {h : Nat} (w : Wf g (h + 1)) :
    readMatrix g (g.gPositionStack h + 1) =
      some (slot g.gGrid (g.gPositionStack h / 9) (g.gPositionStack h % 9 + 1)) := by
  have hc := w.cols h (by omega)
  have hs := w.sq_lt h (by omega)
  have e1 : (g.gPositionStack h + 1) / 9 = g.gPositionStack h / 9 := by omega
  have e2 : (g.gPositionStack h + 1) % 9 = g.gPositionStack h % 9 + 1 := by omega
  rw [w.table.read_ptr _ (by rw [e1]; exact hs), e1, e2]

theorem retreatLoop_bump (s : Search) (h : Nat) (w : Wf s.g (h + 1))
    (hne : slot s.g.gGrid (s.g.gPositionStack h / 9) (s.g.gPositionStack h % 9 + 1) ≠ -1) :
    retreatLoop (h + 1) s = Outcome.running
      { s with
        g := { s.g with
          gHit := h + 1
          gPositionStack := Function.update s.g.gPositionStack h (s.g.gPositionStack h + 1) }
        miss := (s.miss + 1) % 2 ^ 64
        next := slot s.g.gGrid (s.g.gPositionStack h / 9) (s.g.gPositionStack h % 9 + 1) } := by
  have hts := w.tallySize_ge
  have hle := w.le
  simp only [retreatLoop]
  rw [readStack_lt _ _ (by omega)]
  simp only
  rw [w.ptr_succ]
  simp only [hne, if_false]

theorem retreatLoop_done (s : Search) (w : Wf s.g 1)
    (he : slot s.g.gGrid (s.g.gPositionStack 0 / 9) (s.g.gPositionStack 0 % 9 + 1) = -1) :
    retreatLoop 1 s = Outcome.returned { s with g := { s.g with gHit := 0 } } := by
  have hts := w.tallySize_ge
  have hle := w.le
  have hs := w.sq_lt 0 (by omega)
  simp only [retreatLoop]
  rw [readStack_lt _ _ (by omega)]
  simp only
  rw [w.ptr_succ]
  simp only [he, if_true]
  rw [w.table.position _ hs]

theorem retreatLoop_pop (s : Search) (h : Nat) (w : Wf s.g (h + 2))
    (he : slot s.g.gGrid (s.g.gPositionStack (h + 1) / 9)
      (s.g.gPositionStack (h + 1) % 9 + 1) = -1) :
    retreatLoop (h + 2) s = retreatLoop (h + 1)
      { s with g := { s.g with
          gTally := Function.update s.g.gTally (s.g.gPositionStack (h + 1) / 9) 0 } } := by
  have hts := w.tallySize_ge
  have hle := w.le
  have hs := w.sq_lt (h + 1) (by omega)
  rw [retreatLoop]
  rw [readStack_lt _ _ (by omega)]
  simp only
  rw [w.ptr_succ]
  simp only [he, if_true]
  rw [w.table.position _ hs]
  simp only [Int.toNat_ofNat]
  rw [if_neg (by omega), if_pos ⟨by omega, by omega⟩]

theorem pathUpTo_getLast (st : Nat → Nat) (h : Nat) :
    (pathUpTo st (h + 1)).getLast? = some (st h / 9) := by
  rw [pathUpTo_succ, List.getLast?_append]
  simp

theorem chain_snoc (N : Nat) (st : Nat → Nat) (h q : Nat)
    (hc : List.Chain' (knightMove N) (pathUpTo st (h + 1)))
    (hk : knightMove N (st h / 9) q) :
    List.Chain' (knightMove N) (pathUpTo st (h + 1) ++ [q]) := by
  rw [List.chain'_append]
  refine ⟨hc, List.chain'_singleton q, ?_⟩
  intro x hx y hy
  rw [pathUpTo_getLast] at hx
  simp only [Option.mem_def, Option.some.injEq, List.head?_cons] at hx hy
  rw [← hx, ← hy]
  exact hk

theorem printPositions_congr (g g2 : Globals)
    (eM : g2.gLegalMovesMatrix = g.gLegalMovesMatrix)
    (eO : g2.gLegalMoveToIndexOff = g.gLegalMoveToIndexOff) :
    ∀ n, (∀ k, k < n → g2.gPositionStack k = g.gPositionStack k) →
      printPositions g2 n = printPositions g n := by
  intro n
  induction n with
  | zero => intro _; rfl
  | succ n ih =>
    intro hk
    simp only [printPositions]
    rw [ih (fun k hk2 => hk k (by omega))]
    simp only [readStack, legalMovesToPosition, readMatrix, eM, eO, hk n (by omega)]

theorem printStack_congr (g g2 : Globals)
    (eM : g2.gLegalMovesMatrix = g.gLegalMovesMatrix)
    (eO : g2.gLegalMoveToIndexOff = g.gLegalMoveToIndexOff)
    (eH : g2.gHit = g.gHit)
    (eS : ∀ k, k < g.gHit → g2.gPositionStack k = g.gPositionStack k) :
    printStack g2 = printStack g := by
  unfold printStack
  rw [eH]
  by_cases h0 : g.gHit = 0
  · rw [if_pos h0, if_pos h0]
  · rw [if_neg h0, if_neg h0, printPositions_congr g g2 eM eO _ eS]
    simp only [readStack, readMatrix, eM, eS (g.gHit - 1) (by omega)]

/-- The retreat branch when the top cursor has a further candidate. -/
theorem bump_inv (s : Search) (h : Nat) (w : Wf s.g (h + 1))
    (hch : List.Chain' (knightMove s.g.gGrid) (pathUpTo s.g.gPositionStack (h + 1)))
    (hne : slot s.g.gGrid (s.g.gPositionStack h / 9) (s.g.gPositionStack h % 9 + 1) ≠ -1)
    (s2 : Search) (hs2 : retreatLoop (h + 1) s = Outcome.running s2) :
    Inv s2 ∧ s2.g.gHit = h + 1 ∧ s2.out = s.out ∧ s2.g.gGrid = s.g.gGrid ∧
      s2.g.gPositionStack = Function.update s.g.gPositionStack h (s.g.gPositionStack h + 1) ∧
      s2.next = slot s.g.gGrid (s.g.gPositionStack h / 9) (s.g.gPositionStack h % 9 + 1) ∧
      s2.g.gTally = s.g.gTally := by
  rw [retreatLoop_bump s h w hne] at hs2
  simp only [Outcome.running.injEq] at hs2
  obtain ⟨h5, h11, -, -⟩ := w.table
  have hk := slot_knight s.g.gGrid _ _ h5 h11 (w.sq_lt h (by omega)) hne
  have eS : s2.g.gPositionStack =
      Function.update s.g.gPositionStack h (s.g.gPositionStack h + 1) := by rw [← hs2]
  have eH : s2.g.gHit = h + 1 := by rw [← hs2]
  have eG : s2.g.gGrid = s.g.gGrid := by rw [← hs2]
  have eN : s2.next =
      slot s.g.gGrid (s.g.gPositionStack h / 9) (s.g.gPositionStack h % 9 + 1) := by
    rw [← hs2]
  have eT : s2.g.gTally = s.g.gTally := by rw [← hs2]
  obtain ⟨wb, hpb⟩ := w.bump s2.g h (by omega) (by rw [← hs2]) (by rw [← hs2]) eG eT eS
  have hc := w.cols h (by omega)
  refine ⟨⟨by rw [eH]; exact wb, by omega, ?_, ?_, ?_⟩, eH, by rw [← hs2], eG, eS, eN, eT⟩
  · rw [eH, hpb, eG]; exact hch
  · rw [eN, eG]
    exact ⟨hk.1, by have := hk.2.1; omega⟩
  · intro _
    have e : h + 1 - 1 = h := by omega
    rw [eN, eH, eG, eS, e, Function.update_same]
    congr 1 <;> omega

/-- The advance branch: `next` is unvisited. -/
theorem advance_spec (s : Search) (inv : Inv s) (h0 : s.g.gTally s.next.toNat = 0) :
    ∃ s2, step s = Outcome.running s2 ∧ Inv s2 ∧ s2.g.gHit = s.g.gHit + 1 ∧
      s2.g.gGrid = s.g.gGrid ∧
      pathUpTo s2.g.gPositionStack (s.g.gHit + 1) =
        pathUpTo s.g.gPositionStack s.g.gHit ++ [s.next.toNat] ∧
      (∀ k, k < s.g.gHit → s2.g.gPositionStack k = s.g.gPositionStack k) ∧
      s2.g.gPositionStack s.g.gHit = s.next.toNat * 9 ∧
      (s.g.gHit + 1 = s.g.gGrid * s.g.gGrid →
        s2.out = s.out ++
          [(pathUpTo s.g.gPositionStack s.g.gHit ++ [s.next.toNat]).map Int.ofNat]) ∧
      (s.g.gHit + 1 ≠ s.g.gGrid * s.g.gGrid →
        s2.out = s.out ∧ s2.next = slot s.g.gGrid s.next.toNat 0) := by
  obtain ⟨w, hpos, hch, ⟨hn0, hn1⟩, htop⟩ := inv
  obtain ⟨h5, h11, hoff, hM⟩ := w.table
  have hts := w.tallySize_ge
  have hqN : s.next.toNat < s.g.gGrid * s.g.gGrid := by omega
  have hnx := htop h0
  have e1 : s.g.gHit - 1 + 1 = s.g.gHit := by omega
  have hsq := w.sq_lt (s.g.gHit - 1) (by omega)
  have hk := slot_knight s.g.gGrid _ _ h5 h11 hsq (by rw [← hnx]; omega)
  rw [← hnx] at hk
  obtain ⟨g2, hg2⟩ : ∃ g2 : Globals, g2 = { s.g with
      gTally := Function.update s.g.gTally s.next.toNat 1
      gPositionStack := Function.update s.g.gPositionStack s.g.gHit (s.next.toNat * 9)
      gHit := s.g.gHit + 1 } := ⟨_, rfl⟩
  obtain ⟨w2, hp2⟩ := w.push g2 s.next.toNat 0 hqN (by omega) h0 (by rw [hg2]) (by rw [hg2])
    (by rw [hg2]) (by rw [hg2]) (by rw [hg2]; rfl)
  have hle2 := w2.le
  have eG2 : g2.gGrid = s.g.gGrid := by rw [hg2]
  have eH2 : g2.gHit = s.g.gHit + 1 := by rw [hg2]
  have eS2 : g2.gPositionStack =
      Function.update s.g.gPositionStack s.g.gHit (s.next.toNat * 9) := by rw [hg2]
  have eT2 : g2.gTally = Function.update s.g.gTally s.next.toNat 1 := by rw [hg2]
  rw [eG2] at hle2
  have hchain2 : List.Chain' (knightMove g2.gGrid) (pathUpTo g2.gPositionStack g2.gHit) := by
    rw [eH2, hp2, eG2]
    have := chain_snoc s.g.gGrid s.g.gPositionStack (s.g.gHit - 1) s.next.toNat
      (by rw [e1]; exact hch) hk.2.2.1
    rwa [e1] at this
  have hstk : ∀ k, k < s.g.gHit → g2.gPositionStack k = s.g.gPositionStack k := by
    intro k hk2
    rw [eS2, Function.update_noteq (by omega)]
  have hstep : step s = (if ((s.g.gGrid * s.g.gGrid : Nat) : Int) - 1 = s.g.gHit then
      (match printStack { g2 with gHit := s.g.gHit } with
          | none => Outcome.fault
          | some line =>
            Outcome.running
              { s with g := g2, paths := (s.paths + 1) % 2 ^ 64, out := s.out ++ [line] })
      else
        match readMatrix { g2 with gHit := s.g.gHit } (s.next.toNat * 9) with
          | none => Outcome.fault
          | some v => Outcome.running { s with g := g2, next := v }) := by
    unfold step
    rw [readTally_lt _ _ hn0 (by omega), h0]
    simp only [if_true]
    rw [if_pos (by omega)]
    subst hg2
    rfl
  rw [hstep]
  by_cases hc : ((s.g.gGrid * s.g.gGrid : Nat) : Int) - 1 = s.g.gHit
  · rw [if_pos hc]
    have hfull : s.g.gHit + 1 = s.g.gGrid * s.g.gGrid := by omega
    rw [printStack_congr s.g { g2 with gHit := s.g.gHit } (by rw [hg2]) (by rw [hg2]) rfl
      (fun k hk2 => by
        show g2.gPositionStack k = _
        exact hstk k hk2),
      printStack_wf w rfl hpos, ← hnx]
    simp only
    refine ⟨_, rfl, ⟨by rw [eH2]; exact w2, by simp only; omega, hchain2,
      ⟨hn0, by simp only; rw [eG2]; exact hn1⟩, ?_⟩, eH2, eG2, hp2, hstk, ?_, ?_, ?_⟩
    · intro hcon
      simp only [eT2, Function.update_same] at hcon
      exact absurd hcon (by decide)
    · rw [eS2, Function.update_same]
    · intro _
      simp only [List.map_append, List.map_cons, List.map_nil, Int.ofNat_eq_coe,
        Int.toNat_of_nonneg hn0]
    · intro hcon
      exact absurd hfull hcon
  · rw [if_neg hc]
    have hr : readMatrix { g2 with gHit := s.g.gHit } (s.next.toNat * 9) =
        some (slot s.g.gGrid s.next.toNat 0) := by
      have := w2.table.read_row s.next.toNat 0 (by rw [eG2]; exact hqN) (by omega)
      rw [eG2] at this
      simpa [readMatrix] using this
    rw [hr]
    simp only
    have hlen := (dests_length s.g.gGrid h5 h11 s.next.toNat hqN).1
    have hne0 : slot s.g.gGrid s.next.toNat 0 ≠ -1 :=
      (slot_lt_length s.g.gGrid s.next.toNat 0 h5 h11 hqN).mpr (by omega)
    have hk0 := slot_knight s.g.gGrid s.next.toNat 0 h5 h11 hqN hne0
    refine ⟨_, rfl, ⟨by rw [eH2]; exact w2, by simp only; omega, hchain2,
      ⟨hk0.1, by simp only; rw [eG2]; have := hk0.2.1; omega⟩, ?_⟩, eH2, eG2, hp2, hstk, ?_, ?_, ?_⟩
    · intro _
      simp only [eH2, eG2, eS2, Nat.add_sub_cancel, Function.update_same]
      congr 1 <;> omega
    · rw [eS2, Function.update_same]
    · intro hcon
      omega
    · intro _
      exact ⟨rfl, rfl⟩

theorem tour_line (N : Nat) (t : List Nat) (ht : TourNat N t) : IsTour N (t.map Int.ofNat) := by
  obtain ⟨hl, hn, hr, hc⟩ := ht
  refine ⟨by simpa using hl, fun q hq => ?_, ?_⟩
  · have hm := nodup_full t _ hn hr hl q hq
    have : (t.map Int.ofNat).count (Int.ofNat q) = t.count q :=
      List.count_map_of_injective t Int.ofNat (fun a b h => Int.ofNat.inj h) q
    rw [Int.ofNat_eq_coe] at this
    rw [this]
    exact List.count_eq_one_of_mem hn hm
  · rw [List.chain'_map]
    simpa using hc

theorem chain_init (N : Nat) (st : Nat → Nat) (h : Nat)
    (hc : List.Chain' (knightMove N) (pathUpTo st (h + 1))) :
    List.Chain' (knightMove N) (pathUpTo st h) := by
  rw [pathUpTo_succ] at hc
  exact (List.chain'_append.mp hc).1

/-- The retreat branch ends in a loop head that satisfies the invariant or in
the return with depth zero; it prints nothing. -/
theorem retreatLoop_good (N : Nat) : ∀ (h : Nat) (s : Search), Wf s.g (h + 1) → s.g.gGrid = N →
    List.Chain' (knightMove N) (pathUpTo s.g.gPositionStack (h + 1)) →
    (∀ l, l ∈ s.out → IsTour N l) → GoodOutcome N (retreatLoop (h + 1) s) := by
  intro h
  induction h with
  | zero =>
    intro s w hG hch hout
    by_cases he : slot s.g.gGrid (s.g.gPositionStack 0 / 9) (s.g.gPositionStack 0 % 9 + 1) = -1
    · rw [retreatLoop_done s w he]
      exact ⟨rfl, hout⟩
    · have hb := bump_inv s 0 w (hG ▸ hch) he
      rw [retreatLoop_bump s 0 w he] at hb ⊢
      obtain ⟨i1, -, i3, i4, -⟩ := hb _ rfl
      exact ⟨i1, by rw [i4, hG], by rw [i3]; exact hout⟩
  | succ h ih =>
    intro s w hG hch hout
    by_cases he : slot s.g.gGrid (s.g.gPositionStack (h + 1) / 9)
        (s.g.gPositionStack (h + 1) % 9 + 1) = -1
    · rw [retreatLoop_pop s h w he]
      exact ih _ (w.pop _ rfl rfl rfl rfl rfl) hG (chain_init N _ _ hch) hout
    · have hb := bump_inv s (h + 1) w (hG ▸ hch) he
      rw [retreatLoop_bump s (h + 1) w he] at hb ⊢
      obtain ⟨i1, -, i3, i4, -⟩ := hb _ rfl
      exact ⟨i1, by rw [i4, hG], by rw [i3]; exact hout⟩

theorem step_retreat (s : Search) (inv : Inv s) (h0 : s.g.gTally s.next.toNat ≠ 0) :
    step s = retreatLoop s.g.gHit s := by
  have hts := inv.wf.tallySize_ge
  unfold step
  rw [readTally_lt _ _ inv.next_rng.1 (by have := inv.next_rng.2; omega)]
  simp only [h0, if_false]

/-- One pass of the loop from a state that satisfies the invariant. -/
theorem step_good (N : Nat) (s : Search) (inv : Inv s) (hG : s.g.gGrid = N)
    (hout : ∀ l, l ∈ s.out → IsTour N l) : GoodOutcome N (step s) := by
  by_cases h0 : s.g.gTally s.next.toNat = 0
  · obtain ⟨s2, e, i2, eH, eG, hp, -, -, hfull, hnot⟩ := advance_spec s inv h0
    rw [e]
    refine ⟨i2, by rw [eG, hG], ?_⟩
    by_cases hf : s.g.gHit + 1 = s.g.gGrid * s.g.gGrid
    · rw [hfull hf]
      intro l hl
      rcases List.mem_append.mp hl with h1 | h1
      · exact hout l h1
      · rw [List.mem_singleton.mp h1, ← hp]
        apply tour_line
        have w2 := i2.wf
        have c2 := i2.chain
        rw [eH] at w2 c2
        rw [eG, hG] at c2
        exact ⟨by rw [pathUpTo_length, hf, hG], w2.nodup,
          fun q hq => by have := w2.rng q hq; rwa [eG, hG] at this, c2⟩
    · rw [(hnot hf).1]
      exact hout
  · rw [step_retreat s inv h0]
    have hpos := inv.pos
    obtain ⟨h, hh⟩ : ∃ h, s.g.gHit = h + 1 := ⟨s.g.gHit - 1, by omega⟩
    have w := inv.wf
    have c := inv.chain
    rw [hh] at w c ⊢
    rw [hG] at c
    exact retreatLoop_good N h s w hG c hout

theorem searchLoop_good (N : Nat) : ∀ (fuel : Nat) (s : Search), Inv s → s.g.gGrid = N →
    (∀ l, l ∈ s.out → IsTour N l) → GoodOutcome N (searchLoop fuel s) := by
  intro fuel
  induction fuel with
  | zero => intro s inv hG hout; exact ⟨inv, hG, hout⟩
  | succ fuel ih =>
    intro s inv hG hout
    rw [searchLoop_succ]
    have := step_good N s inv hG hout
    cases hs : step s with
    | running s2 =>
      rw [hs] at this
      exact ih s2 this.1 this.2.1 this.2.2
    | returned s2 => rw [hs] at this; exact this
    | fault => rw [hs] at this; exact this

/-- After a successful validation the search starts in a state that satisfies
the invariant, standing on the validated path with nothing printed. -/
theorem start_spec (g : Globals) (p : List Int) (g1 : Globals) (ht : TableOK g)
    (h : initTallyAndPositionStack g p = some (0, g1)) :
    ∃ s0, startSearch g1 = some s0 ∧ Inv s0 ∧ s0.g = g1 ∧ s0.out = [] ∧
      s0.g.gGrid = g.gGrid ∧ s0.g.gHit = p.length ∧
      pathUpTo s0.g.gPositionStack p.length = p.map Int.toNat ∧
      s0.next = slot g.gGrid (g1.gPositionStack (p.length - 1) / 9)
        (g1.gPositionStack (p.length - 1) % 9) ∧
      TopFresh g1 p.length := by
  obtain ⟨hp, hl, w, hh, hpath, h0, hch, hG, hfresh⟩ := initTally_ok g p g1 ht h
  have hpos : 1 ≤ p.length := by
    cases p with
    | nil => exact absurd rfl hp
    | cons a l => simp
  have hts := w.tallySize_ge
  have hle := w.le
  obtain ⟨h5, h11, -, -⟩ := w.table
  have hsq := w.sq_lt (p.length - 1) (by omega)
  obtain ⟨f1, f2, f3⟩ := hfresh
  have hk := slot_knight g1.gGrid _ _ h5 h11 hsq f1
  have hstart : startSearch g1 = some
      { g := g1, next := slot g1.gGrid (g1.gPositionStack (p.length - 1) / 9)
          (g1.gPositionStack (p.length - 1) % 9), miss := 0, paths := 0, out := [] } := by
    unfold startSearch
    rw [if_neg (by omega), hh, readStack_lt _ _ (by omega)]
    simp only
    rw [w.table.read_ptr _ hsq]
  refine ⟨_, hstart, ⟨by simp only [hh]; exact w, by simp only [hh]; exact hpos, ?_,
    ⟨hk.1, by have := hk.2.1; simp only; omega⟩, ?_⟩, rfl, rfl, hG, hh, hpath, by rw [hG],
    ⟨f1, f2, f3⟩⟩
  · simp only [hh, hpath, hG]
    rw [List.chain'_map]
    exact hch
  · intro _
    simp only [hh]

/-- At the head of every iteration of the loop of `findSequentialSolutions`
reached after a validation that returned 0 (board size 5 to 11), `gHit` is
between 1 and `N*N`, the squares on stack positions `0..gHit-1`
(`legalMovesToPosition` of each cursor) are pairwise distinct, each is one
knight move from the square below it, and `gTally[s]` is 1 exactly for those
squares and 0 for every other square. -/
theorem engine_invariant (g : Globals) (p : List Int) (g1 : Globals) (fuel : Nat)
    (s : Search) (h5 : 5 ≤ g.gGrid) (h11 : g.gGrid ≤ 11)
    (hinit : initializeEngine g p = some (0, g1))
    (hrun : findSequentialSolutions fuel g1 = Outcome.running s) :
    1 ≤ s.g.gHit ∧ s.g.gHit ≤ g.gGrid * g.gGrid ∧
      ∃ path : List Nat, path.length = s.g.gHit ∧
        (∀ k (hk : k < path.length),
          legalMovesToPosition s.g (s.g.gPositionStack k) = some (path[k] : Int)) ∧
        path.Nodup ∧ List.Chain' (knightMove g.gGrid) path ∧
        ∀ q, q < tallySize → s.g.gTally q = if q ∈ path then 1 else 0 := by
  obtain ⟨s0, hs0, inv0, -, hout0, hG0, -⟩ :=
    start_spec _ p g1 (initLegalMoves_tableOK g h5 h11) hinit
  rw [initLegalMoves_grid] at hG0
  have hgood := searchLoop_good g.gGrid fuel s0 inv0 hG0 (by rw [hout0]; simp)
  unfold findSequentialSolutions at hrun
  rw [hs0] at hrun
  simp only at hrun
  rw [hrun] at hgood
  obtain ⟨inv, hG, -⟩ := hgood
  have hle := inv.wf.le
  rw [hG] at hle
  refine ⟨inv.pos, hle, pathUpTo s.g.gPositionStack s.g.gHit, pathUpTo_length _ _,
    fun k hk => ?_, inv.wf.nodup, hG ▸ inv.chain, inv.wf.tally⟩
  rw [pathUpTo_length] at hk
  rw [inv.wf.table.position _ (inv.wf.sq_lt k hk), getElem_pathUpTo]

theorem seed24_run :
    (initializeEngine (zeroGlobals 5)
      [0, 7, 4, 13, 2, 5, 16, 23, 14, 3, 6, 15, 12, 9, 18, 21, 10, 1, 8, 19, 22, 11, 20, 17]).map
        (fun r => outOf (findSequentialSolutions 1 r.2)) =
      some [[0, 7, 4, 13, 2, 5, 16, 23, 14, 3, 6, 15, 12, 9, 18, 21, 10, 1, 8, 19, 22, 11, 20,
        17, 24]] := by
  decide!

theorem seed24_accepted :
    ∃ g1, initializeEngine (zeroGlobals 5)
      [0, 7, 4, 13, 2, 5, 16, 23, 14, 3, 6, 15, 12, 9, 18, 21, 10, 1, 8, 19, 22, 11, 20, 17] =
        some (0, g1) ∧
      outOf (findSequentialSolutions 1 g1) =
        [[0, 7, 4, 13, 2, 5, 16, 23, 14, 3, 6, 15, 12, 9, 18, 21, 10, 1, 8, 19, 22, 11, 20,
          17, 24]] := by
  have hc : (initializeEngine (zeroGlobals 5)
      [0, 7, 4, 13, 2, 5, 16, 23, 14, 3, 6, 15, 12, 9, 18, 21, 10, 1, 8, 19, 22, 11, 20,
        17]).map Prod.fst = some 0 := by
    decide!
  have hr := seed24_run
  cases h : initializeEngine (zeroGlobals 5)
      [0, 7, 4, 13, 2, 5, 16, 23, 14, 3, 6, 15, 12, 9, 18, 21, 10, 1, 8, 19, 22, 11, 20, 17] with
  | none => rw [h] at hc; simp at hc
  | some r =>
    rw [h] at hc hr
    simp only [Option.map_some', Option.some.injEq] at hc hr
    obtain ⟨c, g1⟩ := r
    simp only at hc hr
    subst hc
    exact ⟨g1, rfl, hr⟩

/-- After a validation that returned 0 on a board of size 5 to 11, every line
that `findSequentialSolutions` prints in its completion branch is a knight's
tour: it has `N*N` entries, every square of the board occurs in it exactly
once, and consecutive entries are one knight move apart by the rank and file
test. -/
theorem emitted_tours (g : Globals) (p : List Int) (g1 : Globals) (fuel : Nat)
    (l : List Int) (h5 : 5 ≤ g.gGrid) (h11 : g.gGrid ≤ 11)
    (hinit : initializeEngine g p = some (0, g1))
    (hl : l ∈ outOf (findSequentialSolutions fuel g1)) :
    l.length = g.gGrid * g.gGrid ∧ (∀ q, q < g.gGrid * g.gGrid → l.count (q : Int) = 1) ∧
      List.Chain' (fun a b => knightMove g.gGrid a.toNat b.toNat) l := by
  obtain ⟨s0, hs0, inv0, -, hout0, hG0, -⟩ :=
    start_spec _ p g1 (initLegalMoves_tableOK g h5 h11) hinit
  rw [initLegalMoves_grid] at hG0
  have hgood := searchLoop_good g.gGrid fuel s0 inv0 hG0 (by rw [hout0]; simp)
  unfold findSequentialSolutions at hl
  rw [hs0] at hl
  simp only at hl
  cases hr : searchLoop fuel s0 with
  | running s => rw [hr] at hl hgood; exact hgood.2.2 l hl
  | returned s => rw [hr] at hl hgood; exact hgood.2 l hl
  | fault => rw [hr] at hgood; exact absurd hgood id

/-- The first pass of the loop after a successful validation takes the advance
branch. -/
theorem first_pass_running (g : Globals) (p : List Int) (g1 : Globals)
    (h5 : 5 ≤ g.gGrid) (h11 : g.gGrid ≤ 11) (hinit : initializeEngine g p = some (0, g1)) :
    ∃ s, findSequentialSolutions 1 g1 = Outcome.running s := by
  obtain ⟨s0, hs0, inv0, e0, -, hG0, hH0, -, hn0, hf⟩ :=
    start_spec _ p g1 (initLegalMoves_tableOK g h5 h11) hinit
  have ht : s0.g.gTally s0.next.toNat = 0 := by
    rw [hn0, e0]
    have := hf.2.1
    have hG1 : g1.gGrid = (initLegalMoves g).gGrid := by rw [← e0]; exact hG0
    rw [hG1] at this
    exact this
  obtain ⟨s2, e, -⟩ := advance_spec s0 inv0 ht
  refine ⟨s2, ?_⟩
  unfold findSequentialSolutions
  rw [hs0]
  simp only [searchLoop, e]

/-! ## Exhaustive exploration below a stack position -/

theorem cont_running (fuel : Nat) (s : Search) :
    cont fuel (Outcome.running s) = searchLoop fuel s := rfl

/-- From the retreat branch at depth `h + 1`: the remaining candidates of the
top cursor are explored one after the other, given that every state of smaller
measure is explored. -/
theorem explore_tail (N m : Nat)
    (IH : ∀ (s : Search) (h : Nat), Inv s → s.g.gGrid = N → s.g.gHit = h + 1 →
      searchMeasure s ≤ m →
      ∃ n s1, (∀ fuel, searchLoop (n + fuel) s = cont fuel (retreatLoop (h + 1) s1)) ∧
        Explored N h s.g.gPositionStack s.out s1 ∧
        ToursIn N h s.g.gPositionStack
          (fun j x => s.g.gPositionStack h % 9 < j ∨
            (s.g.gPositionStack h % 9 = j ∧ s.next = (x : Int))) s1.out)
    (s3 : Search) (h : Nat) (w : Wf s3.g (h + 1)) (hG : s3.g.gGrid = N)
    (hch : List.Chain' (knightMove N) (pathUpTo s3.g.gPositionStack (h + 1)))
    (hm : (N * N - (h + 1)) * 9 + (8 - s3.g.gPositionStack h % 9) ≤ m + 1) :
    ∃ n s1, (∀ fuel, cont (n + fuel) (retreatLoop (h + 1) s3) =
        cont fuel (retreatLoop (h + 1) s1)) ∧
      Explored N h s3.g.gPositionStack s3.out s1 ∧
      ToursIn N h s3.g.gPositionStack (fun j _ => s3.g.gPositionStack h % 9 < j) s1.out := by
  obtain ⟨h5, h11, -, -⟩ := w.table
  rw [hG] at h5 h11
  have hsq := w.sq_lt h (by omega)
  rw [hG] at hsq
  by_cases he : slot N (s3.g.gPositionStack h / 9) (s3.g.gPositionStack h % 9 + 1) = -1
  · refine ⟨0, s3, fun fuel => by rw [Nat.zero_add], ⟨w, hG, rfl, fun _ _ => rfl, he, fun _ hl => hl⟩,
      ?_⟩
    intro t rest x j _ _ hs hj
    exfalso
    have h1 : slot N (s3.g.gPositionStack h / 9) j ≠ -1 := by rw [hs]; omega
    have h2 := (slot_lt_length N _ j h5 h11 hsq).mp h1
    have h3 : ¬ (s3.g.gPositionStack h % 9 + 1 < (dests N (s3.g.gPositionStack h / 9)).length) := by
      intro hcon
      exact (slot_lt_length N _ _ h5 h11 hsq).mpr hcon he
    omega
  · have he2 : slot s3.g.gGrid (s3.g.gPositionStack h / 9) (s3.g.gPositionStack h % 9 + 1) ≠ -1 := by
      rw [hG]; exact he
    have hk := slot_knight N _ _ h5 h11 hsq he
    have hrl := retreatLoop_bump s3 h w he2
    obtain ⟨s2, hs2⟩ : ∃ s2, retreatLoop (h + 1) s3 = Outcome.running s2 := ⟨_, hrl⟩
    obtain ⟨i1, i2, i3, i4, i5, i6, -⟩ := bump_inv s3 h w (hG ▸ hch) he2 s2 hs2
    rw [hG] at i4 i6
    have hcol : s2.g.gPositionStack h % 9 = s3.g.gPositionStack h % 9 + 1 := by
      rw [i5, Function.update_same]; omega
    have hrow : s2.g.gPositionStack h / 9 = s3.g.gPositionStack h / 9 := by
      rw [i5, Function.update_same]; omega
    have hmeas : searchMeasure s2 ≤ m := by
      unfold searchMeasure
      rw [i2, i4, Nat.add_sub_cancel, hcol]
      omega
    obtain ⟨n, s1, hrun, ⟨e1, e2, e3, e4, e5, e6⟩, htours⟩ := IH s2 h i1 i4 i2 hmeas
    have hpath : pathUpTo s2.g.gPositionStack (h + 1) = pathUpTo s3.g.gPositionStack (h + 1) := by
      rw [i5]; exact pathUpTo_bump _ _ _ (by omega)
    refine ⟨n, s1, fun fuel => by rw [hs2, cont_running, hrun], ⟨e1, e2, by rw [e3, hpath],
      fun k hk2 => by rw [e4 k hk2, i5, Function.update_noteq (by omega)], e5,
      fun l hl => e6 l (by rw [i3]; exact hl)⟩, ?_⟩
    intro t rest x j ht hte hs hj
    apply htours t rest x j ht (by rw [hpath]; exact hte) (by rw [hrow]; exact hs)
    rw [hcol]
    by_cases hj2 : s3.g.gPositionStack h % 9 + 1 = j
    · right
      refine ⟨hj2, ?_⟩
      rw [i6, hj2, hs]
    · left
      omega

/-- From a loop head that satisfies the invariant, the search explores every
continuation of the path through the candidates of the top cursor from the
current one on, and then reaches the retreat from the current depth with the
path unchanged. -/
theorem explore (N : Nat) : ∀ (m : Nat) (s : Search) (h : Nat), Inv s → s.g.gGrid = N →
    s.g.gHit = h + 1 → searchMeasure s ≤ m →
    ∃ n s1, (∀ fuel, searchLoop (n + fuel) s = cont fuel (retreatLoop (h + 1) s1)) ∧
      Explored N h s.g.gPositionStack s.out s1 ∧
      ToursIn N h s.g.gPositionStack
        (fun j x => s.g.gPositionStack h % 9 < j ∨
          (s.g.gPositionStack h % 9 = j ∧ s.next = (x : Int))) s1.out := by
  intro m
  induction m with
  | zero =>
    intro s h inv _ hH hm
    exfalso
    have := inv.wf.cols h (by omega)
    unfold searchMeasure at hm
    rw [hH, Nat.add_sub_cancel] at hm
    omega
  | succ m ih =>
    intro s h inv hG hH hm
    have w := inv.wf
    have hch := inv.chain
    rw [hH] at w hch
    rw [hG] at hch
    obtain ⟨h5, h11, -, -⟩ := w.table
    rw [hG] at h5 h11
    have hcol := w.cols h (by omega)
    have hts := w.tallySize_ge
    unfold searchMeasure at hm
    rw [hH, hG, Nat.add_sub_cancel] at hm
    by_cases h0 : s.g.gTally s.next.toNat = 0
    · -- advance, explore below the new square, come back
      obtain ⟨s2, e, i2, eH, eG, hp, hstk, htop, hfull, hnot⟩ := advance_spec s inv h0
      rw [hH] at eH hp hstk htop hfull hnot
      rw [hG] at eG hfull hnot
      have hle2 := i2.wf.le
      rw [eH, eG] at hle2
      have hmeas2 : searchMeasure s2 ≤ m := by
        unfold searchMeasure
        rw [eH, eG, Nat.add_sub_cancel, htop]
        omega
      obtain ⟨n2, s2e, hrun2, ⟨a1, a2, a3, a4, a5, a6⟩, htours2⟩ :=
        ih s2 (h + 1) i2 eG eH hmeas2
      have hpop := retreatLoop_pop s2e h a1 (by rw [a2]; exact a5)
      obtain ⟨s3, hs3⟩ : ∃ s3 : Search, s3 = { s2e with g := { s2e.g with
          gTally := Function.update s2e.g.gTally (s2e.g.gPositionStack (h + 1) / 9) 0 } } :=
        ⟨_, rfl⟩
      rw [← hs3] at hpop
      have w3 : Wf s3.g (h + 1) := a1.pop s3.g (by rw [hs3]) (by rw [hs3]) (by rw [hs3])
        (by rw [hs3]) (by rw [hs3])
      have e3S : s3.g.gPositionStack = s2e.g.gPositionStack := by rw [hs3]
      have e3O : s3.out = s2e.out := by rw [hs3]
      have e3G : s3.g.gGrid = N := by rw [hs3]; exact a2
      have hstk3 : ∀ k, k < h + 1 → s3.g.gPositionStack k = s.g.gPositionStack k := by
        intro k hk
        rw [e3S, a4 k hk, hstk k hk]
      have hpath3 : pathUpTo s3.g.gPositionStack (h + 1) = pathUpTo s.g.gPositionStack (h + 1) :=
        pathUpTo_congr _ _ _ hstk3
      obtain ⟨n3, s1, hrun3, ⟨b1, b2, b3, b4, b5, b6⟩, htours3⟩ :=
        explore_tail N m ih s3 h w3 e3G (by rw [hpath3]; exact hch)
          (by rw [hstk3 h (by omega)]; exact hm)
      have hsub : ∀ l, l ∈ s.out → l ∈ s2.out := by
        intro l hl
        by_cases hf : h + 1 + 1 = N * N
        · rw [hfull hf]; exact List.mem_append_left _ hl
        · rw [(hnot hf).1]; exact hl
      refine ⟨n2 + n3 + 1, s1, fun fuel => ?_, ⟨b1, b2, by rw [b3, hpath3],
        fun k hk => by rw [b4 k hk, hstk3 k (by omega)], b5,
        fun l hl => b6 l (by rw [e3O]; exact a6 l (hsub l hl))⟩, ?_⟩
      · have en : n2 + n3 + 1 + fuel = (n2 + (n3 + fuel)) + 1 := by omega
        rw [en, searchLoop_succ, e, cont_running, hrun2, hpop, hrun3]
      · intro t rest x j ht hte hs hj
        rcases hj with hj | ⟨hj, hnx⟩
        · exact htours3 t rest x j ht (by rw [hpath3]; exact hte)
            (by rw [hstk3 h (by omega)]; exact hs) (by rw [hstk3 h (by omega)]; exact hj)
        · apply b6
          rw [e3O]
          have hxq : s.next.toNat = x := by rw [hnx]; simp
          obtain ⟨tl, tn, tr, tc⟩ := ht
          have hlen : h + 1 + (1 + rest.length) = N * N := by
            rw [← tl, hte]
            simp [pathUpTo_length]
            omega
          by_cases hf : h + 1 + 1 = N * N
          · apply a6
            rw [hfull hf, hxq]
            have hr : rest = [] := List.length_eq_zero.mp (by omega)
            rw [hte, hr]
            exact List.mem_append_right _ (List.mem_singleton_self _)
          · obtain ⟨y, rest2, hr⟩ : ∃ y rest2, rest = y :: rest2 := by
              cases rest with
              | nil => simp at hlen; omega
              | cons y r => exact ⟨y, r, rfl⟩
            subst hr
            have hxN : x < N * N := tr x (by rw [hte]; simp)
            have hyN : y < N * N := tr y (by rw [hte]; simp)
            have hxy : knightMove N x y := by
              rw [hte] at tc
              have := (List.chain'_append.mp tc).2.1
              exact (List.chain'_cons.mp this).1
            have hm2 := (mem_dests N x y hxN h5 h11).mpr ⟨hyN, hxy⟩
            obtain ⟨j2, -, -, hj2⟩ := slot_of_mem _ _ _ hm2
            have hrow2 : s2.g.gPositionStack (h + 1) / 9 = x := by rw [htop, hxq]; omega
            have hcol2 : s2.g.gPositionStack (h + 1) % 9 = 0 := by rw [htop]; omega
            have ht2 : TourNat N (pathUpTo s.g.gPositionStack (h + 1) ++ x :: y :: rest2) := by
              rw [← hte]; exact ⟨tl, tn, tr, tc⟩
            rw [hte]
            apply htours2 (pathUpTo s.g.gPositionStack (h + 1) ++ x :: y :: rest2) rest2 y j2
              ht2 (by rw [hp, hxq]; simp) (by rw [hrow2]; exact hj2)
            rw [hcol2]
            by_cases hz : 0 = j2
            · right
              refine ⟨hz, ?_⟩
              rw [(hnot hf).2, hxq, ← hj2, ← hz]
            · left; omega
    · -- the candidate is visited: retreat
      have hst := step_retreat s inv h0
      rw [hH] at hst
      obtain ⟨n3, s1, hrun3, hex, htours3⟩ := explore_tail N m ih s h w hG hch hm
      refine ⟨n3 + 1, s1, fun fuel => ?_, hex, ?_⟩
      · have en : n3 + 1 + fuel = (n3 + fuel) + 1 := by omega
        rw [en, searchLoop_succ, hst, hrun3]
      · intro t rest x j ht hte hs hj
        rcases hj with hj | ⟨hj, hnx⟩
        · exact htours3 t rest x j ht hte hs hj
        · exfalso
          have hxq : s.next.toNat = x := by rw [hnx]; simp
          have hin : x ∈ pathUpTo s.g.gPositionStack (h + 1) := by
            have hx := inv.next_rng
            have := w.tally x (by rw [← hxq]; omega)
            rw [← hxq] at this ⊢
            by_contra hcon
            rw [if_neg hcon] at this
            exact h0 this
          have tn := ht.2.1
          rw [hte] at tn
          have := (List.nodup_append.mp tn).2.2
          exact this hin (List.mem_cons_self _ _)

theorem cont_returned (fuel : Nat) (s : Search) :
    cont fuel (Outcome.returned s) = Outcome.returned s := rfl

/-- The retreat from any depth ends in the return statement after finitely many
passes of the loop, and nothing printed is lost on the way. -/
theorem retreat_returns (N : Nat) : ∀ (h : Nat) (s1 : Search), Wf s1.g (h + 1) →
    s1.g.gGrid = N → List.Chain' (knightMove N) (pathUpTo s1.g.gPositionStack (h + 1)) →
    ∃ n final, (∀ fuel, cont (n + fuel) (retreatLoop (h + 1) s1) = Outcome.returned final) ∧
      final.g.gHit = 0 ∧ ∀ l, l ∈ s1.out → l ∈ final.out := by
  intro h
  induction h with
  | zero =>
    intro s1 w hG hch
    obtain ⟨n3, s1e, hrun, ⟨a1, a2, -, -, a5, a6⟩, -⟩ :=
      explore_tail N _ (explore N _) s1 0 w hG hch (Nat.le_succ _)
    have hd := retreatLoop_done s1e a1 (by rw [a2]; exact a5)
    exact ⟨n3, { s1e with g := { s1e.g with gHit := 0 } },
      fun fuel => by rw [hrun, hd, cont_returned], rfl, a6⟩
  | succ h ih =>
    intro s1 w hG hch
    obtain ⟨n3, s1e, hrun, ⟨a1, a2, a3, -, a5, a6⟩, -⟩ :=
      explore_tail N _ (explore N _) s1 (h + 1) w hG hch (Nat.le_succ _)
    have hpop := retreatLoop_pop s1e h a1 (by rw [a2]; exact a5)
    obtain ⟨s3, hs3⟩ : ∃ s3 : Search, s3 = { s1e with g := { s1e.g with
        gTally := Function.update s1e.g.gTally (s1e.g.gPositionStack (h + 1) / 9) 0 } } :=
      ⟨_, rfl⟩
    rw [← hs3] at hpop
    have w3 : Wf s3.g (h + 1) := a1.pop s3.g (by rw [hs3]) (by rw [hs3]) (by rw [hs3])
      (by rw [hs3]) (by rw [hs3])
    have e3S : s3.g.gPositionStack = s1e.g.gPositionStack := by rw [hs3]
    have e3O : s3.out = s1e.out := by rw [hs3]
    have e3G : s3.g.gGrid = N := by rw [hs3]; exact a2
    have hch3 : List.Chain' (knightMove N) (pathUpTo s3.g.gPositionStack (h + 1)) := by
      rw [e3S]
      apply chain_init
      rw [a3]
      exact hch
    obtain ⟨n, final, hfin, hz, hsub⟩ := ih s3 w3 e3G hch3
    refine ⟨n3 + n, final, fun fuel => ?_, hz, fun l hl => hsub l (by rw [e3O]; exact a6 l hl)⟩
    have en : n3 + n + fuel = n3 + (n + fuel) := by omega
    rw [en, hrun, hpop, hfin]

/-- After a successful validation the search reaches its return statement, and
by then it has printed every tour that continues the validated path. -/
theorem search_returns (g : Globals) (p : List Int) (g1 : Globals)
    (h5 : 5 ≤ g.gGrid) (h11 : g.gGrid ≤ 11) (hinit : initializeEngine g p = some (0, g1)) :
    ∃ fuel final, findSequentialSolutions fuel g1 = Outcome.returned final ∧
      final.g.gHit = 0 ∧
      ∀ t : List Nat, TourNat g.gGrid t → p <+: t.map Int.ofNat →
        t.map Int.ofNat ∈ final.out := by
  obtain ⟨s0, hs0, inv0, e0, -, hG0, hH0, hpath, hn0, hf⟩ :=
    start_spec _ p g1 (initLegalMoves_tableOK g h5 h11) hinit
  rw [initLegalMoves_grid] at hG0 hn0
  have hpos := inv0.pos
  obtain ⟨h, hh⟩ : ∃ h, p.length = h + 1 := ⟨p.length - 1, by rw [hH0] at hpos; omega⟩
  rw [hh] at hH0 hpath hn0 hf
  rw [Nat.add_sub_cancel] at hn0
  have hg1G : g1.gGrid = g.gGrid := by rw [← e0]; exact hG0
  obtain ⟨f1, f2, f3⟩ := hf
  rw [Nat.add_sub_cancel, hg1G] at f1 f2 f3
  rw [← e0] at hn0 f1 f2 f3
  obtain ⟨n, s1, hrun, ⟨a1, a2, a3, -, -, -⟩, htours⟩ :=
    explore g.gGrid _ s0 h inv0 hG0 hH0 (Nat.le_refl _)
  have hch := inv0.chain
  rw [hH0, hG0] at hch
  obtain ⟨n2, final, hfin, hz, hsub⟩ :=
    retreat_returns g.gGrid h s1 a1 a2 (by rw [a3]; exact hch)
  refine ⟨n + n2, final, ?_, hz, ?_⟩
  · unfold findSequentialSolutions
    rw [hs0]
    simp only
    have := hfin 0
    rw [Nat.add_zero] at this
    rw [hrun, this]
  · intro t ht hpre
    obtain ⟨rest, hr⟩ := hpre
    have w0 := inv0.wf
    rw [hH0] at w0
    have ht0 : t = pathUpTo s0.g.gPositionStack (h + 1) ++ rest.map Int.toNat := by
      have := congrArg (List.map Int.toNat) hr
      rw [List.map_append, map_toNat_ofNat] at this
      rw [hpath, ← this]
    obtain ⟨tl, tn, tr, tc⟩ := ht
    have hsq := w0.sq_lt h (by omega)
    rw [hG0] at hsq
    have hk := slot_knight g.gGrid _ _ h5 h11 hsq f1
    cases hrest : rest.map Int.toNat with
    | nil =>
      exfalso
      rw [hrest, List.append_nil] at ht0
      have hin := nodup_full t _ tn tr tl _ hk.2.1
      rw [ht0] at hin
      have hts := w0.tallySize_ge
      rw [hG0] at hts
      have := w0.tally (slot g.gGrid (s0.g.gPositionStack h / 9)
        (s0.g.gPositionStack h % 9)).toNat (by have := hk.2.1; omega)
      rw [if_pos hin, f2] at this
      exact absurd this (by decide)
    | cons x rest2 =>
      rw [hrest] at ht0
      apply hsub
      have hxN : x < g.gGrid * g.gGrid := tr x (by rw [ht0]; simp)
      have hxk : knightMove g.gGrid (s0.g.gPositionStack h / 9) x := by
        rw [ht0] at tc
        have := (List.chain'_append.mp tc).2.2
        exact this _ (by rw [pathUpTo_getLast]; exact rfl) x (by simp)
      have hm := (mem_dests g.gGrid _ x hsq h5 h11).mpr ⟨hxN, hxk⟩
      obtain ⟨j, -, -, hj⟩ := slot_of_mem _ _ _ hm
      have hxnot : x ∉ pathUpTo s0.g.gPositionStack (h + 1) := by
        rw [ht0] at tn
        intro hin
        exact (List.nodup_append.mp tn).2.2 hin (List.mem_cons_self _ _)
      apply htours t rest2 x j ⟨tl, tn, tr, tc⟩ ht0 hj
      by_cases hlt : j < s0.g.gPositionStack h % 9
      · exfalso
        have := f3 j hlt
        rw [hj] at this
        simp only [Int.toNat_ofNat] at this
        exact hxnot this
      · by_cases heq : s0.g.gPositionStack h % 9 = j
        · right
          refine ⟨heq, ?_⟩
          rw [hn0, heq, hj]
        · left; omega

/-- C3: after a successful validation of the initial path `p` on a board of
size 5 to 11, `findSequentialSolutions` reaches its return statement, and every
sequence of `N*N` pairwise distinct squares of the board that has `p` as a
prefix and whose consecutive squares are one knight move apart has been printed
by then. -/
theorem C3_enumeration_complete (g : Globals) (p : List Int) (g1 : Globals)
    (h5 : 5 ≤ g.gGrid) (h11 : g.gGrid ≤ 11) (hinit : initializeEngine g p = some (0, g1)) :
    ∃ fuel final, findSequentialSolutions fuel g1 = Outcome.returned final ∧
      ∀ t : List Nat, t.length = g.gGrid * g.gGrid → t.Nodup →
        (∀ q, q ∈ t → q < g.gGrid * g.gGrid) → List.Chain' (knightMove g.gGrid) t →
        p <+: t.map Int.ofNat → t.map Int.ofNat ∈ final.out := by
  obtain ⟨fuel, final, h1, -, h3⟩ := search_returns g p g1 h5 h11 hinit
  exact ⟨fuel, final, h1, fun t a b c d e => h3 t ⟨a, b, c, d⟩ e⟩

theorem C3_enumeration_complete_witness :
    ∃ g1, initializeEngine (zeroGlobals 5) ([0, 7].map Int.ofNat) = some (0, g1) ∧
      ∃ fuel final, findSequentialSolutions fuel g1 = Outcome.returned final ∧
        ∀ t : List Nat, t.length = 5 * 5 → t.Nodup →
          (∀ q, q ∈ t → q < 5 * 5) → List.Chain' (knightMove 5) t →
          [0, 7].map Int.ofNat <+: t.map Int.ofNat → t.map Int.ofNat ∈ final.out := by
  obtain ⟨g1, e, -⟩ := initializeEngine_accepts (zeroGlobals 5) [0, 7] (by decide) (by decide)
    (by decide) (by decide) (by decide) (List.chain'_pair.mpr (by decide))
    ⟨4, by decide, by decide, by decide⟩
  exact ⟨g1, e, C3_enumeration_complete (zeroGlobals 5) _ g1 (by decide) (by decide) e⟩

/-! ## Validation never stops without a return code on a malformed path -/

theorem scanMoves_some_total (g : Globals) (cur nx : Int) (h0 : 0 ≤ nx) (h1 : nx ≤ 127) :
    ∀ rem i, i + rem ≤ 9 → scanMoves g cur (some nx) rem i ≠ none := by
  intro rem
  induction rem with
  | zero => intro i _; simp [scanMoves]
  | succ rem ih =>
    intro i hi
    have hc : cell g nx i = some (g.gLegalMovesMatrix (nx.toNat * 9 + i)) := by
      unfold cell readMatrix
      rw [if_pos ⟨h0, by omega⟩, if_pos (by simp only [matrixSize, MAX_GRID]; omega)]
    simp only [scanMoves, hc]
    split
    · simp
    · exact ih (i + 1) (by omega)

theorem scan_col_le (ga : Globals) (gaT : TableOK ga) (c : Int)
    (hcN : c.toNat < ga.gGrid * ga.gGrid) (hc0 : 0 ≤ c) (nxt : Option Int) (i : Nat)
    (hsc : scanMoves ga c nxt 9 0 = some i) (hi9 : i ≠ 9) : i ≤ 7 := by
  have h5 := gaT.1
  have h11 := gaT.2.1
  cases nxt with
  | none =>
    rcases scanMoves_none_spec ga c 9 0 i hsc with h | ⟨-, h2, ⟨v, hcv, htv⟩, -⟩
    · omega
    · obtain ⟨-, -, hrm⟩ := cell_some hcv
      obtain ⟨hv0, -, -⟩ := readTally_some htv
      rw [gaT.read_row c.toNat i hcN (by omega)] at hrm
      simp only [Option.some.injEq] at hrm
      exact (slot_knight ga.gGrid c.toNat i h5 h11 hcN (by omega)).2.2.2
  | some d =>
    rcases scanMoves_some_spec ga c d 9 0 i hsc with h | ⟨-, h2, hcv, hall⟩
    · omega
    · obtain ⟨hd0, -, hrm⟩ := cell_some hcv
      by_cases hdN : d.toNat < ga.gGrid * ga.gGrid
      · rw [gaT.read_row d.toNat i hdN (by omega)] at hrm
        simp only [Option.some.injEq] at hrm
        exact (slot_knight ga.gGrid d.toNat i h5 h11 hdN (by omega)).2.2.2
      · rcases gaT.read_high d.toNat i (by omega) (by omega) c hrm with h | ⟨-, h0⟩
        · omega
        · by_cases hi0 : i = 0
          · omega
          · obtain ⟨v, hv1, hv2⟩ := hall 0 (Nat.le_refl _) (by omega)
            obtain ⟨-, -, hrm0⟩ := cell_some hv1
            rw [h0] at hrm0
            simp only [Option.some.injEq] at hrm0
            exact absurd hrm0.symm hv2

theorem scan_knight (ga : Globals) (gaT : TableOK ga) (c d : Int) (hc0 : 0 ≤ c)
    (hdN : d.toNat < ga.gGrid * ga.gGrid) (i : Nat)
    (hsc : scanMoves ga c (some d) 9 0 = some i) (hi9 : i ≠ 9) :
    knightMove ga.gGrid c.toNat d.toNat := by
  have h5 := gaT.1
  have h11 := gaT.2.1
  rcases scanMoves_some_spec ga c d 9 0 i hsc with h | ⟨-, h2, hcv, -⟩
  · omega
  · obtain ⟨-, -, hrm⟩ := cell_some hcv
    rw [gaT.read_row d.toNat i hdN (by omega)] at hrm
    simp only [Option.some.injEq] at hrm
    have := (slot_knight ga.gGrid d.toNat i h5 h11 hdN (by omega)).2.2.1
    rw [hrm] at this
    exact knightMove_symm _ _ _ this

/-- When the validation loop stops without a return code, the elements it was
given are on the board, new to the path, pairwise distinct and linked by knight
moves: only the scan of the last element can do that. -/
theorem validateFrom_none : ∀ (rest : List Int) (g : Globals) (k : Nat),
    Wf g k → (∀ v, v ∈ rest → 0 ≤ v ∧ v ≤ 127) → k + rest.length ≤ tallySize →
    validateFrom (g.gGrid * g.gGrid) g k rest = none →
      (∀ v, v ∈ rest → v < g.gGrid * g.gGrid) ∧
      (∀ v, v ∈ rest → v.toNat ∉ pathUpTo g.gPositionStack k) ∧ rest.Nodup ∧
      List.Chain' (knightMoveInt g.gGrid) rest := by
  intro rest
  induction rest with
  | nil => intro g k _ _ _ h; simp [validateFrom] at h
  | cons c rest ih =>
    intro g k w hv hlen hn
    obtain ⟨h5, h11, hoff, hM⟩ := w.table
    have hts := w.tallySize_ge
    obtain ⟨hc0, hc127⟩ := hv c (List.mem_cons_self _ _)
    simp only [List.length_cons] at hlen
    rw [validateFrom] at hn
    by_cases h4 : c ≥ ((g.gGrid * g.gGrid : Nat) : Int)
    · rw [if_pos h4] at hn
      simp at hn
    rw [if_neg h4] at hn
    have hcN : c.toNat < g.gGrid * g.gGrid := by omega
    rw [readTally_lt g c hc0 (by omega)] at hn
    simp only at hn
    by_cases ht0 : g.gTally c.toNat ≠ 0
    · rw [if_pos ht0] at hn
      simp at hn
    rw [if_neg ht0] at hn
    have hct : g.gTally c.toNat = 0 := by simpa using ht0
    have hcnot : c.toNat ∉ pathUpTo g.gPositionStack k := by
      intro hin
      have := w.tally c.toNat (by omega)
      rw [if_pos hin, hct] at this
      exact absurd this (by decide)
    obtain ⟨ga, hga⟩ : ∃ ga : Globals, ga =
        { g with gTally := Function.update g.gTally c.toNat 1, gHit := g.gHit + 1 } :=
      ⟨_, rfl⟩
    rw [← hga] at hn
    have gaT : TableOK ga := by rw [hga]; exact ⟨h5, h11, hoff, hM⟩
    have gaG : ga.gGrid = g.gGrid := by rw [hga]
    cases hsc : scanMoves ga c rest.head? 9 0 with
    | none =>
      cases rest with
      | nil =>
        refine ⟨fun v hv2 => ?_, fun v hv2 => ?_, List.nodup_singleton c,
          List.chain'_singleton c⟩
        · rw [List.mem_singleton.mp hv2]; omega
        · rw [List.mem_singleton.mp hv2]; exact hcnot
      | cons d rest2 =>
        exfalso
        obtain ⟨hd0, hd127⟩ := hv d (by simp)
        exact scanMoves_some_total ga c d hd0 hd127 9 0 (by omega) hsc
    | some i =>
      rw [hsc] at hn
      simp only at hn
      by_cases hi9 : i = 9
      · rw [if_pos hi9] at hn
        simp at hn
      rw [if_neg hi9, if_pos (by omega)] at hn
      obtain ⟨gb, hgb⟩ : ∃ gb : Globals, gb =
          { g with gTally := Function.update g.gTally c.toNat 1, gHit := g.gHit + 1,
                   gPositionStack := Function.update g.gPositionStack k (c.toNat * 9 + i) } :=
        ⟨_, rfl⟩
      have hn2 : validateFrom (gb.gGrid * gb.gGrid) gb (k + 1) rest = none := by
        rw [hgb]; exact hn
      have gbG : gb.gGrid = g.gGrid := by rw [hgb]
      have hi7 := scan_col_le ga gaT c (by rw [gaG]; exact hcN) hc0 _ i hsc hi9
      obtain ⟨wb, hpb⟩ := w.push gb c.toNat i hcN hi7 hct (by rw [hgb]) (by rw [hgb])
        (by rw [hgb]) (by rw [hgb]) (by rw [hgb])
      obtain ⟨r1, r2, r3, r4⟩ := ih gb (k + 1) wb
        (fun v hv2 => hv v (List.mem_cons_of_mem _ hv2)) (by omega) hn2
      rw [gbG] at r1 r4
      rw [hpb] at r2
      refine ⟨fun v hv2 => ?_, fun v hv2 => ?_, ?_, ?_⟩
      · rcases List.mem_cons.mp hv2 with e | e
        · rw [e]; omega
        · exact r1 v e
      · rcases List.mem_cons.mp hv2 with e | e
        · rw [e]; exact hcnot
        · intro hin
          exact r2 v e (List.mem_append_left _ hin)
      · refine List.nodup_cons.mpr ⟨fun hin => ?_, r3⟩
        exact r2 c hin (List.mem_append_right _ (List.mem_singleton_self _))
      · cases rest with
        | nil => exact List.chain'_singleton c
        | cons d rest2 =>
          refine List.Chain'.cons ?_ r4
          simp only [List.head?_cons] at hsc
          have hd0 := (hv d (by simp)).1
          have hdN : d.toNat < g.gGrid * g.gGrid := by
            have := r1 d (List.mem_cons_self _ _)
            omega
          have := scan_knight ga gaT c d hc0 (by rw [gaG]; exact hdN) i hsc hi9
          rw [gaG] at this
          exact this

theorem legalPath_of_validate (g : Globals) (p : List Int) (g1 : Globals) (ht : TableOK g)
    (hl : p.length ≤ g.gGrid * g.gGrid)
    (hv : validateFrom (g.gGrid * g.gGrid)
      { g with gTally := fun j => if j < tallySize then 0 else g.gTally j, gHit := 0 } 0 p
      = some (0, g1)) : LegalPath g.gGrid p := by
  obtain ⟨r1, -, r3, r4, r5, -, r7, -⟩ := validateFrom_ok p _ 0 g1 (wf_zero g ht) rfl hv
  simp only [Nat.zero_add] at r1 r3
  have hp : pathUpTo g1.gPositionStack p.length = p.map Int.toNat := by
    rw [r3]; simp [pathUpTo]
  refine ⟨hl, fun v hv2 => ⟨r4 v hv2, ?_⟩, ?_, r5⟩
  · have := r1.rng v.toNat (by rw [hp]; exact List.mem_map_of_mem _ hv2)
    have h1 := r4 v hv2
    rw [r7] at this
    simp only at this
    omega
  · have := r1.nodup
    rw [hp] at this
    exact List.Nodup.of_map _ this

/-- A malformed path of values 0..127 is rejected with a non-zero return
code. -/
theorem initTally_rejects (g : Globals) (p : List Int) (ht : TableOK g) (hne : p ≠ [])
    (hv : ∀ v, v ∈ p → 0 ≤ v ∧ v ≤ 127) (hbad : ¬ LegalPath g.gGrid p) :
    ∃ code g1, initTallyAndPositionStack g p = some (code, g1) ∧ code ≠ 0 := by
  have hts := sq_le_tallySize g.gGrid ht.2.1
  unfold initTallyAndPositionStack
  rw [if_neg hne]
  simp only
  by_cases hl : p.length > g.gGrid * g.gGrid
  · rw [if_pos hl]
    exact ⟨3, _, rfl, by decide⟩
  rw [if_neg hl]
  generalize hvf : validateFrom (g.gGrid * g.gGrid) _ 0 p = r
  cases r with
  | none =>
    exfalso
    obtain ⟨r1, -, r3, r4⟩ := validateFrom_none p _ 0 (wf_zero g ht) hv (by omega) hvf
    exact hbad ⟨by omega, fun v hv2 => ⟨(hv v hv2).1, r1 v hv2⟩, r3, r4⟩
  | some r =>
    obtain ⟨c, g1⟩ := r
    cases c with
    | zero =>
      exfalso
      exact hbad (legalPath_of_validate g p g1 ht (by omega) hvf)
    | succ c => exact ⟨c + 1, g1, rfl, by omega⟩

/-- C4: on a board of size 5 to 11, when `initTallyAndPositionStack` returns 0
the sequence has at most `N*N` elements, every element is a square of the
board, the elements are pairwise distinct and consecutive elements are one
knight move apart; and a non-empty sequence of values 0..127 that fails one of
these conditions yields a non-zero return code. -/
theorem C4_validation_rejects_malformed (g : Globals) (p : List Int)
    (h5 : 5 ≤ g.gGrid) (h11 : g.gGrid ≤ 11) :
    (∀ g1, initializeEngine g p = some (0, g1) →
      p.length ≤ g.gGrid * g.gGrid ∧ (∀ v, v ∈ p → 0 ≤ v ∧ v < g.gGrid * g.gGrid) ∧
        p.Nodup ∧ List.Chain' (fun a b => knightMove g.gGrid a.toNat b.toNat) p) ∧
    (p ≠ [] → (∀ v, v ∈ p → 0 ≤ v ∧ v ≤ 127) →
      ¬ (p.length ≤ g.gGrid * g.gGrid ∧ (∀ v, v ∈ p → 0 ≤ v ∧ v < g.gGrid * g.gGrid) ∧
        p.Nodup ∧ List.Chain' (fun a b => knightMove g.gGrid a.toNat b.toNat) p) →
      ∃ code g1, initializeEngine g p = some (code, g1) ∧ code ≠ 0) := by
  have hT := initLegalMoves_tableOK g h5 h11
  refine ⟨fun g1 h => ?_, fun hne hv hbad => ?_⟩
  · obtain ⟨-, hl, hvf⟩ := initTally_cases (initLegalMoves g) p g1 h
    exact legalPath_of_validate (initLegalMoves g) p g1 hT hl hvf
  · exact initTally_rejects (initLegalMoves g) p hT hne hv hbad

theorem C4_validation_rejects_malformed_witness :
    (∃ g1, initializeEngine (zeroGlobals 5) [0, 7] = some (0, g1) ∧
      ([0, 7] : List Int).length ≤ 5 * 5 ∧
      (∀ v, v ∈ ([0, 7] : List Int) → 0 ≤ v ∧ v < ((5 * 5 : Nat) : Int)) ∧
      ([0, 7] : List Int).Nodup ∧
      List.Chain' (fun a b => knightMove 5 a.toNat b.toNat) ([0, 7] : List Int)) ∧
    ∃ code g1, initializeEngine (zeroGlobals 5) [0, 1] = some (code, g1) ∧ code ≠ 0 := by
  obtain ⟨g1, e, -⟩ := initializeEngine_accepts (zeroGlobals 5) [0, 7] (by decide) (by decide)
    (by decide) (by decide) (by decide) (List.chain'_pair.mpr (by decide))
    ⟨4, by decide, by decide, by decide⟩
  refine ⟨⟨g1, e, (C4_validation_rejects_malformed (zeroGlobals 5) [0, 7] (by decide)
    (by decide)).1 g1 e⟩, ?_⟩
  refine (C4_validation_rejects_malformed (zeroGlobals 5) [0, 1] (by decide) (by decide)).2
    (by decide) (by decide) ?_
  intro h
  exact absurd (List.chain'_pair.mp h.2.2.2) (by decide)

/-! ## Failure codes of the validation -/

theorem scanMoves_some_miss (g : Globals) (cur nx : Int)
    (hall : ∀ i, i < 9 → ∃ v, cell g nx i = some v ∧ v ≠ cur) :
    ∀ rem i, i + rem = 9 → scanMoves g cur (some nx) rem i = some 9 := by
  intro rem
  induction rem with
  | zero => intro i hi; simp only [scanMoves]; congr 1
  | succ rem ih =>
    intro i hi
    obtain ⟨v, hv, hne⟩ := hall i (by omega)
    simp only [scanMoves, hv, hne, if_false]
    exact ih (i + 1) (by omega)

theorem not_knight_1_0 (N : Nat) (h5 : 5 ≤ N) (h11 : N ≤ 11) : ¬ knightMove N 1 0 := by
  interval_cases N <;> decide

/-- The path `[0, 1]` is rejected with code 2 on every board of size 5 to 11. -/
theorem initialize_0_1 (g : Globals) (h5 : 5 ≤ g.gGrid) (h11 : g.gGrid ≤ 11) :
    ∃ g1, initializeEngine g [0, 1] = some (2, g1) := by
  have hT := initLegalMoves_tableOK g h5 h11
  have hsq := sq_ge g.gGrid h5
  have hts := sq_le_tallySize g.gGrid h11
  obtain ⟨ga, hga⟩ : ∃ ga : Globals, ga =
      { initLegalMoves g with
        gTally := Function.update (fun j => if j < tallySize then (0 : Int) else
          (initLegalMoves g).gTally j) 0 1
        gHit := 0 + 1 } := ⟨_, rfl⟩
  have gaT : TableOK ga := by rw [hga]; exact hT
  have gaG : ga.gGrid = g.gGrid := by rw [hga]; rfl
  have hscan : scanMoves ga 0 (some 1) 9 0 = some 9 := by
    apply scanMoves_some_miss ga 0 1 _ 9 0 rfl
    intro i hi
    refine ⟨_, cell_row gaT 1 i (by decide) (by rw [gaG]; simp; omega) hi, ?_⟩
    rw [gaG]
    intro hcon
    have e1 : (1 : Int).toNat = 1 := rfl
    rw [e1] at hcon
    rcases slot_range g.gGrid 1 i h5 h11 (by omega) with h | ⟨-, -, hm⟩
    · rw [hcon] at h
      exact absurd h (by decide)
    · rw [hcon] at hm
      exact not_knight_1_0 g.gGrid h5 h11
        ((mem_dests g.gGrid 1 0 (by omega) h5 h11).mp (by simpa using hm)).2
  refine ⟨ga, ?_⟩
  unfold initializeEngine initTallyAndPositionStack
  rw [if_neg (by simp)]
  simp only [List.length_cons, List.length_nil]
  rw [if_neg (by rw [initLegalMoves_grid]; omega)]
  rw [validateFrom]
  rw [if_neg (by rw [initLegalMoves_grid]; simp only [ge_iff_le]; omega)]
  rw [readTally_lt _ _ (by decide) (by simp [tallySize, MAX_GRID])]
  simp only [Int.toNat_zero, tallySize, MAX_GRID, Nat.reduceMul, Nat.ofNat_pos, if_true,
    ne_eq, not_true_eq_false, if_false, List.head?_cons]
  simp only [tallySize, MAX_GRID, Nat.reduceMul] at hga
  rw [← hga, hscan]
  rfl

theorem parse_0_1 (N : Nat) (h5 : 5 ≤ N) (h11 : N ≤ 11) :
    parseArgs [Arg.grid N, Arg.number 0, Arg.number 1]
        { gGrid := 8, gVerbose := false, printHelpAndExit := false, initialStackFromArg := [] } =
      ParseOutcome.parsed
        { gGrid := N, gVerbose := false, printHelpAndExit := false,
          initialStackFromArg := [0, 1] } := by
  have hsq := sq_ge N h5
  simp only [parseArgs, MAX_GRID]
  rw [if_neg (by omega)]
  simp only [Int.toNat_ofNat, List.length_nil]
  rw [if_neg (by omega), if_neg (by omega), if_pos (by omega)]
  simp only [List.nil_append, List.length_cons, List.length_nil]
  rw [if_neg (by omega), if_neg (by omega), if_pos (by omega)]
  rfl

/-- C11: for every board size 5 to 11, validating the initial path `[0, 1]`
fails with return code 2, and `main` called with that grid size and that path
returns at the failed `initialize` without calling `findSequentialSolutions`, so
no counter of the search is ever incremented. -/
theorem C11_scenario_D_unreachable (N : Nat) (g : Globals) (fuel : Nat)
    (h5 : 5 ≤ N) (h11 : N ≤ 11) (hg : g.gGrid = N) :
    (∃ g1, initializeEngine g [0, 1] = some (2, g1)) ∧
      main fuel [Arg.grid N, Arg.number 0, Arg.number 1] = MainOutcome.exit (-1) none := by
  refine ⟨initialize_0_1 g (by rw [hg]; exact h5) (by rw [hg]; exact h11), ?_⟩
  obtain ⟨g1, e⟩ := initialize_0_1 (zeroGlobals N) h5 h11
  unfold main
  rw [parse_0_1 N h5 h11]
  simp only [List.length_cons, List.length_nil, MAX_GRID]
  rw [if_neg (by decide), if_neg (by decide), if_neg (by decide), e]
  rfl

theorem C11_scenario_D_unreachable_witness :
    (∃ g1, initializeEngine (zeroGlobals 5) [0, 1] = some (2, g1)) ∧
      main 0 [Arg.grid (5 : Nat), Arg.number 0, Arg.number 1] = MainOutcome.exit (-1) none :=
  C11_scenario_D_unreachable 5 (zeroGlobals 5) 0 (by decide) (by decide) rfl

/-- On the 5×5 board, for the path `[7, 18, 11, 0]` and for a complete tour,
the validation does not return a code; the scan of the last element runs past
the visited destinations of the last square onto the sentinel `-1` and reads
`gTally[-1]`, an access outside the array. -/
theorem dead_end_instances :
    (initializeEngine (zeroGlobals 5) [7, 18, 11, 0]).map Prod.fst = none ∧
    (initializeEngine (zeroGlobals 5)
      [0, 7, 4, 13, 2, 5, 16, 23, 14, 3, 6, 15, 12, 9, 18, 21, 10, 1, 8, 19, 22, 11, 20, 17,
        24]).map Prod.fst = none ∧
    rowSlots (initLegalMoves (zeroGlobals 5)) 0 = [7, 11, -1, -1, -1, -1, -1, -1, -1] ∧
    readTally (initLegalMoves (zeroGlobals 5)) (-1) = none := by
  decide!

/-- On the 5×5 board `[30]` and `[0, 25]` are rejected with code 4, `[0, 30]`
is rejected with code 2. -/
theorem off_board_instances :
    (initializeEngine (zeroGlobals 5) [30]).map Prod.fst = some 4 ∧
    (initializeEngine (zeroGlobals 5) [0, 25]).map Prod.fst = some 4 ∧
    (initializeEngine (zeroGlobals 5) [0, 30]).map Prod.fst = some 2 := by
  decide!

/-! ## What a failed validation leaves behind -/

theorem validateFrom_frame (m : Nat) : ∀ (rest : List Int) (g : Globals) (k c : Nat)
    (g1 : Globals), validateFrom m g k rest = some (c, g1) →
      (c = 0 ∨ c = 1 ∨ c = 2 ∨ c = 4) ∧ g1.gLegalMovesMatrix = g.gLegalMovesMatrix ∧
        g1.gLegalMoveToIndexOff = g.gLegalMoveToIndexOff ∧ g1.gGrid = g.gGrid := by
  intro rest
  induction rest with
  | nil =>
    intro g k c g1 h
    simp only [validateFrom, Option.some.injEq, Prod.mk.injEq] at h
    obtain ⟨h1, h2⟩ := h
    subst h1 h2
    exact ⟨by decide, rfl, rfl, rfl⟩
  | cons a rest ih =>
    intro g k c g1 h
    rw [validateFrom] at h
    by_cases h4 : a ≥ (m : Int)
    · rw [if_pos h4] at h
      simp only [Option.some.injEq, Prod.mk.injEq] at h
      obtain ⟨h1, h2⟩ := h
      subst h1 h2
      exact ⟨by decide, rfl, rfl, rfl⟩
    rw [if_neg h4] at h
    cases hrt : readTally g a with
    | none => rw [hrt] at h; simp at h
    | some t =>
      rw [hrt] at h
      simp only at h
      by_cases ht0 : t ≠ 0
      · rw [if_pos ht0] at h
        simp only [Option.some.injEq, Prod.mk.injEq] at h
        obtain ⟨h1, h2⟩ := h
        subst h1 h2
        exact ⟨by decide, rfl, rfl, rfl⟩
      rw [if_neg ht0] at h
      obtain ⟨ga, hga⟩ : ∃ ga : Globals, ga =
          { g with gTally := Function.update g.gTally a.toNat 1, gHit := g.gHit + 1 } :=
        ⟨_, rfl⟩
      rw [← hga] at h
      cases hsc : scanMoves ga a rest.head? 9 0 with
      | none => rw [hsc] at h; simp at h
      | some i =>
        rw [hsc] at h
        simp only at h
        by_cases hi9 : i = 9
        · rw [if_pos hi9] at h
          simp only [Option.some.injEq, Prod.mk.injEq] at h
          obtain ⟨h1, h2⟩ := h
          subst h1 h2
          rw [hga]
          exact ⟨by decide, rfl, rfl, rfl⟩
        rw [if_neg hi9] at h
        by_cases hk : k < tallySize
        · rw [if_pos hk] at h
          obtain ⟨r1, r2, r3, r4⟩ := ih _ (k + 1) c g1 h
          exact ⟨r1, r2, r3, r4⟩
        · rw [if_neg hk] at h
          simp at h

/-- Whatever code the validation returns, the adjacency table, its offset and
the board size are as before the call; with code 3 the visited set is all zero,
`gHit` is 0 and the path stack is as before the call. -/
theorem initTally_frame (g : Globals) (p : List Int) (c : Nat) (g1 : Globals)
    (h : initTallyAndPositionStack g p = some (c, g1)) :
    c ≤ 4 ∧ g1.gLegalMovesMatrix = g.gLegalMovesMatrix ∧
      g1.gLegalMoveToIndexOff = g.gLegalMoveToIndexOff ∧ g1.gGrid = g.gGrid ∧
      (c = 3 → g1.gHit = 0 ∧ (∀ j, j < tallySize → g1.gTally j = 0) ∧
        g1.gPositionStack = g.gPositionStack) := by
  unfold initTallyAndPositionStack at h
  by_cases hp : p = []
  · rw [if_pos hp] at h; simp at h
  rw [if_neg hp] at h
  simp only at h
  by_cases hl : p.length > g.gGrid * g.gGrid
  · rw [if_pos hl] at h
    simp only [Option.some.injEq, Prod.mk.injEq] at h
    obtain ⟨h1, h2⟩ := h
    subst h1 h2
    exact ⟨by decide, rfl, rfl, rfl, fun _ => ⟨rfl, fun j hj => by simp [hj], rfl⟩⟩
  rw [if_neg hl] at h
  generalize hvf : validateFrom (g.gGrid * g.gGrid) _ 0 p = r at h
  cases r with
  | none => simp at h
  | some r =>
    obtain ⟨c2, g2⟩ := r
    obtain ⟨f1, f2, f3, f4⟩ := validateFrom_frame _ p _ 0 c2 g2 hvf
    cases c2 with
    | zero =>
      simp only at h
      split at h
      · simp only [Option.some.injEq, Prod.mk.injEq] at h
        obtain ⟨h1, h2⟩ := h
        subst h1 h2
        exact ⟨by decide, f2, f3, f4, fun hc => absurd hc (by decide)⟩
      · simp at h
    | succ n =>
      simp only [Option.some.injEq, Prod.mk.injEq] at h
      obtain ⟨h1, h2⟩ := h
      subst h1 h2
      exact ⟨by omega, f2, f3, f4, fun hc => by omega⟩

/-- Refutation of C14 as stated: on the 5×5 board, from the state `initLegalMoves`
leaves (`gHit = 0`, `gTally[0] = 0`), the path `[0, 1]` fails with code 2 and
leaves `gHit = 1` and `gTally[0] = 1`. -/
theorem C14_failed_validation_not_atomic :
    (initTallyAndPositionStack (initLegalMoves (zeroGlobals 5)) [0, 1]).map
        (fun r => (r.1, r.2.gHit, r.2.gTally 0)) = some (2, 1, 1) ∧
      (initLegalMoves (zeroGlobals 5)).gHit = 0 ∧
      (initLegalMoves (zeroGlobals 5)).gTally 0 = 0 := by
  decide!

/-! ## The completion counter -/

theorem retreatLoop_out : ∀ (h : Nat) (s s1 : Search),
    (retreatLoop h s = Outcome.running s1 ∨ retreatLoop h s = Outcome.returned s1) →
      s1.out = s.out ∧ s1.paths = s.paths := by
  intro h
  induction h with
  | zero =>
    intro s s1 hr
    simp [retreatLoop] at hr
  | succ h ih =>
    intro s s1 hr
    rw [retreatLoop] at hr
    cases h1 : readStack s.g h with
    | none => rw [h1] at hr; simp at hr
    | some ptr =>
      rw [h1] at hr
      simp only at hr
      cases h2 : readMatrix s.g (ptr + 1) with
      | none => rw [h2] at hr; simp at hr
      | some v =>
        rw [h2] at hr
        simp only at hr
        by_cases hv : v = -1
        · rw [if_pos hv] at hr
          cases h3 : legalMovesToPosition s.g ptr with
          | none => rw [h3] at hr; simp at hr
          | some sq =>
            rw [h3] at hr
            simp only at hr
            by_cases h0 : h = 0
            · rw [if_pos h0] at hr
              rcases hr with hr | hr
              · cases hr
              · cases hr
                exact ⟨rfl, rfl⟩
            · rw [if_neg h0] at hr
              by_cases hq : 0 ≤ sq ∧ sq < tallySize
              · rw [if_pos hq] at hr
                have r := ih _ s1 hr
                exact r
              · rw [if_neg hq] at hr
                simp at hr
        · rw [if_neg hv] at hr
          rcases hr with hr | hr
          · cases hr
            exact ⟨rfl, rfl⟩
          · cases hr

/-- One pass of the loop either leaves the printed lines and the completion
counter alone or prints one line and adds one to the counter; the pass that
returns leaves both alone. -/
theorem step_out (s s1 : Search) :
    (step s = Outcome.running s1 →
      (s1.out = s.out ∧ s1.paths = s.paths) ∨
        (∃ line, s1.out = s.out ++ [line] ∧ s1.paths = (s.paths + 1) % 2 ^ 64)) ∧
    (step s = Outcome.returned s1 → s1.out = s.out ∧ s1.paths = s.paths) := by
  unfold step
  cases h1 : readTally s.g s.next with
  | none => simp
  | some t =>
    simp only
    by_cases ht : t = 0
    · rw [if_pos ht]
      by_cases hh : s.g.gHit < tallySize
      · rw [if_pos hh]
        split
        · split
          · simp
          · refine ⟨fun h => ?_, fun h => by simp at h⟩
            simp only [Outcome.running.injEq] at h
            subst h
            exact Or.inr ⟨_, rfl, rfl⟩
        · split
          · simp
          · refine ⟨fun h => ?_, fun h => by simp at h⟩
            simp only [Outcome.running.injEq] at h
            subst h
            exact Or.inl ⟨rfl, rfl⟩
      · rw [if_neg hh]
        simp
    · rw [if_neg ht]
      exact ⟨fun h => Or.inl (retreatLoop_out _ s s1 (Or.inl h)),
        fun h => retreatLoop_out _ s s1 (Or.inr h)⟩

/-- If some number of passes has printed a line, then after some smaller or
equal number of passes the loop stands at the head of an iteration with exactly
one line printed and the completion counter at 1. -/
theorem first_line : ∀ (fuel : Nat) (s : Search), s.out = [] → s.paths = 0 →
    outOf (searchLoop fuel s) ≠ [] →
      ∃ k s1, k ≤ fuel ∧ searchLoop k s = Outcome.running s1 ∧ s1.paths = 1 ∧
        s1.out.length = 1 := by
  intro fuel
  induction fuel with
  | zero =>
    intro s ho _ hne
    exact absurd ho hne
  | succ fuel ih =>
    intro s ho hp hne
    rw [searchLoop_succ] at hne
    cases hs : step s with
    | running s1 =>
      rw [hs, cont_running] at hne
      rcases (step_out s s1).1 hs with ⟨e1, e2⟩ | ⟨line, e1, e2⟩
      · obtain ⟨k, s2, hk, hrun, r1, r2⟩ := ih s1 (by rw [e1, ho]) (by rw [e2, hp]) hne
        refine ⟨k + 1, s2, by omega, ?_, r1, r2⟩
        rw [searchLoop_succ, hs]
        exact hrun
      · refine ⟨1, s1, by omega, ?_, by rw [e2, hp]; rfl, by rw [e1, ho]; rfl⟩
        rw [searchLoop_succ, hs]
        rfl
    | returned s1 =>
      rw [hs] at hne
      simp only [cont] at hne
      have e : outOf (Outcome.returned s1) = [] := by
        show s1.out = []
        rw [((step_out s s1).2 hs).1, ho]
      exact absurd e hne
    | fault =>
      rw [hs] at hne
      simp only [cont] at hne
      exact absurd rfl hne

theorem startSearch_counters (g : Globals) (s : Search) (h : startSearch g = some s) :
    s.paths = 0 ∧ s.out = [] := by
  unfold startSearch at h
  split at h
  · simp at h
  · split at h
    · simp at h
    · split at h
      · simp at h
      · simp only [Option.some.injEq] at h
        subst h
        exact ⟨rfl, rfl⟩

theorem tour5 : TourNat 5
    [0, 7, 4, 13, 2, 5, 16, 23, 14, 3, 6, 15, 12, 9, 18, 21, 10, 1, 8, 19, 22, 11, 20, 17, 24] := by
  refine ⟨by decide, by decide, by decide, ?_⟩
  simp only [List.chain'_cons, List.chain'_singleton, and_true]
  decide

/-- C15: on the 5×5 board the initial path `[0]` is accepted (code 0), and the
search started from it reaches its return statement after finitely many passes
of its loop; by then it has printed the complete path
0 7 4 13 2 5 16 23 14 3 6 15 12 9 18 21 10 1 8 19 22 11 20 17 24, every line it
has printed is a knight's tour of the 25 squares, and at the head of an earlier
iteration the completion counter stood at 1 with one line printed. -/
theorem C15_scenario_A :
    ∃ g1, initializeEngine (zeroGlobals 5) [0] = some (0, g1) ∧
      ∃ fuel final, findSequentialSolutions fuel g1 = Outcome.returned final ∧
        ([0, 7, 4, 13, 2, 5, 16, 23, 14, 3, 6, 15, 12, 9, 18, 21, 10, 1, 8, 19, 22, 11, 20,
          17, 24] : List Int) ∈ final.out ∧
        (∀ l, l ∈ final.out → IsTour 5 l) ∧
        ∃ k s, k < fuel ∧ findSequentialSolutions k g1 = Outcome.running s ∧
          s.paths = 1 ∧ s.out.length = 1 := by
  obtain ⟨g1, e, -⟩ := initializeEngine_accepts (zeroGlobals 5) [0] (by decide) (by decide)
    (by decide) (by decide) (by decide) (List.chain'_singleton _)
    ⟨7, by decide, by decide, by decide⟩
  have e2 : initializeEngine (zeroGlobals 5) [0] = some (0, g1) := e
  obtain ⟨fuel, final, hret, -, hall⟩ :=
    search_returns (zeroGlobals 5) [0] g1 (by decide) (by decide) e2
  obtain ⟨s0, hs0, inv0, -, hout0, hG0, -⟩ :=
    start_spec _ [0] g1 (initLegalMoves_tableOK (zeroGlobals 5) (by decide) (by decide)) e2
  have hp0 := (startSearch_counters g1 s0 hs0).1
  have hfs : ∀ n, findSequentialSolutions n g1 = searchLoop n s0 := by
    intro n
    unfold findSequentialSolutions
    rw [hs0]
  have hmem := hall _ tour5 ⟨[7, 4, 13, 2, 5, 16, 23, 14, 3, 6, 15, 12, 9, 18, 21, 10, 1, 8, 19,
    22, 11, 20, 17, 24], rfl⟩
  have hgood := searchLoop_good 5 fuel s0 inv0 hG0 (by rw [hout0]; simp)
  rw [← hfs, hret] at hgood
  have hne : outOf (searchLoop fuel s0) ≠ [] := by
    rw [← hfs, hret]
    exact List.ne_nil_of_mem hmem
  obtain ⟨k, s1, hk, hrun, r1, r2⟩ := first_line fuel s0 hout0 hp0 hne
  refine ⟨g1, e2, fuel, final, hret, hmem, hgood.2, k, s1, ?_, by rw [hfs]; exact hrun, r1, r2⟩
  rcases Nat.lt_or_ge k fuel with h | h
  · exact h
  · have : k = fuel := by omega
    subst this
    rw [← hfs, hret] at hrun
    cases hrun

/-! ## The builder does not depend on earlier content -/

/-- C16: for a board size up to 11 (in particular 5 to 11), the table
`initLegalMoves` builds and the value of `gLegalMoveToIndexOff` it sets depend
on `gGrid` only: two globals with the same `gGrid` and arbitrary other content
give the same cells of `gLegalMovesMatrix` and the same offset; so do a second
run after a first one, and a run that starts from the content left by a run for
another board size `M`. -/
theorem C16_builder_idempotent (g g2 : Globals) (M : Nat) (h11 : g.gGrid ≤ 11)
    (hG : g2.gGrid = g.gGrid) :
    ((∀ j, j < matrixSize →
        (initLegalMoves g2).gLegalMovesMatrix j = (initLegalMoves g).gLegalMovesMatrix j) ∧
      (initLegalMoves g2).gLegalMoveToIndexOff = (initLegalMoves g).gLegalMoveToIndexOff) ∧
    ((∀ j, j < matrixSize →
        (initLegalMoves (initLegalMoves g)).gLegalMovesMatrix j =
          (initLegalMoves g).gLegalMovesMatrix j) ∧
      (initLegalMoves (initLegalMoves g)).gLegalMoveToIndexOff =
        (initLegalMoves g).gLegalMoveToIndexOff) ∧
    ((∀ j, j < matrixSize →
        (initLegalMoves { initLegalMoves { g2 with gGrid := M } with gGrid := g.gGrid }).gLegalMovesMatrix j =
          (initLegalMoves g).gLegalMovesMatrix j) ∧
      (initLegalMoves { initLegalMoves { g2 with gGrid := M } with gGrid := g.gGrid }).gLegalMoveToIndexOff =
        (initLegalMoves g).gLegalMoveToIndexOff) := by
  have key : ∀ ga : Globals, ga.gGrid = g.gGrid →
      (∀ j, j < matrixSize →
        (initLegalMoves ga).gLegalMovesMatrix j = (initLegalMoves g).gLegalMovesMatrix j) ∧
      (initLegalMoves ga).gLegalMoveToIndexOff = (initLegalMoves g).gLegalMoveToIndexOff := by
    intro ga ha
    refine ⟨fun j hj => ?_, ?_⟩
    · rw [initLegalMoves_matrix ga (by rw [ha]; exact h11) j hj,
        initLegalMoves_matrix g h11 j hj, ha]
    · rw [initLegalMoves_off, initLegalMoves_off, ha]
  exact ⟨key g2 hG, key (initLegalMoves g) rfl, key _ rfl⟩

theorem C16_builder_idempotent_witness :
    ((∀ j, j < matrixSize →
        (initLegalMoves { zeroGlobals 5 with gLegalMovesMatrix := fun _ => 77 }).gLegalMovesMatrix j =
          (initLegalMoves (zeroGlobals 5)).gLegalMovesMatrix j) ∧
      (initLegalMoves { zeroGlobals 5 with gLegalMovesMatrix := fun _ => 77 }).gLegalMoveToIndexOff =
        (initLegalMoves (zeroGlobals 5)).gLegalMoveToIndexOff) ∧
    ((∀ j, j < matrixSize →
        (initLegalMoves (initLegalMoves (zeroGlobals 5))).gLegalMovesMatrix j =
          (initLegalMoves (zeroGlobals 5)).gLegalMovesMatrix j) ∧
      (initLegalMoves (initLegalMoves (zeroGlobals 5))).gLegalMoveToIndexOff =
        (initLegalMoves (zeroGlobals 5)).gLegalMoveToIndexOff) ∧
    ((∀ j, j < matrixSize →
        (initLegalMoves { initLegalMoves { { zeroGlobals 5 with gLegalMovesMatrix := fun _ => 77 }
            with gGrid := 11 } with gGrid := (zeroGlobals 5).gGrid }).gLegalMovesMatrix j =
          (initLegalMoves (zeroGlobals 5)).gLegalMovesMatrix j) ∧
      (initLegalMoves { initLegalMoves { { zeroGlobals 5 with gLegalMovesMatrix := fun _ => 77 }
            with gGrid := 11 } with gGrid := (zeroGlobals 5).gGrid }).gLegalMoveToIndexOff =
        (initLegalMoves (zeroGlobals 5)).gLegalMoveToIndexOff) :=
  C16_builder_idempotent (zeroGlobals 5) { zeroGlobals 5 with gLegalMovesMatrix := fun _ => 77 }
    11 (by decide) rfl

/-! ## Rows: destinations, then sentinels -/

/-- Refutation of C18 as stated: `-g=5 0 1` parses without a configuration
error, its initial path `[0, 1]` fails validation with code 2, and `main`
returns -1, which is negative and is neither 0 nor the code 2. -/
theorem C18_rejected_path_status_negative :
    exitStatus (main 0 [Arg.grid 5, Arg.number 0, Arg.number 1]) = some (-1) ∧
      (initializeEngine (zeroGlobals 5) [0, 1]).map Prod.fst = some 2 := by
  decide!

/-- C18 as amended: when the arguments parse without a configuration error,
help is not requested, and the validation of the initial path (the given
elements, or `[0]` when none is given) returns a code other than 0, `main`
returns -1 and the search is not run. -/
theorem C18_rejected_path_exits_minus_one (fuel : Nat) (args : List Arg) (v : MainVars)
    (c : Nat) (g1 : Globals)
    (hp : parseArgs args { gGrid := 8, gVerbose := false, printHelpAndExit := false,
                           initialStackFromArg := [] } = ParseOutcome.parsed v)
    (hl : v.initialStackFromArg.length ≠ MAX_GRID * MAX_GRID + 1)
    (hh : v.printHelpAndExit = false)
    (hv : initializeEngine (zeroGlobals v.gGrid)
        (if v.initialStackFromArg.length = 0 then [0] else v.initialStackFromArg) = some (c, g1))
    (hc : c ≠ 0) :
    main fuel args = MainOutcome.exit (-1) none ∧ exitStatus (main fuel args) = some (-1) := by
  have e : main fuel args = MainOutcome.exit (-1) none := by
    unfold main
    rw [hp]
    simp only
    rw [if_neg hl]
    simp only [hh, hv]
    rw [if_pos hc]
    simp
  rw [e]
  exact ⟨rfl, rfl⟩

theorem C18_rejected_path_exits_minus_one_witness :
    main 7 [Arg.grid 5, Arg.number 0, Arg.number 1] = MainOutcome.exit (-1) none ∧
      exitStatus (main 7 [Arg.grid 5, Arg.number 0, Arg.number 1]) = some (-1) := by
  obtain ⟨g1, e⟩ := initialize_0_1 (zeroGlobals 5) (by decide) (by decide)
  exact C18_rejected_path_exits_minus_one 7 [Arg.grid 5, Arg.number 0, Arg.number 1]
    { gGrid := 5, gVerbose := false, printHelpAndExit := false, initialStackFromArg := [0, 1] }
    2 g1 (parse_0_1 5 (by decide) (by decide)) (by decide) rfl e (by decide)

/-! ## Order of the move lists -/

theorem dests_sorted (N : Nat) (h5 : 5 ≤ N) (h11 : N ≤ 11) :
    ∀ s, s < N * N → (dests N s).Pairwise (fun a b => a < b) := by
  interval_cases N <;> decide

/-- C19: for a board size 5 to 11 and a square `s` of the board, the move list
`initLegalMoves` builds for `s` (the entries of row `s` before the first
sentinel) is strictly increasing, hence without duplicates, and the slots of
the row the cursor passes through in turn, columns `c < d` below the length of
the move list, hold squares in ascending order. -/
theorem C19_move_lists_sorted (g : Globals) (s : Nat)
    (h5 : 5 ≤ g.gGrid) (h11 : g.gGrid ≤ 11) (hs : s < g.gGrid * g.gGrid) :
    (moveList (initLegalMoves g) s).Pairwise (fun a b => a < b) ∧
      (moveList (initLegalMoves g) s).Nodup ∧
      ∀ c d, c < d → d < (moveList (initLegalMoves g) s).length →
        (initLegalMoves g).gLegalMovesMatrix (s * 9 + c) <
          (initLegalMoves g).gLegalMovesMatrix (s * 9 + d) := by
  have hp := dests_sorted g.gGrid h5 h11 s hs
  have hlen := dests_length_le g.gGrid s
  rw [moveList_eq g h5 h11 s hs]
  refine ⟨hp, hp.imp (fun h => ne_of_lt h), fun c d hcd hd => ?_⟩
  rw [matrix_row g h11 s c hs (by omega), matrix_row g h11 s d hs (by omega),
    List.getD_eq_getElem _ _ (by omega), List.getD_eq_getElem _ _ hd]
  exact List.pairwise_iff_getElem.mp hp c d (by omega) hd hcd

theorem C19_move_lists_sorted_witness :
    (moveList (initLegalMoves (zeroGlobals 8)) 27).Pairwise (fun a b => a < b) ∧
      (moveList (initLegalMoves (zeroGlobals 8)) 27).Nodup ∧
      ∀ c d, c < d → d < (moveList (initLegalMoves (zeroGlobals 8)) 27).length →
        (initLegalMoves (zeroGlobals 8)).gLegalMovesMatrix (27 * 9 + c) <
          (initLegalMoves (zeroGlobals 8)).gLegalMovesMatrix (27 * 9 + d) :=
  C19_move_lists_sorted (zeroGlobals 8) 27 (by decide) (by decide) (by decide)

/-! ## Index bounds during the search -/

/-- C20: after a successful validation on a board of size 5 to 11, no number of
passes of the loop of `findSequentialSolutions` ends in an access outside an
array, and at the head of every iteration the candidate `next` is a square in
`0..N*N-1`, `gHit` is between 1 and `N*N` (so the retreat reads
`gPositionStack[gHit-1]` inside `0..N*N-1`), the advance branch, taken when
`gTally[next]` is 0, stores at `gPositionStack[gHit]` with `gHit ≤ N*N-1`, and
every cursor on the stack lies in the row of a square of the board at a column
of at most 7, so that the cursor and the cursor plus one are among the 9 slots
of that row. -/
theorem C20_search_in_bounds (g : Globals) (p : List Int) (g1 : Globals) (fuel : Nat)
    (h5 : 5 ≤ g.gGrid) (h11 : g.gGrid ≤ 11)
    (hinit : initializeEngine g p = some (0, g1)) :
    findSequentialSolutions fuel g1 ≠ Outcome.fault ∧
      ∀ s, findSequentialSolutions fuel g1 = Outcome.running s →
        (0 ≤ s.next ∧ s.next < g.gGrid * g.gGrid) ∧
        (1 ≤ s.g.gHit ∧ s.g.gHit ≤ g.gGrid * g.gGrid) ∧
        (s.g.gTally s.next.toNat = 0 → s.g.gHit + 1 ≤ g.gGrid * g.gGrid) ∧
        ∀ k, k < s.g.gHit →
          s.g.gPositionStack k / 9 < g.gGrid * g.gGrid ∧
            s.g.gPositionStack k % 9 + 1 < 9 ∧
            s.g.gPositionStack k + 1 < (s.g.gPositionStack k / 9) * 9 + 9 := by
  obtain ⟨s0, hs0, inv0, -, hout0, hG0, -⟩ :=
    start_spec _ p g1 (initLegalMoves_tableOK g h5 h11) hinit
  rw [initLegalMoves_grid] at hG0
  have hgood := searchLoop_good g.gGrid fuel s0 inv0 hG0 (by rw [hout0]; simp)
  have e : findSequentialSolutions fuel g1 = searchLoop fuel s0 := by
    unfold findSequentialSolutions
    rw [hs0]
  rw [e]
  refine ⟨fun hf => ?_, fun s hrun => ?_⟩
  · rw [hf] at hgood
    exact hgood
  · rw [hrun] at hgood
    obtain ⟨inv, hG, -⟩ := hgood
    have hle := inv.wf.le
    have hn := inv.next_rng
    rw [hG] at hle hn
    refine ⟨hn, ⟨inv.pos, hle⟩, fun h0 => ?_, fun k hk => ?_⟩
    · obtain ⟨s2, -, i2, eH, eG, -⟩ := advance_spec s inv h0
      have := i2.wf.le
      rw [eH, eG, hG] at this
      exact this
    · have h1 := inv.wf.sq_lt k hk
      have h2 := inv.wf.cols k hk
      rw [hG] at h1
      exact ⟨h1, by omega, by omega⟩

theorem C20_search_in_bounds_witness :
    ∃ g1, initializeEngine (zeroGlobals 5) ([0, 7].map Int.ofNat) = some (0, g1) ∧
      findSequentialSolutions 1 g1 ≠ Outcome.fault ∧
      ∀ s, findSequentialSolutions 1 g1 = Outcome.running s →
        (0 ≤ s.next ∧ s.next < (zeroGlobals 5).gGrid * (zeroGlobals 5).gGrid) ∧
        (1 ≤ s.g.gHit ∧ s.g.gHit ≤ (zeroGlobals 5).gGrid * (zeroGlobals 5).gGrid) ∧
        (s.g.gTally s.next.toNat = 0 →
          s.g.gHit + 1 ≤ (zeroGlobals 5).gGrid * (zeroGlobals 5).gGrid) ∧
        ∀ k, k < s.g.gHit →
          s.g.gPositionStack k / 9 < (zeroGlobals 5).gGrid * (zeroGlobals 5).gGrid ∧
            s.g.gPositionStack k % 9 + 1 < 9 ∧
            s.g.gPositionStack k + 1 < (s.g.gPositionStack k / 9) * 9 + 9 := by
  obtain ⟨g1, e, -⟩ := initializeEngine_accepts (zeroGlobals 5) [0, 7] (by decide) (by decide)
    (by decide) (by decide) (by decide) (List.chain'_pair.mpr (by decide))
    ⟨4, by decide, by decide, by decide⟩
  exact ⟨g1, e, C20_search_in_bounds (zeroGlobals 5) _ g1 1 (by decide) (by decide) e⟩

/-! ## The last-element scan on a dead end -/

theorem scanMoves_none_dead (g : Globals) (cur : Int) (j0 : Nat)
    (hvis : ∀ j, j < j0 → ∃ v t, cell g cur j = some v ∧ readTally g v = some t ∧ t ≠ 0)
    (hsent : ∃ v, cell g cur j0 = some v ∧ readTally g v = none) :
    ∀ rem i, i ≤ j0 → j0 < i + rem → scanMoves g cur none rem i = none := by
  intro rem
  induction rem with
  | zero => intro i h1 h2; omega
  | succ rem ih =>
    intro i h1 h2
    simp only [scanMoves]
    by_cases e : i = j0
    · obtain ⟨v, hv, ht⟩ := hsent
      rw [e, hv]
      simp only
      rw [ht]
    · obtain ⟨v, t, hv, ht, hne⟩ := hvis i (by omega)
      rw [hv]
      simp only
      rw [ht]
      simp only
      rw [if_neg hne]
      exact ih (i + 1) (by omega) (by omega)

/-- A legal path whose last square has every destination on the path: the
validation loop stops in the scan of the last element without a return code. -/
theorem validateFrom_dead : ∀ (rest : List Nat) (g : Globals) (k : Nat),
    Wf g k → k + rest.length ≤ g.gGrid * g.gGrid →
    (∀ q, q ∈ rest → q < g.gGrid * g.gGrid) →
    (∀ q, q ∈ rest → q ∉ pathUpTo g.gPositionStack k) → rest.Nodup →
    List.Chain' (knightMove g.gGrid) rest → rest ≠ [] →
    (∀ c, rest.getLast? = some c → ∀ t, t < g.gGrid * g.gGrid → knightMove g.gGrid c t →
      t ∈ pathUpTo g.gPositionStack k ∨ t ∈ rest) →
    validateFrom (g.gGrid * g.gGrid) g k (rest.map Int.ofNat) = none := by
  intro rest
  induction rest with
  | nil => intro g k _ _ _ _ _ _ hne _; exact absurd rfl hne
  | cons c rest ih =>
    intro g k w hlen hrng hnot hnd hch _ hlast
    obtain ⟨h5, h11, hoff, hM⟩ := w.table
    have hts := w.tallySize_ge
    have hcN : c < g.gGrid * g.gGrid := hrng c (List.mem_cons_self _ _)
    have hct : g.gTally c = 0 := by
      rw [w.tally c (by omega), if_neg (hnot c (List.mem_cons_self _ _))]
    simp only [List.length_cons] at hlen
    rw [List.map_cons, validateFrom]
    rw [if_neg (by simp only [Int.ofNat_eq_coe, ge_iff_le, Nat.cast_le]; omega)]
    rw [readTally_lt g _ (by simp) (by simp only [Int.ofNat_eq_coe, Nat.cast_lt]; omega)]
    simp only [Int.ofNat_eq_coe, Int.toNat_ofNat, hct, ne_eq, not_true_eq_false, if_false]
    obtain ⟨ga, hga⟩ : ∃ ga : Globals, ga =
        { g with gTally := Function.update g.gTally c 1, gHit := g.gHit + 1 } := ⟨_, rfl⟩
    rw [← hga]
    have gaT : TableOK ga := by rw [hga]; exact ⟨h5, h11, hoff, hM⟩
    have gaG : ga.gGrid = g.gGrid := by rw [hga]
    cases rest with
    | nil =>
      have hcell : ∀ j, j < 9 → cell ga (c : Int) j = some (slot g.gGrid c j) := by
        intro j hj
        rw [cell_row gaT _ _ (by simp) (by simpa [gaG] using hcN) hj, gaG]
        simp
      have hlen8 := dests_length_le g.gGrid c
      have hscan : scanMoves ga (c : Int) none 9 0 = none := by
        apply scanMoves_none_dead ga (c : Int) (dests g.gGrid c).length
        · intro j hj
          have hne : slot g.gGrid c j ≠ -1 := (slot_lt_length g.gGrid c j h5 h11 hcN).mpr hj
          obtain ⟨a0, a1, a2, -⟩ := slot_knight g.gGrid c j h5 h11 hcN hne
          refine ⟨_, _, hcell j (by omega), readTally_lt ga _ a0 (by omega), ?_⟩
          rw [hga]
          simp only
          by_cases e : (slot g.gGrid c j).toNat = c
          · rw [e, Function.update_same]
            decide
          · rw [Function.update_noteq e, w.tally _ (by omega)]
            rcases hlast c rfl _ a1 a2 with h1 | h1
            · rw [if_pos h1]
              decide
            · exact absurd (List.mem_singleton.mp h1) e
        · refine ⟨_, hcell _ (by omega), ?_⟩
          have e : slot g.gGrid c (dests g.gGrid c).length = -1 := by
            by_contra hne
            have := (slot_lt_length g.gGrid c _ h5 h11 hcN).mp hne
            omega
          rw [e]
          rfl
        · exact Nat.zero_le _
        · omega
      simp only [List.map_nil, List.head?_nil]
      rw [hscan]
    | cons d rest2 =>
      have hdN : d < g.gGrid * g.gGrid := hrng d (by simp)
      have hk : knightMove g.gGrid c d := (List.chain'_cons.mp hch).1
      have hm := (mem_dests g.gGrid d c hdN h5 h11).mpr ⟨hcN, knightMove_symm _ _ _ hk⟩
      obtain ⟨j0, hj0, hj7, hs0⟩ := slot_of_mem _ _ _ hm
      have hcell : ∀ j, j < 9 → cell ga (d : Int) j = some (slot g.gGrid d j) := by
        intro j hj
        rw [cell_row gaT _ _ (by simp) (by simpa [gaG] using hdN) hj, gaG]
        simp
      obtain ⟨r, hr, hr2⟩ := scanMoves_some_find ga (c : Int) (d : Int) j0
        (fun j hj => ⟨_, hcell j (by omega)⟩) (by rw [hcell j0 (by omega), hs0])
        9 0 (Nat.zero_le _) (by omega)
      have hr7 : r ≤ 7 := by omega
      have hr3 : scanMoves ga (c : Int) (List.map Int.ofNat (d :: rest2)).head? 9 0 = some r := by
        simpa using hr
      rw [hr3]
      simp only
      rw [if_neg (by omega), if_pos (by omega)]
      obtain ⟨gb, hgb⟩ : ∃ gb : Globals, gb =
          { g with gTally := Function.update g.gTally c 1, gHit := g.gHit + 1,
                   gPositionStack := Function.update g.gPositionStack k (c * 9 + r) } :=
        ⟨_, rfl⟩
      have gbG : gb.gGrid = g.gGrid := by rw [hgb]
      obtain ⟨wb, hpb⟩ := w.push gb c r hcN hr7 hct (by rw [hgb]) (by rw [hgb])
        (by rw [hgb]) (by rw [hgb]) (by rw [hgb])
      have hnd2 := List.nodup_cons.mp hnd
      have := ih gb (k + 1) wb (by rw [gbG]; simp only [List.length_cons] at hlen ⊢; omega)
        (fun q hq => by rw [gbG]; exact hrng q (List.mem_cons_of_mem _ hq))
        (fun q hq => by
          rw [hpb]
          intro hin
          rcases List.mem_append.mp hin with h1 | h1
          · exact hnot q (List.mem_cons_of_mem _ hq) h1
          · rw [List.mem_singleton.mp h1] at hq
            exact hnd2.1 hq)
        hnd2.2 (by rw [gbG]; exact hch.tail) (List.cons_ne_nil _ _)
        (fun c2 hc2 t ht hkt => by
          have hl : (c :: d :: rest2).getLast? = some c2 := by
            rw [List.getLast?_cons_cons]; exact hc2
          rw [gbG] at ht hkt
          rw [hpb]
          rcases hlast c2 hl t ht hkt with h1 | h1
          · exact Or.inl (List.mem_append_left _ h1)
          · rcases List.mem_cons.mp h1 with h2 | h2
            · exact Or.inl (List.mem_append_right _ (by rw [h2]; exact List.mem_singleton_self _))
            · exact Or.inr h2)
      rw [gbG, hgb] at this
      exact this

/-- C12, refuted on its whole domain: for a board size 5 to 11 and a path of
pairwise distinct squares of the board, consecutive ones a knight move apart,
whose last square has every legal destination on the path, the validation does
not return 2 or any other code.  Row `last` of the table holds at some column
`j ≤ 8` the sentinel -1 after `j` destinations that are all on the path, so the
scan of the last element, which evaluates `gTally[gLegalMovesMatrix[last][i]]`
for `i = 0, 1, ...`, finds no zero before column `j` and reads `gTally[-1]`
there, an index outside the array. -/
theorem C12_dead_end_reads_outside (g : Globals) (p : List Nat)
    (h5 : 5 ≤ g.gGrid) (h11 : g.gGrid ≤ 11) (hne : p ≠ [])
    (hrng : ∀ q, q ∈ p → q < g.gGrid * g.gGrid) (hnd : p.Nodup)
    (hch : List.Chain' (knightMove g.gGrid) p)
    (hdead : ∀ t, t < g.gGrid * g.gGrid → knightMove g.gGrid (p.getLast hne) t → t ∈ p) :
    initializeEngine g (p.map Int.ofNat) = none ∧
      (∃ j, j ≤ 8 ∧
        (∀ i, i < j → 0 ≤ (initLegalMoves g).gLegalMovesMatrix (p.getLast hne * 9 + i) ∧
          ((initLegalMoves g).gLegalMovesMatrix (p.getLast hne * 9 + i)).toNat ∈ p) ∧
        (initLegalMoves g).gLegalMovesMatrix (p.getLast hne * 9 + j) = -1) ∧
      ∀ g2 : Globals, readTally g2 (-1) = none := by
  have hT := initLegalMoves_tableOK g h5 h11
  have hlen := nodup_length_le p _ hnd hrng
  have hlastN : p.getLast hne < g.gGrid * g.gGrid := hrng _ (List.getLast_mem hne)
  have hv := validateFrom_dead p _ 0 (wf_zero _ hT) (by simpa using hlen)
    hrng (fun q _ => by simp [pathUpTo]) hnd hch hne (fun c hc t ht hk => by
      rw [List.getLast?_eq_getLast _ hne] at hc
      simp only [Option.some.injEq] at hc
      exact Or.inr (hdead t ht (hc ▸ hk)))
  refine ⟨?_, ⟨(dests g.gGrid (p.getLast hne)).length, ?_, fun i hi => ?_, ?_⟩, fun g2 => rfl⟩
  · unfold initializeEngine initTallyAndPositionStack
    rw [if_neg (by simpa using hne)]
    simp only [List.length_map]
    rw [if_neg (by simpa using hlen)]
    simp only [initLegalMoves_grid] at hv ⊢
    rw [hv]
  · have := dests_length_le g.gGrid (p.getLast hne)
    omega
  · have h8 := dests_length_le g.gGrid (p.getLast hne)
    rw [matrix_row g h11 _ i hlastN (by omega)]
    have hs : slot g.gGrid (p.getLast hne) i ≠ -1 :=
      (slot_lt_length g.gGrid _ i h5 h11 hlastN).mpr hi
    obtain ⟨a0, a1, a2, -⟩ := slot_knight g.gGrid _ i h5 h11 hlastN hs
    exact ⟨a0, hdead _ a1 a2⟩
  · have h8 := dests_length_le g.gGrid (p.getLast hne)
    rw [matrix_row g h11 _ _ hlastN (by omega)]
    exact List.getD_eq_default _ _ (Nat.le_refl _)

theorem C12_dead_end_reads_outside_witness :
    initializeEngine (zeroGlobals 5) (([7, 18, 11, 0] : List Nat).map Int.ofNat) = none ∧
      (∃ j, j ≤ 8 ∧
        (∀ i, i < j → 0 ≤ (initLegalMoves (zeroGlobals 5)).gLegalMovesMatrix
            (([7, 18, 11, 0] : List Nat).getLast (by decide) * 9 + i) ∧
          ((initLegalMoves (zeroGlobals 5)).gLegalMovesMatrix
            (([7, 18, 11, 0] : List Nat).getLast (by decide) * 9 + i)).toNat ∈
              ([7, 18, 11, 0] : List Nat)) ∧
        (initLegalMoves (zeroGlobals 5)).gLegalMovesMatrix
          (([7, 18, 11, 0] : List Nat).getLast (by decide) * 9 + j) = -1) ∧
      ∀ g2 : Globals, readTally g2 (-1) = none :=
  C12_dead_end_reads_outside (zeroGlobals 5) [7, 18, 11, 0] (by decide) (by decide) (by decide)
    (by decide) (by decide)
    (by
      simp only [List.chain'_cons, List.chain'_singleton, and_true]
      decide)
    (by decide)

/-! ## An off-board element after a legal prefix -/

theorem cell_high {g : Globals} (ht : TableOK g) (x c : Nat)
    (hx : g.gGrid * g.gGrid ≤ x) (hx127 : x ≤ 127) (hc : c < 9) :
    cell g (x : Int) c = some (if x < g.gGrid * g.gGrid + g.gGrid * g.gGrid then
      ((x - g.gGrid * g.gGrid : Nat) : Int) else -1) := by
  obtain ⟨_, h11, _, hM⟩ := ht
  have hlt : x * 9 + c < matrixSize := by simp only [matrixSize, MAX_GRID]; omega
  have e1 : (x * 9 + c) / 9 = x := by omega
  unfold cell readMatrix
  rw [if_pos ⟨by simp, hc⟩]
  simp only [Int.toNat_ofNat]
  rw [if_pos hlt, hM _ hlt]
  simp only [table, e1]
  rw [if_neg (by omega)]

/-- The validation loop on a legal path `p` followed by an element `x` at or
above `N*N`: code 4 when `p` is empty or `x` is `N*N` plus the last square of
`p`, code 2 otherwise. -/
theorem validateFrom_off (x : Nat) (tail : List Int) : ∀ (p : List Nat) (g : Globals) (k : Nat),
    Wf g k → k + p.length ≤ g.gGrid * g.gGrid →
    (∀ q, q ∈ p → q < g.gGrid * g.gGrid) →
    (∀ q, q ∈ p → q ∉ pathUpTo g.gPositionStack k) → p.Nodup →
    List.Chain' (knightMove g.gGrid) p → g.gGrid * g.gGrid ≤ x → x ≤ 127 →
    ∃ g1, validateFrom (g.gGrid * g.gGrid) g k (p.map Int.ofNat ++ (x : Int) :: tail) =
      some (match p.getLast? with
            | none => 4
            | some c => if x = g.gGrid * g.gGrid + c then 4 else 2, g1) := by
  intro p
  induction p with
  | nil =>
    intro g k _ _ _ _ _ _ hx _
    refine ⟨g, ?_⟩
    simp only [List.map_nil, List.nil_append, List.getLast?_nil]
    rw [validateFrom, if_pos (by simp only [ge_iff_le, Nat.cast_le]; exact hx)]
  | cons c rest ih =>
    intro g k w hlen hrng hnot hnd hch hx hx127
    obtain ⟨h5, h11, hoff, hM⟩ := w.table
    have hts := w.tallySize_ge
    have hcN : c < g.gGrid * g.gGrid := hrng c (List.mem_cons_self _ _)
    have hct : g.gTally c = 0 := by
      rw [w.tally c (by omega), if_neg (hnot c (List.mem_cons_self _ _))]
    simp only [List.length_cons] at hlen
    rw [List.map_cons, List.cons_append, validateFrom]
    rw [if_neg (by simp only [Int.ofNat_eq_coe, ge_iff_le, Nat.cast_le]; omega)]
    rw [readTally_lt g _ (by simp) (by simp only [Int.ofNat_eq_coe, Nat.cast_lt]; omega)]
    simp only [Int.ofNat_eq_coe, Int.toNat_ofNat, hct, ne_eq, not_true_eq_false, if_false]
    obtain ⟨ga, hga⟩ : ∃ ga : Globals, ga =
        { g with gTally := Function.update g.gTally c 1, gHit := g.gHit + 1 } := ⟨_, rfl⟩
    rw [← hga]
    have gaT : TableOK ga := by rw [hga]; exact ⟨h5, h11, hoff, hM⟩
    have gaG : ga.gGrid = g.gGrid := by rw [hga]
    cases rest with
    | nil =>
      simp only [List.map_nil, List.nil_append, List.head?_cons, List.getLast?_singleton]
      have hcell : ∀ j, j < 9 → cell ga (x : Int) j =
          some (if x < g.gGrid * g.gGrid + g.gGrid * g.gGrid then
            ((x - g.gGrid * g.gGrid : Nat) : Int) else -1) := by
        intro j hj
        rw [cell_high gaT x j (by rw [gaG]; exact hx) hx127 hj, gaG]
      by_cases e : x = g.gGrid * g.gGrid + c
      · rw [if_pos e]
        have hc0 : cell ga (x : Int) 0 = some (c : Int) := by
          rw [hcell 0 (by omega), if_pos (by omega)]
          congr 2
          omega
        obtain ⟨r, hr, hr2⟩ := scanMoves_some_find ga (c : Int) (x : Int) 0
          (fun j hj => ⟨_, hcell j (by omega)⟩) hc0 9 0 (Nat.zero_le _) (by omega)
        rw [hr]
        simp only
        rw [if_neg (by omega), if_pos (by omega)]
        rw [validateFrom, if_pos (by simp only [ge_iff_le, Nat.cast_le]; exact hx)]
        exact ⟨_, rfl⟩
      · rw [if_neg e]
        have hmiss := scanMoves_some_miss ga (c : Int) (x : Int) (fun i hi => by
          refine ⟨_, hcell i hi, ?_⟩
          by_cases h2 : x < g.gGrid * g.gGrid + g.gGrid * g.gGrid
          · rw [if_pos h2]
            intro hcon
            have : x - g.gGrid * g.gGrid = c := by exact_mod_cast hcon
            omega
          · rw [if_neg h2]
            omega) 9 0 (by omega)
        rw [hmiss]
        simp only [if_true]
        exact ⟨_, rfl⟩
    | cons d rest2 =>
      have hdN : d < g.gGrid * g.gGrid := hrng d (by simp)
      have hk : knightMove g.gGrid c d := (List.chain'_cons.mp hch).1
      have hm := (mem_dests g.gGrid d c hdN h5 h11).mpr ⟨hcN, knightMove_symm _ _ _ hk⟩
      obtain ⟨j0, hj0, hj7, hs0⟩ := slot_of_mem _ _ _ hm
      have hcell : ∀ j, j < 9 → cell ga (d : Int) j = some (slot g.gGrid d j) := by
        intro j hj
        rw [cell_row gaT _ _ (by simp) (by simpa [gaG] using hdN) hj, gaG]
        simp
      obtain ⟨r, hr, hr2⟩ := scanMoves_some_find ga (c : Int) (d : Int) j0
        (fun j hj => ⟨_, hcell j (by omega)⟩) (by rw [hcell j0 (by omega), hs0])
        9 0 (Nat.zero_le _) (by omega)
      have hr7 : r ≤ 7 := by omega
      have hr3 : scanMoves ga (c : Int)
          (List.map Int.ofNat (d :: rest2) ++ (x : Int) :: tail).head? 9 0 = some r := by
        simpa using hr
      rw [hr3]
      simp only
      rw [if_neg (by omega), if_pos (by simp only [List.length_cons] at hlen; omega)]
      obtain ⟨gb, hgb⟩ : ∃ gb : Globals, gb =
          { g with gTally := Function.update g.gTally c 1, gHit := g.gHit + 1,
                   gPositionStack := Function.update g.gPositionStack k (c * 9 + r) } :=
        ⟨_, rfl⟩
      have gbG : gb.gGrid = g.gGrid := by rw [hgb]
      obtain ⟨wb, hpb⟩ := w.push gb c r hcN hr7 hct (by rw [hgb]) (by rw [hgb])
        (by rw [hgb]) (by rw [hgb]) (by rw [hgb])
      have hnd2 := List.nodup_cons.mp hnd
      have := ih gb (k + 1) wb (by rw [gbG]; simp only [List.length_cons] at hlen ⊢; omega)
        (fun q hq => by rw [gbG]; exact hrng q (List.mem_cons_of_mem _ hq))
        (fun q hq => by
          rw [hpb]
          intro hin
          rcases List.mem_append.mp hin with h1 | h1
          · exact hnot q (List.mem_cons_of_mem _ hq) h1
          · rw [List.mem_singleton.mp h1] at hq
            exact hnd2.1 hq)
        hnd2.2 (by rw [gbG]; exact hch.tail) (by rw [gbG]; exact hx) hx127
      rw [gbG, hgb] at this
      rw [List.getLast?_cons_cons]
      exact this

/-- C13, refuted: for a board size 5 to 11, a legal knight path `p` (possibly
empty) followed by an element `x` with `N*N ≤ x ≤ 127` and any further
elements, at most `N*N` elements in all, the validation returns 4 only when `x`
is the first element or `x = N*N + c` for the last square `c` of `p`; in every
other case it returns 2.  While `c` is processed the scan reads row `x` of the
table, which for `N*N ≤ x < 2*N*N` holds the constant `x - N*N` and above that
-1, before `x` is compared with `N*N`. -/
theorem C13_off_board_codes (g : Globals) (p : List Nat) (x : Nat) (tail : List Int)
    (h5 : 5 ≤ g.gGrid) (h11 : g.gGrid ≤ 11)
    (hrng : ∀ q, q ∈ p → q < g.gGrid * g.gGrid) (hnd : p.Nodup)
    (hch : List.Chain' (knightMove g.gGrid) p)
    (hx : g.gGrid * g.gGrid ≤ x) (hx127 : x ≤ 127)
    (hlen : p.length + 1 + tail.length ≤ g.gGrid * g.gGrid) :
    ∃ g1, initializeEngine g (p.map Int.ofNat ++ (x : Int) :: tail) =
      some (match p.getLast? with
            | none => 4
            | some c => if x = g.gGrid * g.gGrid + c then 4 else 2, g1) := by
  have hT := initLegalMoves_tableOK g h5 h11
  obtain ⟨g1, hv⟩ := validateFrom_off x tail p _ 0 (wf_zero _ hT)
    (by simp only [initLegalMoves_grid]; omega) hrng (fun q _ => by simp [pathUpTo]) hnd hch
    hx hx127
  refine ⟨g1, ?_⟩
  unfold initializeEngine initTallyAndPositionStack
  rw [if_neg (by simp)]
  simp only [List.length_append, List.length_map, List.length_cons]
  rw [if_neg (by simp only [initLegalMoves_grid]; omega)]
  simp only [initLegalMoves_grid] at hv ⊢
  rw [hv]
  cases hl : p.getLast? with
  | none => rfl
  | some c =>
    simp only
    by_cases e : x = g.gGrid * g.gGrid + c
    · rw [if_pos e]
    · rw [if_neg e]

theorem C13_off_board_codes_witness :
    ∃ g1, initializeEngine (zeroGlobals 5) [0, 30] = some (2, g1) :=
  C13_off_board_codes (zeroGlobals 5) [0] 30 [] (by decide) (by decide) (by decide)
    (by decide) (List.chain'_singleton _) (by decide) (by decide) (by decide)

/-! ## The state a failed validation leaves -/

theorem scanMoves_le (g : Globals) (cur : Int) (nxt : Option Int) :
    ∀ rem i r, scanMoves g cur nxt rem i = some r → r ≤ i + rem := by
  intro rem
  induction rem with
  | zero =>
    intro i r h
    simp only [scanMoves, Option.some.injEq] at h
    omega
  | succ rem ih =>
    intro i r h
    cases nxt with
    | none =>
      simp only [scanMoves] at h
      cases hc : cell g cur i with
      | none => rw [hc] at h; simp at h
      | some v =>
        rw [hc] at h
        simp only at h
        cases ht : readTally g v with
        | none => rw [ht] at h; simp at h
        | some t =>
          rw [ht] at h
          simp only at h
          by_cases e : t = 0
          · rw [if_pos e] at h
            simp only [Option.some.injEq] at h
            omega
          · rw [if_neg e] at h
            have := ih (i + 1) r h
            omega
    | some nx =>
      simp only [scanMoves] at h
      cases hc : cell g nx i with
      | none => rw [hc] at h; simp at h
      | some v =>
        rw [hc] at h
        simp only at h
        by_cases e : v = cur
        · rw [if_pos e] at h
          simp only [Option.some.injEq] at h
          omega
        · rw [if_neg e] at h
          have := ih (i + 1) r h
          omega

theorem scanMoves_miss_all (g : Globals) (cur nx : Int) :
    ∀ rem i, scanMoves g cur (some nx) rem i = some (i + rem) →
      ∀ col, i ≤ col → col < i + rem → ∀ v, cell g nx col = some v → v ≠ cur := by
  intro rem
  induction rem with
  | zero => intro i _ col h1 h2; omega
  | succ rem ih =>
    intro i h col h1 h2 v hv
    simp only [scanMoves] at h
    cases hc : cell g nx i with
    | none => rw [hc] at h; simp at h
    | some w =>
      rw [hc] at h
      simp only at h
      by_cases e : w = cur
      · rw [if_pos e] at h
        simp only [Option.some.injEq] at h
        omega
      · rw [if_neg e] at h
        by_cases hci : col = i
        · rw [hci, hc] at hv
          simp only [Option.some.injEq] at hv
          rw [← hv]
          exact e
        · have e2 : i + (rem + 1) = i + 1 + rem := by omega
          rw [e2] at h
          exact ih (i + 1) h col (by omega) (by omega) v hv

/-- What the validation loop has written when it stops: the first `n` elements
are marked in `gTally` and counted in `gHit`, the first `j` of them have their
cursor on the stack, and nothing else has changed. -/
theorem validateFrom_state (m : Nat) : ∀ (rest : List Int) (g : Globals) (k c : Nat)
    (g1 : Globals), validateFrom m g k rest = some (c, g1) →
      ∃ n j, n ≤ rest.length ∧ g1.gHit = g.gHit + n ∧
        (∀ q, g1.gTally q = if (q : Int) ∈ rest.take n then 1 else g.gTally q) ∧
        (∀ i, i < j → g1.gPositionStack (k + i) / 9 = (rest.getD i 0).toNat) ∧
        (∀ i, i < k ∨ k + j ≤ i → g1.gPositionStack i = g.gPositionStack i) ∧
        (c = 1 ∨ c = 4 → n = j ∧ j < rest.length) ∧ (c = 2 → n = j + 1) ∧
        (c = 4 → (m : Int) ≤ rest.getD j 0) ∧
        (c = 1 → 0 ≤ rest.getD j 0 ∧ rest.getD j 0 < tallySize ∧
          g1.gTally (rest.getD j 0).toNat ≠ 0) ∧
        (c = 2 → ∀ nx, rest.get? (j + 1) = some nx →
          ∀ col, col < 9 → ∀ v, cell g1 nx col = some v → v ≠ rest.getD j 0) := by
  intro rest
  induction rest with
  | nil =>
    intro g k c g1 h
    simp only [validateFrom, Option.some.injEq, Prod.mk.injEq] at h
    obtain ⟨h1, h2⟩ := h
    subst h1 h2
    exact ⟨0, 0, Nat.le_refl _, rfl, fun q => by simp, fun i hi => by omega, fun i _ => rfl,
      fun h => by omega, fun h => by omega, fun h => by omega, fun h => by omega,
      fun h => by omega⟩
  | cons a rest ih =>
    intro g k c g1 h
    rw [validateFrom] at h
    by_cases h4 : a ≥ (m : Int)
    · rw [if_pos h4] at h
      simp only [Option.some.injEq, Prod.mk.injEq] at h
      obtain ⟨h1, h2⟩ := h
      subst h1 h2
      exact ⟨0, 0, Nat.zero_le _, rfl, fun q => by simp, fun i hi => by omega, fun i _ => rfl,
        fun _ => ⟨rfl, by simp⟩, fun h => by omega, fun _ => by simpa using h4,
        fun h => by omega, fun h => by omega⟩
    rw [if_neg h4] at h
    cases hrt : readTally g a with
    | none => rw [hrt] at h; simp at h
    | some t =>
      rw [hrt] at h
      simp only at h
      have ha0 : 0 ≤ a := by
        unfold readTally at hrt
        by_cases hb : 0 ≤ a ∧ a < tallySize
        · exact hb.1
        · rw [if_neg hb] at hrt; simp at hrt
      by_cases ht0 : t ≠ 0
      · rw [if_pos ht0] at h
        simp only [Option.some.injEq, Prod.mk.injEq] at h
        obtain ⟨h1, h2⟩ := h
        subst h1 h2
        obtain ⟨b0, b1, b2⟩ := readTally_some hrt
        exact ⟨0, 0, Nat.zero_le _, rfl, fun q => by simp, fun i hi => by omega, fun i _ => rfl,
          fun _ => ⟨rfl, by simp⟩, fun h => by omega, fun h => by omega,
          fun _ => ⟨by simpa using b0, by simpa using b1, by
            simp only [List.getD_cons_zero]
            rw [b2]
            exact ht0⟩,
          fun h => by omega⟩
      rw [if_neg ht0] at h
      have hmark : ∀ (q : Nat) (l : List Int) (x : Int),
          (if (q : Int) ∈ a :: l then (1 : Int) else x) =
            if (q : Int) ∈ l then 1 else Function.update (fun _ : Nat => x) a.toNat 1 q := by
        intro q l x
        by_cases hq : q = a.toNat
        · have e : (q : Int) = a := by rw [hq]; exact Int.toNat_of_nonneg ha0
          rw [if_pos (by rw [e]; exact List.mem_cons_self _ _), hq, Function.update_same]
          simp
        · have e : (q : Int) ≠ a := by
            intro hcon
            apply hq
            rw [← hcon]
            simp
          rw [Function.update_noteq hq]
          by_cases hl : (q : Int) ∈ l
          · rw [if_pos (List.mem_cons_of_mem _ hl), if_pos hl]
          · rw [if_neg (by simp [e, hl]), if_neg hl]
      obtain ⟨ga, hga⟩ : ∃ ga : Globals, ga =
          { g with gTally := Function.update g.gTally a.toNat 1, gHit := g.gHit + 1 } :=
        ⟨_, rfl⟩
      rw [← hga] at h
      cases hsc : scanMoves ga a rest.head? 9 0 with
      | none => rw [hsc] at h; simp at h
      | some r =>
        rw [hsc] at h
        simp only at h
        have hr9 := scanMoves_le ga a rest.head? 9 0 r hsc
        by_cases hi9 : r = 9
        · rw [if_pos hi9] at h
          simp only [Option.some.injEq, Prod.mk.injEq] at h
          obtain ⟨h1, h2⟩ := h
          subst h1 h2
          refine ⟨1, 0, by simp, by rw [hga], fun q => ?_, fun i hi => by omega,
            fun i _ => by rw [hga], fun h => by omega, fun _ => rfl, fun h => by omega,
            fun h => by omega, fun _ nx hnx col hcol v hv => ?_⟩
          swap
          · have hh : rest.head? = some nx := by
              cases rest with
              | nil => simp at hnx
              | cons d rest2 => simpa using hnx
            rw [hh, hi9] at hsc
            simp only [List.getD_cons_zero]
            exact scanMoves_miss_all ga a nx 9 0 hsc col (Nat.zero_le _) (by omega) v hv
          rw [hga]
          simp only [List.take_succ_cons, List.take_zero]
          rw [hmark q [] (g.gTally q)]
          simp only [List.not_mem_nil, if_false]
          by_cases hq : q = a.toNat
          · rw [hq, Function.update_same, Function.update_same]
          · rw [Function.update_noteq hq, Function.update_noteq hq]
        rw [if_neg hi9] at h
        by_cases hk : k < tallySize
        · rw [if_pos hk] at h
          obtain ⟨n, j, r1, r2, r3, r4, r5, r6, r7, r8, r9, r10⟩ := ih _ (k + 1) c g1 h
          refine ⟨n + 1, j + 1, by simp only [List.length_cons]; omega, ?_, fun q => ?_,
            fun i hi => ?_, fun i hi => ?_, fun hc => ?_, fun hc => ?_,
            fun hc => by rw [List.getD_cons_succ]; exact r8 hc,
            fun hc => by rw [List.getD_cons_succ]; exact r9 hc,
            fun hc nx hnx => by
              rw [List.getD_cons_succ]
              exact r10 hc nx (by simpa using hnx)⟩
          · rw [r2]
            simp only
            omega
          · rw [r3 q]
            simp only [List.take_succ_cons]
            rw [hmark q (rest.take n) (g.gTally q)]
            by_cases hl : (q : Int) ∈ rest.take n
            · rw [if_pos hl, if_pos hl]
            · rw [if_neg hl, if_neg hl]
              by_cases hq : q = a.toNat
              · rw [hq, Function.update_same, Function.update_same]
              · rw [Function.update_noteq hq, Function.update_noteq hq]
          · cases i with
            | zero =>
              rw [Nat.add_zero, r5 k (Or.inl (by omega))]
              simp only [Function.update_same, List.getD_cons_zero]
              omega
            | succ i =>
              have := r4 i (by omega)
              have e : k + (i + 1) = k + 1 + i := by omega
              rw [e, this, List.getD_cons_succ]
          · have hik : i ≠ k := by omega
            rw [r5 i (by omega)]
            simp only
            rw [Function.update_noteq hik]
          · obtain ⟨a1, a2⟩ := r6 hc
            exact ⟨by omega, by simp only [List.length_cons]; omega⟩
          · have := r7 hc
            omega
        · rw [if_neg hk] at h
          simp at h

/-- C14 as amended: a validation that fails returns a code from 1 to 4 and
leaves the adjacency table, `gLegalMoveToIndexOff` and `gGrid` as they were
before the call.  The visited set and `gHit` are cleared at entry and nothing
is rolled back: on return `gHit = n` and `gTally[s]` is 1 exactly for the first
`n` elements of the input and 0 for every other `s < 121`, the stack positions
below `j` hold cursors in the table rows of the first `j` elements, and the
stack positions from `j` on are as before the call; here `n = j = 0` for code 3,
`n = j` is the position of the offending element for codes 1 and 4 (the
element is at least `N*N` for code 4 and occurs among the first `j` elements
for code 1), and for code 2 the element at position `j`, which no slot in the
row of its successor holds, is marked as well (`n = j + 1`) without a cursor of
its own. -/
theorem C14_failed_validation_frame (g : Globals) (p : List Int) (c : Nat) (g1 : Globals)
    (hc : c ≠ 0) (h : initTallyAndPositionStack g p = some (c, g1)) :
    (1 ≤ c ∧ c ≤ 4) ∧ g1.gLegalMovesMatrix = g.gLegalMovesMatrix ∧
      g1.gLegalMoveToIndexOff = g.gLegalMoveToIndexOff ∧ g1.gGrid = g.gGrid ∧
      ∃ n j, n ≤ p.length ∧ g1.gHit = n ∧
        (∀ q, q < tallySize → g1.gTally q = if (q : Int) ∈ p.take n then 1 else 0) ∧
        (∀ i, i < j → g1.gPositionStack i / 9 = (p.getD i 0).toNat) ∧
        (∀ i, j ≤ i → g1.gPositionStack i = g.gPositionStack i) ∧
        (c = 3 → n = 0 ∧ j = 0) ∧ (c = 1 ∨ c = 4 → n = j ∧ j < p.length) ∧
        (c = 2 → n = j + 1) ∧
        (c = 4 → ((g.gGrid * g.gGrid : Nat) : Int) ≤ p.getD j 0) ∧
        (c = 1 → p.getD j 0 ∈ p.take j) ∧
        (c = 2 → ∀ nx, p.get? (j + 1) = some nx →
          ∀ col, col < 9 → ∀ v, cell g1 nx col = some v → v ≠ p.getD j 0) := by
  obtain ⟨r0, rM, rO, rG, -⟩ := initTally_frame g p c g1 h
  refine ⟨⟨by omega, r0⟩, rM, rO, rG, ?_⟩
  unfold initTallyAndPositionStack at h
  by_cases hp : p = []
  · rw [if_pos hp] at h; simp at h
  rw [if_neg hp] at h
  simp only at h
  by_cases hl : p.length > g.gGrid * g.gGrid
  · rw [if_pos hl] at h
    simp only [Option.some.injEq, Prod.mk.injEq] at h
    obtain ⟨h1, h2⟩ := h
    subst h1 h2
    exact ⟨0, 0, Nat.zero_le _, rfl, fun q hq => by simp [hq], fun i hi => by omega,
      fun i _ => rfl, fun _ => ⟨rfl, rfl⟩, fun h => by omega, fun h => by omega,
      fun h => by omega, fun h => by omega, fun h => by omega⟩
  rw [if_neg hl] at h
  generalize hvf : validateFrom (g.gGrid * g.gGrid) _ 0 p = r at h
  cases r with
  | none => simp at h
  | some r =>
    obtain ⟨c2, g2⟩ := r
    obtain ⟨f1, -⟩ := validateFrom_frame _ p _ 0 c2 g2 hvf
    obtain ⟨n, j, s1, s2, s3, s4, s5, s6, s7, s8, s9, s10⟩ :=
      validateFrom_state _ p _ 0 c2 g2 hvf
    cases c2 with
    | zero =>
      simp only at h
      split at h
      · simp only [Option.some.injEq, Prod.mk.injEq] at h
        exact absurd h.1.symm hc
      · simp at h
    | succ m =>
      simp only [Option.some.injEq, Prod.mk.injEq] at h
      obtain ⟨h1, h2⟩ := h
      subst h1 h2
      refine ⟨n, j, s1, by rw [s2]; simp, fun q hq => ?_, fun i hi => ?_, fun i hi => ?_,
        fun h3 => by omega, s6, s7, s8, fun h1 => ?_, s10⟩
      · rw [s3 q]
        simp only [hq, if_true]
      · have := s4 i hi
        rwa [Nat.zero_add] at this
      · rw [s5 i (Or.inr (by omega))]
      · obtain ⟨b0, b1, b2⟩ := s9 h1
        have hn := (s6 (Or.inl h1)).1
        have hq : (p.getD j 0).toNat < tallySize := by omega
        rw [s3 _] at b2
        simp only [hq, if_true] at b2
        by_contra hnot
        apply b2
        rw [if_neg]
        rw [Int.toNat_of_nonneg b0, hn]
        exact hnot

theorem C14_failed_validation_frame_witness :
    ∃ g1, initTallyAndPositionStack (initLegalMoves (zeroGlobals 5)) [0, 1] = some (2, g1) ∧
      g1.gLegalMovesMatrix = (initLegalMoves (zeroGlobals 5)).gLegalMovesMatrix ∧
      ∃ n j, n ≤ ([0, 1] : List Int).length ∧ g1.gHit = n ∧
        (∀ q, q < tallySize →
          g1.gTally q = if (q : Int) ∈ ([0, 1] : List Int).take n then 1 else 0) ∧
        (∀ i, i < j → g1.gPositionStack i / 9 = (([0, 1] : List Int).getD i 0).toNat) ∧
        (∀ i, j ≤ i →
          g1.gPositionStack i = (initLegalMoves (zeroGlobals 5)).gPositionStack i) ∧
        n = j + 1 := by
  obtain ⟨g1, e⟩ := initialize_0_1 (zeroGlobals 5) (by decide) (by decide)
  obtain ⟨-, rM, -, -, n, j, a1, a2, a3, a4, a5, -, -, a8, -⟩ :=
    C14_failed_validation_frame (initLegalMoves (zeroGlobals 5)) [0, 1] 2 g1 (by decide) e
  exact ⟨g1, e, rM, n, j, a1, a2, a3, a4, a5, a8 rfl⟩

/-! ## Seeds that end in a dead end -/

/-- A legal path whose last square has every destination on the path is not
validated: the scan of its last element reads `gTally[-1]`. -/
theorem initializeEngine_dead (g : Globals) (p : List Nat)
    (h5 : 5 ≤ g.gGrid) (h11 : g.gGrid ≤ 11) (hne : p ≠ [])
    (hrng : ∀ q, q ∈ p → q < g.gGrid * g.gGrid) (hnd : p.Nodup)
    (hch : List.Chain' (knightMove g.gGrid) p)
    (hdead : ∀ t, t < g.gGrid * g.gGrid → knightMove g.gGrid (p.getLast hne) t → t ∈ p) :
    initializeEngine g (p.map Int.ofNat) = none := by
  have hT := initLegalMoves_tableOK g h5 h11
  have hlen := nodup_length_le p _ hnd hrng
  have hv := validateFrom_dead p _ 0 (wf_zero _ hT) (by simpa using hlen)
    hrng (fun q _ => by simp [pathUpTo]) hnd hch hne (fun c hc t ht hk => by
      rw [List.getLast?_eq_getLast _ hne] at hc
      simp only [Option.some.injEq] at hc
      exact Or.inr (hdead t ht (hc ▸ hk)))
  unfold initializeEngine initTallyAndPositionStack
  rw [if_neg (by simpa using hne)]
  simp only [List.length_map]
  rw [if_neg (by simpa using hlen)]
  simp only [initLegalMoves_grid] at hv ⊢
  rw [hv]

/-- The search entered with its top cursor on a slot that holds the sentinel
starts with `next = -1` and reads `gTally[-1]` in its first pass. -/
theorem search_from_sentinel (g1 : Globals) (ptr fuel : Nat) (hpos : g1.gHit ≠ 0)
    (hcur : readStack g1 (g1.gHit - 1) = some ptr) (hs : readMatrix g1 ptr = some (-1)) :
    findSequentialSolutions (fuel + 1) g1 = Outcome.fault := by
  unfold findSequentialSolutions startSearch
  rw [if_neg hpos, hcur]
  simp only
  rw [hs]
  simp only [searchLoop, step]
  rfl

/-- C2, with the seeds on which it fails: for a board size 5 to 11 and a seed
of pairwise distinct squares of the board, consecutive ones a knight move
apart, (1) when the last square has a legal destination outside the seed, the
validation returns 0 and every line `findSequentialSolutions` prints in its
completion branch has `N*N` entries, holds every square of the board exactly
once and has consecutive entries one knight move apart by the rank and file
test; (2) when the last square has no such destination, the validation does
not return 0 by the program text: the scan of the last element reads
`gTally[-1]`; (3) a search entered with its top cursor on a sentinel slot, the
state that read leaves behind when it finds 0, reads `gTally[-1]` again in its
first pass. -/
theorem C2_emitted_paths_are_tours (g : Globals) (p : List Nat)
    (h5 : 5 ≤ g.gGrid) (h11 : g.gGrid ≤ 11) (hne : p ≠ [])
    (hrng : ∀ q, q ∈ p → q < g.gGrid * g.gGrid) (hnd : p.Nodup)
    (hch : List.Chain' (knightMove g.gGrid) p) :
    ((∃ t, t < g.gGrid * g.gGrid ∧ knightMove g.gGrid (p.getLast hne) t ∧ t ∉ p) →
      ∃ g1, initializeEngine g (p.map Int.ofNat) = some (0, g1) ∧
        ∀ fuel l, l ∈ outOf (findSequentialSolutions fuel g1) →
          l.length = g.gGrid * g.gGrid ∧
          (∀ q, q < g.gGrid * g.gGrid → l.count (q : Int) = 1) ∧
          List.Chain' (fun a b => knightMove g.gGrid a.toNat b.toNat) l) ∧
    ((∀ t, t < g.gGrid * g.gGrid → knightMove g.gGrid (p.getLast hne) t → t ∈ p) →
      initializeEngine g (p.map Int.ofNat) = none) ∧
    (∀ (g1 : Globals) (ptr fuel : Nat), g1.gHit ≠ 0 →
      readStack g1 (g1.gHit - 1) = some ptr → readMatrix g1 ptr = some (-1) →
      findSequentialSolutions (fuel + 1) g1 = Outcome.fault) := by
  refine ⟨fun hlive => ?_, fun hdead => initializeEngine_dead g p h5 h11 hne hrng hnd hch hdead,
    fun g1 ptr fuel a b c => search_from_sentinel g1 ptr fuel a b c⟩
  obtain ⟨g1, e, -⟩ := initializeEngine_accepts g p h5 h11 hne hrng hnd hch hlive
  exact ⟨g1, e, fun fuel l hl => emitted_tours g _ g1 fuel l h5 h11 e hl⟩

theorem C2_emitted_paths_are_tours_witness :
    initializeEngine (zeroGlobals 5)
      (([0, 7, 4, 13, 2, 5, 16, 23, 12, 9, 18, 11, 20, 17, 14, 3, 6, 15, 22, 19, 8, 1, 10,
        21] : List Nat).map Int.ofNat) = none :=
  (C2_emitted_paths_are_tours (zeroGlobals 5)
    [0, 7, 4, 13, 2, 5, 16, 23, 12, 9, 18, 11, 20, 17, 14, 3, 6, 15, 22, 19, 8, 1, 10, 21]
    (by decide) (by decide) (by decide) (by decide) (by decide)
    (by
      simp only [List.chain'_cons, List.chain'_singleton, and_true]
      decide)).2.1 (by decide)

/-- C9, with the seeds on which it fails: for a board size 5 to 11 and a seed
of pairwise distinct squares of the board, consecutive ones a knight move
apart, (1) when the last square has a legal destination outside the seed, the
validation returns 0 and at the head of every iteration of the loop of
`findSequentialSolutions` `gHit` is between 1 and `N*N`, the squares on stack
positions `0..gHit-1` (`legalMovesToPosition` of each cursor) are pairwise
distinct, each is one knight move from the square below it, and `gTally[s]` is
1 exactly for those squares and 0 for every other square; (2) when the last
square has no such destination, the validation does not return 0 by the
program text: the scan of the last element reads `gTally[-1]`; (3) a search
entered with its top cursor on a sentinel slot, the state that read leaves
behind when it finds 0, reads `gTally[-1]` in its first pass and reaches no
second loop head inside the arrays. -/
theorem C9_engine_invariant (g : Globals) (p : List Nat)
    (h5 : 5 ≤ g.gGrid) (h11 : g.gGrid ≤ 11) (hne : p ≠ [])
    (hrng : ∀ q, q ∈ p → q < g.gGrid * g.gGrid) (hnd : p.Nodup)
    (hch : List.Chain' (knightMove g.gGrid) p) :
    ((∃ t, t < g.gGrid * g.gGrid ∧ knightMove g.gGrid (p.getLast hne) t ∧ t ∉ p) →
      ∃ g1, initializeEngine g (p.map Int.ofNat) = some (0, g1) ∧
        ∀ fuel s, findSequentialSolutions fuel g1 = Outcome.running s →
          1 ≤ s.g.gHit ∧ s.g.gHit ≤ g.gGrid * g.gGrid ∧
          ∃ path : List Nat, path.length = s.g.gHit ∧
            (∀ k (hk : k < path.length),
              legalMovesToPosition s.g (s.g.gPositionStack k) = some (path[k] : Int)) ∧
            path.Nodup ∧ List.Chain' (knightMove g.gGrid) path ∧
            ∀ q, q < tallySize → s.g.gTally q = if q ∈ path then 1 else 0) ∧
    ((∀ t, t < g.gGrid * g.gGrid → knightMove g.gGrid (p.getLast hne) t → t ∈ p) →
      initializeEngine g (p.map Int.ofNat) = none) ∧
    (∀ (g1 : Globals) (ptr fuel : Nat), g1.gHit ≠ 0 →
      readStack g1 (g1.gHit - 1) = some ptr → readMatrix g1 ptr = some (-1) →
      ∀ s, findSequentialSolutions (fuel + 1) g1 ≠ Outcome.running s) := by
  refine ⟨fun hlive => ?_, fun hdead => initializeEngine_dead g p h5 h11 hne hrng hnd hch hdead,
    fun g1 ptr fuel a b c s => ?_⟩
  · obtain ⟨g1, e, -⟩ := initializeEngine_accepts g p h5 h11 hne hrng hnd hch hlive
    exact ⟨g1, e, fun fuel s hrun => engine_invariant g _ g1 fuel s h5 h11 e hrun⟩
  · rw [search_from_sentinel g1 ptr fuel a b c]
    intro h
    cases h

theorem C9_engine_invariant_witness :
    (∃ g1, initializeEngine (zeroGlobals 5) (([0, 7] : List Nat).map Int.ofNat) = some (0, g1) ∧
      ∀ fuel s, findSequentialSolutions fuel g1 = Outcome.running s →
        1 ≤ s.g.gHit ∧ s.g.gHit ≤ (zeroGlobals 5).gGrid * (zeroGlobals 5).gGrid ∧
        ∃ path : List Nat, path.length = s.g.gHit ∧
          (∀ k (hk : k < path.length),
            legalMovesToPosition s.g (s.g.gPositionStack k) = some (path[k] : Int)) ∧
          path.Nodup ∧ List.Chain' (knightMove (zeroGlobals 5).gGrid) path ∧
          ∀ q, q < tallySize → s.g.gTally q = if q ∈ path then 1 else 0) ∧
    initializeEngine (zeroGlobals 5) (([7, 18, 11, 0] : List Nat).map Int.ofNat) = none :=
  ⟨(C9_engine_invariant (zeroGlobals 5) [0, 7] (by decide) (by decide) (by decide) (by decide)
      (by decide) (List.chain'_pair.mpr (by decide))).1 ⟨4, by decide, by decide, by decide⟩,
    (C9_engine_invariant (zeroGlobals 5) [7, 18, 11, 0] (by decide) (by decide) (by decide)
      (by decide) (by decide)
      (by
        simp only [List.chain'_cons, List.chain'_singleton, and_true]
        decide)).2.1 (by decide)⟩

end Knight
